import Mathlib

/-!
# Lowering of the Kaleidoscope syntax tree to IR (`src/driver.cpp`)

A shallow embedding of the `codegen` methods of `driver.cpp`.

* The process-wide `module`, `builder` and the driver's `NamedValues` table are the
  fields of one explicit `State` that every `codegen` function threads through.
* A `Value*` / `AllocaInst*` / `BasicBlock*` is the numeric identity of the object it
  points to; `nullptr` is `Option.none`.  Identities are drawn from `State.nextId`.
* A `codegen` function returns `none` when the C++ code dereferences a null pointer or
  reads an uninitialised one (it does not return), and `some (r, st)` when it returns
  `r` (`r = none` is the `nullptr` failure sentinel) leaving the global state `st`.
* A `double` literal is represented by its IEEE-754 bit pattern, which is what
  `ConstantFP::get` uniques constants by.
* A `Create...` call of the IR builder inserts the instruction it is asked for at the
  insertion point. The arithmetic and comparison calls of `BinaryExprAST::codegen`
  (`CreateFAdd`, ..., `CreateFCmpUEQ`) first hand two constant operands to the builder's
  constant folder, which returns a constant and inserts nothing; that constant is
  recorded as `Value.folded`, its numeric value is not computed. The calls of
  `LogicalExprAST::codegen` are recorded as inserting their instruction whatever the
  operands are.
* The module records a function, a global variable and a parameter under the name the
  syntax tree gives it. The IR library keeps that name when it is free (no function
  and no global variable of the module has it; no earlier parameter of the function
  has it) and otherwise appends a suffix, which is not recorded; the statements about
  what a parameter name or a function's own name resolves to (C3, C25) assume that the
  name is free.
-/

namespace Kaleidoscope

/-! ## IR objects -/

/-- An IR value handle (`llvm::Value*`). `folded op l r` is the constant that the
constant folder of the builder returns for the operator `op` on the constants `l` and
`r`: a `ConstantFP` for an arithmetic operator, an `i1` constant for a comparison. -/
inductive Value
  | constFP (bits : Nat)
  | inst (id : Nat)
  | argument (fn : String) (idx : Nat)
  | global (name : String)
  | function (name : String)
  | folded (op : Char) (l r : Value)
  deriving DecidableEq, Repr

/-- The value is one of the constants an expression lowers to: the constant of a
literal, the zero a `for` returns, or a constant folded from such constants. (The other
constants of the IR, functions and global variables, are never the value of an
expression: a global variable is read through a `load`.) -/
def Value.isConstant : Value → Bool
  | .constFP _ => true
  | .folded _ _ _ => true
  | _ => false

/-- The instructions the lowering creates. Instructions that produce a value carry
their identity `id`; a slot is the `alloca` that created it. A `phi` is recorded with
the incoming pairs that `addIncoming` gives it right after its creation. -/
inductive Instr
  | alloca (id : Nat) (name : String)
  | load (id : Nat) (ptr : Value)
  | store (val ptr : Value)
  | not (id : Nat) (v : Value)
  | or (id : Nat) (l r : Value)
  | and (id : Nat) (l r : Value)
  | fadd (id : Nat) (l r : Value)
  | fsub (id : Nat) (l r : Value)
  | fmul (id : Nat) (l r : Value)
  | fdiv (id : Nat) (l r : Value)
  | fcmpULT (id : Nat) (l r : Value)
  | fcmpUEQ (id : Nat) (l r : Value)
  | call (id : Nat) (callee : String) (args : List Value)
  | condBr (cond : Value) (ifTrue ifFalse : Nat)
  | br (dest : Nat)
  | phi (id : Nat) (incoming : List (Value × Nat))
  | ret (v : Value)
  deriving DecidableEq, Repr

/-- A basic block attached to the function `parent`. -/
structure BasicBlock where
  id : Nat
  parent : String
  label : String
  instrs : List Instr
  deriving DecidableEq, Repr

/-- A `BasicBlock*` of an attached block: the block and the function it belongs to. -/
structure BlockRef where
  id : Nat
  parent : String
  deriving DecidableEq, Repr

/-- An entry of the module's function table: name and parameter names. -/
structure IRFunction where
  name : String
  args : List String
  deriving DecidableEq, Repr

/-- What the lowering writes to the diagnostic and output streams. -/
inductive Output
  | error (msg : String)
  | dump (v : Value)
  | cout (s : String)
  deriving DecidableEq, Repr

/-! ## The Scope Manager -/

/-- The driver's `NamedValues` table: `std::map<std::string, AllocaInst*>`. A key may be
present with a null slot (that is what `operator[]` leaves when it reads a missing key). -/
abbrev ScopeMap := List (String × Option Nat)

/-- The result of `NamedValues[n]` read as a pointer: the slot, or null. -/
def ScopeMap.lookup : ScopeMap → String → Option Nat
  | [], _ => none
  | (k, v) :: rest, n => if k = n then v else ScopeMap.lookup rest n

/-- The side effect of reading `NamedValues[n]`: a missing key is inserted, null. -/
def ScopeMap.subscript : ScopeMap → String → ScopeMap
  | [], n => [(n, none)]
  | (k, v) :: rest, n => if k = n then (k, v) :: rest else (k, v) :: ScopeMap.subscript rest n

/-- The assignment `NamedValues[n] = v`. -/
def ScopeMap.assign : ScopeMap → String → Option Nat → ScopeMap
  | [], n, v => [(n, v)]
  | (k, w) :: rest, n, v =>
    if k = n then (k, v) :: rest else (k, w) :: ScopeMap.assign rest n v

/-- The call `NamedValues.erase(n)`. -/
def ScopeMap.erase : ScopeMap → String → ScopeMap
  | [], _ => []
  | (k, v) :: rest, n =>
    if k = n then ScopeMap.erase rest n else (k, v) :: ScopeMap.erase rest n

/-! ## The session state and the IR builder -/

/-- The global state of one lowering session. -/
structure State where
  /-- the module's functions, in creation order -/
  functions : List IRFunction
  /-- the module's global variables -/
  globals : List String
  /-- the attached basic blocks of all functions; the blocks of one function appear in
  the function's block order -/
  blocks : List BasicBlock
  /-- the builder's insertion block -/
  cursor : Option BlockRef
  NamedValues : ScopeMap
  /-- the identity the next created object gets -/
  nextId : Nat
  out : List Output
  deriving DecidableEq, Repr

/-- The state of a fresh session: empty module, builder without insertion block. -/
def State.init : State :=
  { functions := [], globals := [], blocks := [], cursor := none, NamedValues := [],
    nextId := 0, out := [] }

/-- The Scope Manager's `lookup`. -/
def State.lookup (st : State) (n : String) : Option Nat :=
  ScopeMap.lookup st.NamedValues n

/-- The state after the expression `drv.NamedValues[n]` has been evaluated. -/
def State.subscript (st : State) (n : String) : State :=
  { st with NamedValues := ScopeMap.subscript st.NamedValues n }

/-- The statement `drv.NamedValues[n] = v;`. -/
def State.assign (st : State) (n : String) (v : Option Nat) : State :=
  { st with NamedValues := ScopeMap.assign (ScopeMap.subscript st.NamedValues n) n v }

/-- The statement `drv.NamedValues.erase(n);`. -/
def State.erase (st : State) (n : String) : State :=
  { st with NamedValues := ScopeMap.erase st.NamedValues n }

/-- The call `module->getFunction(name)`. -/
def State.getFunction (st : State) (name : String) : Option IRFunction :=
  st.functions.find? (fun f => f.name = name)

/-- The call `module->getNamedGlobal(name)`. -/
def State.getNamedGlobal (st : State) (name : String) : Option Value :=
  if name ∈ st.globals then some (Value.global name) else none

/-- Writes one item to the output streams. -/
def State.print (st : State) (o : Output) : State :=
  { st with out := st.out ++ [o] }

/-- The function `LogErrorV`: report and yield the state in which `nullptr` is returned. -/
def LogErrorV (st : State) (Str : String) : State :=
  st.print (Output.error Str)

/-- Takes `k` fresh identities `st.nextId, ..., st.nextId + k - 1`. -/
def State.reserve (st : State) (k : Nat) : State :=
  { st with nextId := st.nextId + k }

/-- Appends `i` to every block of identity `c`. -/
def appendAt (c : Nat) (i : Instr) (bs : List BasicBlock) : List BasicBlock :=
  bs.map (fun b => if b.id = c then { b with instrs := b.instrs ++ [i] } else b)

/-- The builder inserts `i` at its insertion point, the end of the cursor block (an
instruction created while the builder has no insertion block is not inserted). -/
def State.insert (st : State) (i : Instr) : State :=
  match st.cursor with
  | none => st
  | some c => { st with blocks := appendAt c.id i st.blocks }

/-- The builder creates a value-producing instruction: `mk` receives the identity of
the new instruction, which is `st.nextId`. -/
def State.emit (st : State) (mk : Nat → Instr) : State :=
  (st.insert (mk st.nextId)).reserve 1

/-- Puts `i` at the beginning of the first block of function `fn` (its entry block). -/
def insertAtEntry (fn : String) (i : Instr) : List BasicBlock → List BasicBlock
  | [] => []
  | b :: bs =>
    if b.parent = fn then { b with instrs := i :: b.instrs } :: bs
    else b :: insertAtEntry fn i bs

/-- The utility `CreateEntryBlockAlloca(fun, VarName)`: the new slot has identity
`st.nextId` and its `alloca` is written at the very beginning of the entry block,
with a temporary builder that leaves the cursor alone. -/
def CreateEntryBlockAlloca (fn : String) (VarName : String) (st : State) : State :=
  { st with blocks := insertAtEntry fn (Instr.alloca st.nextId VarName) st.blocks,
            nextId := st.nextId + 1 }

/-- Appends the (empty) block `id` to function `fn`: `BasicBlock::Create(.., fn)` for a
new block, `fn->insert(fn->end(), BB)` for a block created earlier. -/
def State.attach (st : State) (fn : String) (id : Nat) (label : String) : State :=
  { st with blocks := st.blocks ++ [{ id := id, parent := fn, label := label, instrs := [] }] }

/-- The call `builder->SetInsertPoint(BB)`. -/
def State.SetInsertPoint (st : State) (bb : BlockRef) : State :=
  { st with cursor := some bb }

/-- The call `function->eraseFromParent()`. -/
def State.eraseFromParent (st : State) (fn : String) : State :=
  { st with functions := st.functions.filter (fun f => f.name ≠ fn),
            blocks := st.blocks.filter (fun b => b.parent ≠ fn) }

/-! ## Syntax tree -/

mutual
/-- The expression nodes (`ExprAST` and its subclasses). -/
inductive ExprAST
  | number (Val : Nat)
  | var (Name : String)
  | logical (Op : String) (LHS : ExprAST) (RHS : Option ExprAST)
  | binary (Op : Char) (LHS : ExprAST) (RHS : ExprAST)
  | call (Callee : String) (Args : List ExprAST)
  | ifExpr (Cond : ExprAST) (TrueExp : ExprAST) (FalseExp : ExprAST)
  | forExpr (StartExp : ForInit) (Cond : ExprAST) (StepExp : Option AssignmentAST)
      (BlockExp : ExprAST)
  | block (Def : List VarBindingAST) (Val : List ExprAST)
  | assignment (a : AssignmentAST)
/-- The node `VarBindingAST`. -/
inductive VarBindingAST
  | mk (Name : String) (Val : ExprAST)
/-- The node `AssignmentAST`. -/
inductive AssignmentAST
  | mk (VName : String) (VValue : ExprAST)
/-- The two node kinds the `StartExp` of a `for` is cast to. -/
inductive ForInit
  | binding (b : VarBindingAST)
  | assign (a : AssignmentAST)
end

/-- The accessor `VarBindingAST::getName`. -/
def VarBindingAST.getName : VarBindingAST → String
  | .mk Name _ => Name

/-- The accessor `AssignmentAST::getName`. -/
def AssignmentAST.getName : AssignmentAST → String
  | .mk VName _ => VName

/-- The node `PrototypeAST`. -/
structure PrototypeAST where
  Name : String
  Args : List String
  emitcode : Bool

/-- The node `FunctionAST`. -/
structure FunctionAST where
  Proto : PrototypeAST
  Body : ExprAST

/-- The nodes a `SeqAST` chains. -/
inductive RootAST
  | seq (first : Option RootAST) (continuation : Option RootAST)
  | expr (e : ExprAST)
  | prototype (p : PrototypeAST)
  | function (f : FunctionAST)
  | globalVariable (Name : String)

/-! ## Lowering -/

/-- The restore loop that ends `BlockExprAST::codegen`:
`for (i = 0; i < e; i++) NamedValues[Def[i]->getName()] = AllocaTmp[i];`. -/
def restoreDefs : List VarBindingAST → List (Option Nat) → State → State
  | d :: ds, t :: ts, st => restoreDefs ds ts (st.assign d.getName t)
  | _, _, st => st

/-- The switch of `BinaryExprAST::codegen` on the operator character: the instruction
that the `Create...` call of the case builds when it does not fold its operands. -/
def binaryInstr (Op : Char) (id : Nat) (L R : Value) : Option Instr :=
  if Op = '+' then some (Instr.fadd id L R)
  else if Op = '-' then some (Instr.fsub id L R)
  else if Op = '*' then some (Instr.fmul id L R)
  else if Op = '/' then some (Instr.fdiv id L R)
  else if Op = '<' then some (Instr.fcmpULT id L R)
  else if Op = '=' then some (Instr.fcmpUEQ id L R)
  else none

mutual
/-- The `codegen` methods of the expression nodes. -/
def ExprAST.codegen : ExprAST → State → Option (Option Value × State)
  | .number Val, st => some (some (Value.constFP Val), st)
  | .var Name, st =>
    let st1 := st.subscript Name
    match st.lookup Name with
    | some A => some (some (Value.inst st1.nextId), st1.emit (fun id => Instr.load id (Value.inst A)))
    | none =>
      match st1.getNamedGlobal Name with
      | some GVar => some (some (Value.inst st1.nextId), st1.emit (fun id => Instr.load id GVar))
      | none => some (none, LogErrorV st1 ("Variabile " ++ Name ++ " non definita (Variable)"))
  | .logical Op LHS RHS, st =>
    match ExprAST.codegen LHS st with
    | none => none
    | some (L, s1) =>
      if Op = "not" then
        -- `builder->CreateNot(L, "notres")`, with no test of `L`
        match L with
        | none => none
        | some Lv => some (some (Value.inst s1.nextId), s1.emit (fun id => Instr.not id Lv))
      else
        -- `RHS->codegen(drv)` comes before the test `if (!L || !R)`
        match derefCodegen RHS s1 with
        | none => none
        | some (R, s2) =>
          match L, R with
          | some Lv, some Rv =>
            if Op = "or" then
              some (some (Value.inst s2.nextId), s2.emit (fun id => Instr.or id Lv Rv))
            else if Op = "and" then
              some (some (Value.inst s2.nextId), s2.emit (fun id => Instr.and id Lv Rv))
            else
              some (none, LogErrorV (s2.print (Output.cout Op)) "Operatore logico non supportato")
          | _, _ => some (none, s2)
  | .binary Op LHS RHS, st =>
    match ExprAST.codegen LHS st with
    | none => none
    | some (L, s1) =>
      match ExprAST.codegen RHS s1 with
      | none => none
      | some (R, s2) =>
        match L, R with
        | some Lv, some Rv =>
          match binaryInstr Op s2.nextId Lv Rv with
          | some i =>
            -- `builder->CreateF...(L, R, ...)`: two constants are folded, nothing is inserted
            if Lv.isConstant && Rv.isConstant then some (some (Value.folded Op Lv Rv), s2)
            else some (some (Value.inst s2.nextId), s2.emit (fun _ => i))
          | none =>
            some (none, LogErrorV (s2.print (Output.cout Op.toString))
              "Operatore binario non supportato")
        | _, _ => some (none, s2)
  | .call Callee Args, st =>
    match st.getFunction Callee with
    | none => some (none, LogErrorV st "Funzione non definita")
    | some CalleeF =>
      if CalleeF.args.length ≠ Args.length then
        some (none, LogErrorV st "Numero di argomenti non corretto")
      else
        match codegenList Args st with
        | none => none
        | some (none, s1) => some (none, s1)
        | some (some ArgsV, s1) =>
          some (some (Value.inst s1.nextId), s1.emit (fun id => Instr.call id CalleeF.name ArgsV))
  | .ifExpr Cond TrueExp FalseExp, st =>
    match ExprAST.codegen Cond st with
    | none => none
    | some (none, s1) => some (none, s1)
    | some (some CondV, s1) =>
      match s1.cursor with
      | none => none
      | some cur =>
        let function := cur.parent
        let TrueBB := s1.nextId
        let FalseBB := s1.nextId + 1
        let MergeBB := s1.nextId + 2
        let s2 := ((((s1.reserve 3).attach function TrueBB "trueexp").insert
          (Instr.condBr CondV TrueBB FalseBB)).SetInsertPoint ⟨TrueBB, function⟩)
        match ExprAST.codegen TrueExp s2 with
        | none => none
        | some (none, s3) => some (none, s3)
        | some (some TrueV, s3) =>
          let s4 := s3.insert (Instr.br MergeBB)
          match s4.cursor with
          | none => none
          | some TrueEnd =>
            let s5 := (s4.attach function FalseBB "falseexp").SetInsertPoint ⟨FalseBB, function⟩
            match ExprAST.codegen FalseExp s5 with
            | none => none
            | some (none, s6) => some (none, s6)
            | some (some FalseV, s6) =>
              let s7 := s6.insert (Instr.br MergeBB)
              match s7.cursor with
              | none => none
              | some FalseEnd =>
                let s8 := (s7.attach function MergeBB "endcond").SetInsertPoint
                  ⟨MergeBB, function⟩
                some (some (Value.inst s8.nextId),
                  s8.emit (fun id => Instr.phi id [(TrueV, TrueEnd.id), (FalseV, FalseEnd.id)]))
  | .forExpr StartExp Cond StepExp BlockExp, st =>
    match st.cursor with
    | none => none
    | some cur =>
      let function := cur.parent
      match ForInit.codegen StartExp function st with
      | none => none
      | some (none, s1) => some (none, s1)
      | some (some outer, s1) =>
        let LoopBB := s1.nextId
        let AfterBB := s1.nextId + 1
        let s2 := (s1.reserve 2).attach function LoopBB "loop"
        match ExprAST.codegen Cond s2 with
        | none => none
        | some (none, s3) => some (none, s3)
        | some (some EndV, s3) =>
          let s4 := (s3.insert (Instr.condBr EndV LoopBB AfterBB)).SetInsertPoint ⟨LoopBB, function⟩
          match ExprAST.codegen BlockExp s4 with
          | none => none
          | some (none, s5) => some (none, s5)
          | some (some _, s5) =>
            match stepCodegen StepExp s5 with
            | none => none
            | some (none, s6) => some (none, s6)
            | some (some _, s6) =>
              match ExprAST.codegen Cond s6 with
              | none => none
              | some (none, s7) => some (none, s7)
              | some (some EndV2, s7) =>
                let s8 := ((s7.insert (Instr.condBr EndV2 LoopBB AfterBB)).attach function AfterBB
                  "afterloop").SetInsertPoint ⟨AfterBB, function⟩
                -- `SubClass->getName()` on the outer `SubClass`
                match outer with
                | none => none
                | some (name, AllocaTmp) =>
                  match AllocaTmp with
                  | some old => some (some (Value.constFP 0), s8.assign name (some old))
                  | none => some (some (Value.constFP 0), s8.erase name)
  | .block Def Val, st =>
    match codegenDefs Def st with
    | none => none
    | some (none, s1) => some (none, s1)
    | some (some AllocaTmp, s1) =>
      match codegenList Val s1 with
      | none => none
      | some (none, s2) => some (none, s2)
      | some (some vals, s2) =>
        -- `blockvalue` is the value of the last expression; it is uninitialised when
        -- `Val` is empty
        match vals.getLast? with
        | none => none
        | some blockvalue => some (some blockvalue, restoreDefs Def AllocaTmp s2)
  | .assignment a, st => AssignmentAST.codegen a st
/-- A call `RHS->codegen(drv)` through a pointer that may be null. -/
def derefCodegen : Option ExprAST → State → Option (Option Value × State)
  | none, _ => none
  | some e, st => ExprAST.codegen e st
/-- The two branches of `if (SubClass)` that open `ForExprAST::codegen`, in the function
`function`. Each ends with `drv.NamedValues[name] = Alloca`. The value returned with
the state is what the restore at the end of the loop reads through the outer variable
`SubClass`: the name and `AllocaTmp` in the first branch, and a null `SubClass` in the
second, whose `SubClass` is a new variable of the inner scope. -/
def ForInit.codegen : ForInit → String → State →
    Option (Option (Option (String × Option Nat)) × State)
  | .binding SubClass, _, st =>
    match VarBindingAST.codegen SubClass st with
    | none => none
    | some (none, s1) => some (none, s1)
    | some (some Alloca, s1) =>
      some (some (some (SubClass.getName, s1.lookup SubClass.getName)),
        s1.assign SubClass.getName (some Alloca))
  | .assign SubClass, function, st =>
    let Alloca := st.nextId
    match AssignmentAST.codegen SubClass
        (CreateEntryBlockAlloca function SubClass.getName st) with
    | none => none
    | some (none, s1) => some (none, s1)
    | some (some Var, s1) =>
      some (some none,
        (s1.insert (Instr.store Var (Value.inst Alloca))).assign SubClass.getName (some Alloca))
/-- The step of a `for`: `StepExp->codegen(drv)` when there is a step, the constant
`1.0` otherwise. -/
def stepCodegen : Option AssignmentAST → State → Option (Option Value × State)
  | some StepExp, st => AssignmentAST.codegen StepExp st
  | none, st => some (some (Value.constFP 0x3FF0000000000000), st)
/-- The method `VarBindingAST::codegen`; it returns the slot (`AllocaInst*`). -/
def VarBindingAST.codegen : VarBindingAST → State → Option (Option Nat × State)
  | .mk Name Val, st =>
    match st.cursor with
    | none => none
    | some cur =>
      match ExprAST.codegen Val st with
      | none => none
      | some (none, s1) => some (none, s1)
      | some (some BoundVal, s1) =>
        some (some s1.nextId,
          (CreateEntryBlockAlloca cur.parent Name s1).insert
            (Instr.store BoundVal (Value.inst s1.nextId)))
/-- The method `AssignmentAST::codegen`. -/
def AssignmentAST.codegen : AssignmentAST → State → Option (Option Value × State)
  | .mk VName VValue, st =>
    let st1 := st.subscript VName
    let Var : Option Value :=
      match st.lookup VName with
      | some A => some (Value.inst A)
      | none => st1.getNamedGlobal VName
    match Var with
    | none => some (none, LogErrorV st1 ("Variabile " ++ VName ++ " non definita (Assignment)"))
    | some Var =>
      match ExprAST.codegen VValue st1 with
      | none => none
      | some (none, s2) => some (none, s2)
      | some (some AssignedValue, s2) =>
        some (some AssignedValue, s2.insert (Instr.store AssignedValue Var))
/-- The loops `for (auto arg : Args)` of `CallExprAST::codegen` and `for (auto val : Val)`
of `BlockExprAST::codegen`: the expressions are lowered in order, the loop is left with
`nullptr` at the first one that fails, and the values of all of them are collected. -/
def codegenList : List ExprAST → State → Option (Option (List Value) × State)
  | [], st => some (some [], st)
  | e :: es, st =>
    match ExprAST.codegen e st with
    | none => none
    | some (none, s1) => some (none, s1)
    | some (some v, s1) =>
      match codegenList es s1 with
      | none => none
      | some (none, s2) => some (none, s2)
      | some (some vs, s2) => some (some (v :: vs), s2)
/-- The first loop of `BlockExprAST::codegen`: each definition is lowered, the slot its
name had is pushed on `AllocaTmp` and the name is bound to the new slot. -/
def codegenDefs : List VarBindingAST → State → Option (Option (List (Option Nat)) × State)
  | [], st => some (some [], st)
  | d :: ds, st =>
    match VarBindingAST.codegen d st with
    | none => none
    | some (none, s1) => some (none, s1)
    | some (some boundval, s1) =>
      match codegenDefs ds (s1.assign d.getName (some boundval)) with
      | none => none
      | some (none, s2) => some (none, s2)
      | some (some AllocaTmp, s2) => some (some (s1.lookup d.getName :: AllocaTmp), s2)
end

/-- The state in which `IfExprAST::codegen` lowers `TrueExp`: after `Cond` left `s1`
with the cursor in `cur` and value `CondV`, the blocks `TrueBB = s1.nextId`,
`FalseBB = s1.nextId + 1` and `MergeBB = s1.nextId + 2` are created, `TrueBB` attached,
the conditional branch written and the cursor moved to `TrueBB`. -/
def IfExprAST.thenEntry (s1 : State) (cur : BlockRef) (CondV : Value) : State :=
  (((s1.reserve 3).attach cur.parent s1.nextId "trueexp").insert
    (Instr.condBr CondV s1.nextId (s1.nextId + 1))).SetInsertPoint ⟨s1.nextId, cur.parent⟩

/-- The state in which `IfExprAST::codegen` lowers `FalseExp`: after `TrueExp` left
`s3`, the branch to `MergeBB` is written at the cursor, `FalseBB` is attached and
entered. -/
def IfExprAST.elseEntry (s1 : State) (cur : BlockRef) (s3 : State) : State :=
  ((s3.insert (Instr.br (s1.nextId + 2))).attach cur.parent (s1.nextId + 1)
    "falseexp").SetInsertPoint ⟨s1.nextId + 1, cur.parent⟩

/-- The state in which `ForExprAST::codegen` lowers `Cond` for the first time: after the
init left `s1`, the blocks `LoopBB = s1.nextId` and `AfterBB = s1.nextId + 1` are
created and `LoopBB` is attached to `function`; the cursor is not moved. -/
def ForExprAST.condEntry (s1 : State) (function : String) : State :=
  (s1.reserve 2).attach function s1.nextId "loop"

/-- The state in which `ForExprAST::codegen` lowers `BlockExp`: after the first lowering
of `Cond` left `s3` with value `EndV`, the conditional branch is written at the cursor
and the cursor moved to `LoopBB`. -/
def ForExprAST.bodyEntry (s1 : State) (function : String) (s3 : State) (EndV : Value) : State :=
  (s3.insert (Instr.condBr EndV s1.nextId (s1.nextId + 1))).SetInsertPoint
    ⟨s1.nextId, function⟩

/-- The state in which `ForExprAST::codegen` restores the scope: after the second
lowering of `Cond` left `s7` with value `EndV2`, the conditional branch is written at
the cursor, `AfterBB` is attached and entered. -/
def ForExprAST.afterEntry (s1 : State) (function : String) (s7 : State) (EndV2 : Value) :
    State :=
  ((s7.insert (Instr.condBr EndV2 s1.nextId (s1.nextId + 1))).attach function (s1.nextId + 1)
    "afterloop").SetInsertPoint ⟨s1.nextId + 1, function⟩

/-- The state in which a binding `Name` of a block is installed: after its value was
lowered with result `v` leaving `s1`, inside function `fn`, `VarBindingAST::codegen`
creates the slot `s1.nextId` and stores `v` into it, and `BlockExprAST::codegen` binds
`Name` to the slot. -/
def BlockExprAST.installed (fn Name : String) (v : Value) (s1 : State) : State :=
  ((CreateEntryBlockAlloca fn Name s1).insert (Instr.store v (Value.inst s1.nextId))).assign
    Name (some s1.nextId)

/-- The method `PrototypeAST::codegen`; the function it returns is the one named `Name`.
`Function::Create` registers the function under the name it is given, and each
argument carries the name `Args[Idx]`. This is what the IR library does when `Name` is
the name of no function and of no global variable of the module and the names in
`Args` are pairwise distinct; it renames an object whose name is already taken, which
is not recorded here: the module is taken as recording names as given, and
`getFunction` finds the first function of a name. What `F->print(errs())` writes is
recorded as one `dump`. -/
def PrototypeAST.codegen (p : PrototypeAST) (st : State) : State :=
  let st1 := { st with functions := st.functions ++ [{ name := p.Name, args := p.Args }] }
  if p.emitcode then st1.print (Output.dump (Value.function p.Name)) else st1

/-- The loop `for (auto &Arg : function->args())` of `FunctionAST::codegen`, from the
argument of index `idx` on. `Arg.getName()` is taken to be the name the prototype gives
the argument, which it is when the parameter names are pairwise distinct (the IR
library renames a parameter whose name repeats an earlier one). -/
def bindArgs (fn : String) : List String → Nat → State → State
  | [], _, st => st
  | a :: rest, idx, st =>
    bindArgs fn rest (idx + 1)
      ((((CreateEntryBlockAlloca fn a st).insert
        (Instr.store (Value.argument fn idx) (Value.inst st.nextId))).assign a (some st.nextId)))

/-- The part of `FunctionAST::codegen` between the duplicate check and the lowering of
the body: the prototype is lowered, the entry block is created and entered, and every
parameter gets its slot. The result is the state in which the body is lowered. -/
def FunctionAST.enter (f : FunctionAST) (st : State) : State :=
  let s1 := f.Proto.codegen st
  let BB := s1.nextId
  let s2 := ((s1.reserve 1).attach f.Proto.Name BB "entry").SetInsertPoint ⟨BB, f.Proto.Name⟩
  bindArgs f.Proto.Name f.Proto.Args 0 s2

/-- The method `FunctionAST::codegen`. The result of `verifyFunction` is not used by the
source and has no effect on the state. -/
def FunctionAST.codegen (f : FunctionAST) (st : State) : Option (Option Value × State) :=
  match st.getFunction f.Proto.Name with
  | some _ => some (none, st)
  | none =>
    match f.Body.codegen (f.enter st) with
    | none => none
    | some (some RetVal, s4) =>
      some (some (Value.function f.Proto.Name),
        (s4.insert (Instr.ret RetVal)).print (Output.dump (Value.function f.Proto.Name)))
    | some (none, s4) => some (none, s4.eraseFromParent f.Proto.Name)

/-- The method `GlobalVariableAST::codegen`: the new global is recorded in the module under
`Name` and printed (as for a function, the IR library keeps `Name` when it is free in
the module). -/
def GlobalVariableAST.codegen (Name : String) (st : State) : Option (Option Value × State) :=
  some (some (Value.global Name),
    ({ st with globals := st.globals ++ [Name] }).print (Output.dump (Value.global Name)))

/-- The method `SeqAST::codegen` and the dispatch to the node it chains. -/
def RootAST.codegen : RootAST → State → Option (Option Value × State)
  | .seq (some first) (some continuation), st =>
    match RootAST.codegen first st with
    | none => none
    | some (_, s1) =>
      match RootAST.codegen continuation s1 with
      | none => none
      | some (_, s2) => some (none, s2)
  | .seq (some first) none, st =>
    -- `continuation->codegen(drv)` on a null `continuation`, after `first` was lowered
    match RootAST.codegen first st with
    | none => none
    | some (_, _) => none
  | .seq none none, st => some (none, st)
  | .seq none (some c), st =>
    match RootAST.codegen c st with
    | none => none
    | some (_, s2) => some (none, s2)
  | .expr e, st => e.codegen st
  | .prototype p, st => some (some (Value.function p.Name), p.codegen st)
  | .function f, st => f.codegen st
  | .globalVariable Name, st => GlobalVariableAST.codegen Name st

/-! ## Observations and predicates the theorems are stated with -/

/-- The instructions of the (first) attached block of identity `k`. -/
def blockInstrs : List BasicBlock → Nat → Option (List Instr)
  | [], _ => none
  | b :: bs, k => if b.id = k then some b.instrs else blockInstrs bs k

/-- Every attached block has an identity that has already been handed out. All states
a session goes through have this property (`RootAST_codegen_wellFormed`). -/
def State.WellFormed (st : State) : Prop :=
  ∀ b ∈ st.blocks, b.id < st.nextId

instance State.decidableWellFormed (st : State) : Decidable st.WellFormed :=
  inferInstanceAs (Decidable (∀ b ∈ st.blocks, b.id < st.nextId))

/-- What a lowering started in `st` and returning in `st'` does to the IR, for a
threshold `b` of identities: the module tables are untouched, identities only grow, the
cursor stays in its function and either stays in its block or ends in a block whose
identity is at least `b`, attached blocks are only appended with identities at least
`b`, and the instruction list of an attached block below `b` other than the cursor
block is only ever extended at its beginning (by `CreateEntryBlockAlloca`). -/
structure StepsFrom (b : Nat) (st st' : State) : Prop where
  functions_eq : st'.functions = st.functions
  globals_eq : st'.globals = st.globals
  nextId_le : st.nextId ≤ st'.nextId
  cursor_none : st.cursor = none → st'.cursor = none
  cursor_some : ∀ c, st.cursor = some c → ∃ c', st'.cursor = some c' ∧ c'.parent = c.parent ∧
    (c'.id = c.id ∨ (b ≤ c'.id ∧ c'.id < st'.nextId))
  ids : ∃ new, st'.blocks.map (fun x => x.id) = st.blocks.map (fun x => x.id) ++ new ∧
    ∀ k ∈ new, b ≤ k ∧ k < st'.nextId
  frame : ∀ k l, k < b → (∀ c, st.cursor = some c → c.id ≠ k) →
    blockInstrs st.blocks k = some l → ∃ pre, blockInstrs st'.blocks k = some (pre ++ l)
  attached : ∀ c c', st.cursor = some c → st'.cursor = some c' →
    (blockInstrs st.blocks c.id).isSome → (blockInstrs st'.blocks c'.id).isSome

/-- The arguments `Args` are lowered one after the other, left to right, starting in
`st`; each of them succeeds; `vs` lists their values in source order and `st'` is the
state the last one leaves. -/
inductive LoweredInOrder : List ExprAST → State → List Value → State → Prop
  | nil (st : State) : LoweredInOrder [] st [] st
  | cons {e : ExprAST} {es : List ExprAST} {st s1 s2 : State} {v : Value} {vs : List Value} :
      e.codegen st = some (some v, s1) → LoweredInOrder es s1 vs s2 →
      LoweredInOrder (e :: es) st (v :: vs) s2

/-- The names a list of bindings binds, in order. -/
def defNames : List VarBindingAST → List String
  | [] => []
  | d :: ds => d.getName :: defNames ds

mutual
/-- The expression is well scoped: every block in it binds pairwise distinct names and
the init of every `for` in it is a fresh binding. -/
def ExprAST.wellScoped : ExprAST → Bool
  | .number _ => true
  | .var _ => true
  | .logical _ LHS RHS => ExprAST.wellScoped LHS && wellScopedOpt RHS
  | .binary _ LHS RHS => ExprAST.wellScoped LHS && ExprAST.wellScoped RHS
  | .call _ Args => wellScopedList Args
  | .ifExpr Cond TrueExp FalseExp =>
    ExprAST.wellScoped Cond && ExprAST.wellScoped TrueExp && ExprAST.wellScoped FalseExp
  | .forExpr StartExp Cond StepExp BlockExp =>
    ForInit.wellScoped StartExp && ExprAST.wellScoped Cond && wellScopedStep StepExp &&
      ExprAST.wellScoped BlockExp
  | .block Def Val =>
    decide (defNames Def).Nodup && wellScopedDefs Def && wellScopedList Val
  | .assignment a => AssignmentAST.wellScoped a
/-- Well-scopedness of an optional operand. -/
def wellScopedOpt : Option ExprAST → Bool
  | none => true
  | some e => ExprAST.wellScoped e
/-- Well-scopedness of the init of a `for`: it is a fresh binding. -/
def ForInit.wellScoped : ForInit → Bool
  | .binding b => VarBindingAST.wellScoped b
  | .assign _ => false
/-- Well-scopedness of an optional step. -/
def wellScopedStep : Option AssignmentAST → Bool
  | none => true
  | some a => AssignmentAST.wellScoped a
/-- Well-scopedness of a binding: that of its value. -/
def VarBindingAST.wellScoped : VarBindingAST → Bool
  | .mk _ Val => ExprAST.wellScoped Val
/-- Well-scopedness of an assignment: that of its value. -/
def AssignmentAST.wellScoped : AssignmentAST → Bool
  | .mk _ VValue => ExprAST.wellScoped VValue
/-- Well-scopedness of every expression of a list. -/
def wellScopedList : List ExprAST → Bool
  | [] => true
  | e :: es => ExprAST.wellScoped e && wellScopedList es
/-- Well-scopedness of every binding of a list. -/
def wellScopedDefs : List VarBindingAST → Bool
  | [] => true
  | d :: ds => VarBindingAST.wellScoped d && wellScopedDefs ds
end

/-- The handle (`BasicBlock*`) of an attached block. -/
def BasicBlock.ref (b : BasicBlock) : BlockRef := ⟨b.id, b.parent⟩

/-- The handles of the attached blocks, in attachment order. -/
def State.refs (st : State) : List BlockRef := st.blocks.map BasicBlock.ref

/-- The block order of function `fn`: the identities of its blocks, first to last. -/
def State.order (st : State) (fn : String) : List Nat :=
  (st.blocks.filter (fun b => b.parent = fn)).map (fun b => b.id)

/-- In the order `l`, block `b` comes right after block `a`. -/
def immediatelyFollows : List Nat → Nat → Nat → Bool
  | x :: y :: rest, a, b => (x == a && y == b) || immediatelyFollows (y :: rest) a b
  | _, _, _ => false

mutual
/-- The number of blocks a successful lowering of the expression attaches: three for
each `If` and two for each `for`, with the condition of a `for` counted twice. -/
def ExprAST.blockCount : ExprAST → Nat
  | .number _ => 0
  | .var _ => 0
  | .logical Op LHS RHS =>
    ExprAST.blockCount LHS + (if Op = "not" then 0 else blockCountOpt RHS)
  | .binary _ LHS RHS => ExprAST.blockCount LHS + ExprAST.blockCount RHS
  | .call _ Args => blockCountList Args
  | .ifExpr Cond TrueExp FalseExp =>
    ExprAST.blockCount Cond + ExprAST.blockCount TrueExp + ExprAST.blockCount FalseExp + 3
  | .forExpr StartExp Cond StepExp BlockExp =>
    ForInit.blockCount StartExp + ExprAST.blockCount Cond + ExprAST.blockCount BlockExp +
      blockCountStep StepExp + ExprAST.blockCount Cond + 2
  | .block Def Val => blockCountDefs Def + blockCountList Val
  | .assignment a => AssignmentAST.blockCount a
/-- Block count of an optional operand. -/
def blockCountOpt : Option ExprAST → Nat
  | none => 0
  | some e => ExprAST.blockCount e
/-- Block count of the init of a `for`. -/
def ForInit.blockCount : ForInit → Nat
  | .binding b => VarBindingAST.blockCount b
  | .assign a => AssignmentAST.blockCount a
/-- Block count of an optional step. -/
def blockCountStep : Option AssignmentAST → Nat
  | none => 0
  | some a => AssignmentAST.blockCount a
/-- Block count of a binding: that of its value. -/
def VarBindingAST.blockCount : VarBindingAST → Nat
  | .mk _ Val => ExprAST.blockCount Val
/-- Block count of an assignment: that of its value. -/
def AssignmentAST.blockCount : AssignmentAST → Nat
  | .mk _ VValue => ExprAST.blockCount VValue
/-- Block count of a list of expressions. -/
def blockCountList : List ExprAST → Nat
  | [] => 0
  | e :: es => ExprAST.blockCount e + blockCountList es
/-- Block count of a list of bindings. -/
def blockCountDefs : List VarBindingAST → Nat
  | [] => 0
  | d :: ds => VarBindingAST.blockCount d + blockCountDefs ds
end

/-- From `st` to `st'` exactly `n` blocks have been attached, all at the end. -/
def Grows (n : Nat) (st st' : State) : Prop :=
  ∃ new, st'.refs = st.refs ++ new ∧ new.length = n

/-- From `st` to `st'` exactly `n` blocks have been attached, all at the end, and the
cursor is in the last of them; it has not moved when there is none. -/
def Lands (n : Nat) (st st' : State) : Prop :=
  ∃ new, st'.refs = st.refs ++ new ∧ new.length = n ∧
    st'.cursor = new.getLast?.or st.cursor

/-- The attached blocks have pairwise distinct identities, all of them handed out
already: an identity names one attached block. All states a session goes through
have this property (`RootAST_codegen_uniqueIds`). -/
def State.UniqueIds (st : State) : Prop :=
  st.WellFormed ∧ (st.blocks.map (fun x => x.id)).Nodup

instance State.decidableUniqueIds (st : State) : Decidable st.UniqueIds :=
  inferInstanceAs
    (Decidable (st.WellFormed ∧ (st.blocks.map (fun x : BasicBlock => x.id)).Nodup))

/-- While `e` is lowered starting in `st`, the lowering reaches the sub-expression `e'`
and lowers it starting in `s'`. There is one rule for each call `X->codegen(drv)` in
the `codegen` methods of the expression nodes, with the conditions under which that
call is reached and the state it is made in. -/
inductive LowersAt : ExprAST → State → ExprAST → State → Prop
  | here (e : ExprAST) (st : State) : LowersAt e st e st
  | logicalLeft {Op : String} {LHS : ExprAST} {RHS : Option ExprAST} {st : State}
      {e' : ExprAST} {s' : State} :
      LowersAt LHS st e' s' → LowersAt (ExprAST.logical Op LHS RHS) st e' s'
  | logicalRight {Op : String} {LHS RHS : ExprAST} {st s1 : State} {L : Option Value}
      {e' : ExprAST} {s' : State} :
      Op ≠ "not" → LHS.codegen st = some (L, s1) → LowersAt RHS s1 e' s' →
      LowersAt (ExprAST.logical Op LHS (some RHS)) st e' s'
  | binaryLeft {Op : Char} {LHS RHS : ExprAST} {st : State} {e' : ExprAST} {s' : State} :
      LowersAt LHS st e' s' → LowersAt (ExprAST.binary Op LHS RHS) st e' s'
  | binaryRight {Op : Char} {LHS RHS : ExprAST} {st s1 : State} {L : Option Value}
      {e' : ExprAST} {s' : State} :
      LHS.codegen st = some (L, s1) → LowersAt RHS s1 e' s' →
      LowersAt (ExprAST.binary Op LHS RHS) st e' s'
  | callArg {Callee : String} {pre post : List ExprAST} {a : ExprAST} {st s1 : State}
      {F : IRFunction} {vs : List Value} {e' : ExprAST} {s' : State} :
      st.getFunction Callee = some F → F.args.length = (pre ++ a :: post).length →
      codegenList pre st = some (some vs, s1) → LowersAt a s1 e' s' →
      LowersAt (ExprAST.call Callee (pre ++ a :: post)) st e' s'
  | ifCond {Cond TrueExp FalseExp : ExprAST} {st : State} {e' : ExprAST} {s' : State} :
      LowersAt Cond st e' s' → LowersAt (ExprAST.ifExpr Cond TrueExp FalseExp) st e' s'
  | ifThen {Cond TrueExp FalseExp : ExprAST} {st s1 : State} {CondV : Value} {cur : BlockRef}
      {e' : ExprAST} {s' : State} :
      Cond.codegen st = some (some CondV, s1) → s1.cursor = some cur →
      LowersAt TrueExp (IfExprAST.thenEntry s1 cur CondV) e' s' →
      LowersAt (ExprAST.ifExpr Cond TrueExp FalseExp) st e' s'
  | ifElse {Cond TrueExp FalseExp : ExprAST} {st s1 s3 : State} {CondV TrueV : Value}
      {cur : BlockRef} {e' : ExprAST} {s' : State} :
      Cond.codegen st = some (some CondV, s1) → s1.cursor = some cur →
      TrueExp.codegen (IfExprAST.thenEntry s1 cur CondV) = some (some TrueV, s3) →
      LowersAt FalseExp (IfExprAST.elseEntry s1 cur s3) e' s' →
      LowersAt (ExprAST.ifExpr Cond TrueExp FalseExp) st e' s'
  | forInitBinding {Name : String} {Val Cond BlockExp : ExprAST}
      {StepExp : Option AssignmentAST} {st : State} {cur : BlockRef} {e' : ExprAST}
      {s' : State} :
      st.cursor = some cur → LowersAt Val st e' s' →
      LowersAt (ExprAST.forExpr (ForInit.binding (VarBindingAST.mk Name Val)) Cond StepExp
        BlockExp) st e' s'
  | forInitAssign {x : String} {e Cond BlockExp : ExprAST} {StepExp : Option AssignmentAST}
      {st : State} {cur : BlockRef} {e' : ExprAST} {s' : State} :
      st.cursor = some cur → (st.lookup x ≠ none ∨ x ∈ st.globals) →
      LowersAt e ((CreateEntryBlockAlloca cur.parent x st).subscript x) e' s' →
      LowersAt (ExprAST.forExpr (ForInit.assign (AssignmentAST.mk x e)) Cond StepExp
        BlockExp) st e' s'
  | forCond {StartExp : ForInit} {Cond BlockExp : ExprAST} {StepExp : Option AssignmentAST}
      {st s1 : State} {cur : BlockRef} {outer : Option (String × Option Nat)} {e' : ExprAST}
      {s' : State} :
      st.cursor = some cur → StartExp.codegen cur.parent st = some (some outer, s1) →
      LowersAt Cond (ForExprAST.condEntry s1 cur.parent) e' s' →
      LowersAt (ExprAST.forExpr StartExp Cond StepExp BlockExp) st e' s'
  | forBody {StartExp : ForInit} {Cond BlockExp : ExprAST} {StepExp : Option AssignmentAST}
      {st s1 s3 : State} {cur : BlockRef} {outer : Option (String × Option Nat)}
      {EndV : Value} {e' : ExprAST} {s' : State} :
      st.cursor = some cur → StartExp.codegen cur.parent st = some (some outer, s1) →
      Cond.codegen (ForExprAST.condEntry s1 cur.parent) = some (some EndV, s3) →
      LowersAt BlockExp (ForExprAST.bodyEntry s1 cur.parent s3 EndV) e' s' →
      LowersAt (ExprAST.forExpr StartExp Cond StepExp BlockExp) st e' s'
  | forStep {StartExp : ForInit} {Cond BlockExp e : ExprAST} {x : String}
      {st s1 s3 s5 : State} {cur : BlockRef} {outer : Option (String × Option Nat)}
      {EndV bv : Value} {e' : ExprAST} {s' : State} :
      st.cursor = some cur → StartExp.codegen cur.parent st = some (some outer, s1) →
      Cond.codegen (ForExprAST.condEntry s1 cur.parent) = some (some EndV, s3) →
      BlockExp.codegen (ForExprAST.bodyEntry s1 cur.parent s3 EndV) = some (some bv, s5) →
      (s5.lookup x ≠ none ∨ x ∈ s5.globals) → LowersAt e (s5.subscript x) e' s' →
      LowersAt (ExprAST.forExpr StartExp Cond (some (AssignmentAST.mk x e)) BlockExp) st e' s'
  | forCondAgain {StartExp : ForInit} {Cond BlockExp : ExprAST}
      {StepExp : Option AssignmentAST} {st s1 s3 s5 s6 : State} {cur : BlockRef}
      {outer : Option (String × Option Nat)} {EndV bv sv : Value} {e' : ExprAST}
      {s' : State} :
      st.cursor = some cur → StartExp.codegen cur.parent st = some (some outer, s1) →
      Cond.codegen (ForExprAST.condEntry s1 cur.parent) = some (some EndV, s3) →
      BlockExp.codegen (ForExprAST.bodyEntry s1 cur.parent s3 EndV) = some (some bv, s5) →
      stepCodegen StepExp s5 = some (some sv, s6) → LowersAt Cond s6 e' s' →
      LowersAt (ExprAST.forExpr StartExp Cond StepExp BlockExp) st e' s'
  | blockDef {pre post : List VarBindingAST} {Name : String} {Val : ExprAST}
      {Vals : List ExprAST} {st s1 : State} {tmp : List (Option Nat)} {cur : BlockRef}
      {e' : ExprAST} {s' : State} :
      codegenDefs pre st = some (some tmp, s1) → s1.cursor = some cur →
      LowersAt Val s1 e' s' →
      LowersAt (ExprAST.block (pre ++ VarBindingAST.mk Name Val :: post) Vals) st e' s'
  | blockVal {Def : List VarBindingAST} {pre post : List ExprAST} {a : ExprAST}
      {st s1 s2 : State} {tmp : List (Option Nat)} {vs : List Value} {e' : ExprAST}
      {s' : State} :
      codegenDefs Def st = some (some tmp, s1) → codegenList pre s1 = some (some vs, s2) →
      LowersAt a s2 e' s' → LowersAt (ExprAST.block Def (pre ++ a :: post)) st e' s'
  | assignment {x : String} {e : ExprAST} {st : State} {e' : ExprAST} {s' : State} :
      (st.lookup x ≠ none ∨ x ∈ st.globals) → LowersAt e (st.subscript x) e' s' →
      LowersAt (ExprAST.assignment (AssignmentAST.mk x e)) st e' s'

/-- The bindings are lowered and installed one after the other, starting in `st`: the
value of each is lowered in the state in which the bindings before it are installed,
and the binding itself is installed after that; `slots` lists the slots created, in
the order of the bindings, and the last state is the one in which the body of the
block is lowered. -/
inductive BindingsInstalled : List VarBindingAST → State → List Nat → State → Prop
  | nil (st : State) : BindingsInstalled [] st [] st
  | cons {Name : String} {Val : ExprAST} {ds : List VarBindingAST} {st s1 s2 : State}
      {cur : BlockRef} {v : Value} {slots : List Nat} :
      st.cursor = some cur → Val.codegen st = some (some v, s1) →
      BindingsInstalled ds (BlockExprAST.installed cur.parent Name v s1) slots s2 →
      BindingsInstalled (VarBindingAST.mk Name Val :: ds) st (s1.nextId :: slots) s2

/-- The scope `f` after the names `names` have been bound, in order, to `slots`: a
name resolves to the slot of the last binding of that name, and as in `f` when there is
none. -/
def bindSlots : List String → List Nat → (String → Option Nat) → String → Option Nat
  | n :: ns, s :: ss, f => bindSlots ns ss (fun m => if m = n then some s else f m)
  | _, _, f => f

/-- The instruction is an allocation (`alloca`). -/
def Instr.isAlloca : Instr → Bool
  | .alloca _ _ => true
  | _ => false

/-- The slot an allocation creates. -/
def Instr.slot? : Instr → Option Nat
  | .alloca id _ => some id
  | _ => none

/-- The slots of the allocations of an instruction list, in the order of the list. -/
def allocaIds (l : List Instr) : List Nat := l.filterMap Instr.slot?

/-- The entry block of function `fn` (`fn->getEntryBlock()`): its first block. -/
def entryBlock (fn : String) (bs : List BasicBlock) : Option BasicBlock :=
  bs.find? (fun b => b.parent = fn)

mutual
/-- The number of slots a successful lowering of the expression creates: one each time
a binding is lowered, and one for the init of a `for` that is an assignment; what is
inside the condition of a `for` counts twice, as the condition is lowered twice. -/
def ExprAST.slotCount : ExprAST → Nat
  | .number _ => 0
  | .var _ => 0
  | .logical Op LHS RHS =>
    ExprAST.slotCount LHS + (if Op = "not" then 0 else slotCountOpt RHS)
  | .binary _ LHS RHS => ExprAST.slotCount LHS + ExprAST.slotCount RHS
  | .call _ Args => slotCountList Args
  | .ifExpr Cond TrueExp FalseExp =>
    ExprAST.slotCount Cond + ExprAST.slotCount TrueExp + ExprAST.slotCount FalseExp
  | .forExpr StartExp Cond StepExp BlockExp =>
    ForInit.slotCount StartExp + ExprAST.slotCount Cond + ExprAST.slotCount BlockExp +
      slotCountStep StepExp + ExprAST.slotCount Cond
  | .block Def Val => slotCountDefs Def + slotCountList Val
  | .assignment a => AssignmentAST.slotCount a
/-- Slot count of an optional operand. -/
def slotCountOpt : Option ExprAST → Nat
  | none => 0
  | some e => ExprAST.slotCount e
/-- Slot count of the init of a `for`. -/
def ForInit.slotCount : ForInit → Nat
  | .binding b => VarBindingAST.slotCount b
  | .assign a => AssignmentAST.slotCount a + 1
/-- Slot count of an optional step. -/
def slotCountStep : Option AssignmentAST → Nat
  | none => 0
  | some a => AssignmentAST.slotCount a
/-- Slot count of a binding: the slots of its value and its own. -/
def VarBindingAST.slotCount : VarBindingAST → Nat
  | .mk _ Val => ExprAST.slotCount Val + 1
/-- Slot count of an assignment: that of its value. -/
def AssignmentAST.slotCount : AssignmentAST → Nat
  | .mk _ VValue => ExprAST.slotCount VValue
/-- Slot count of a list of expressions. -/
def slotCountList : List ExprAST → Nat
  | [] => 0
  | e :: es => ExprAST.slotCount e + slotCountList es
/-- Slot count of a list of bindings. -/
def slotCountDefs : List VarBindingAST → Nat
  | [] => 0
  | d :: ds => VarBindingAST.slotCount d + slotCountDefs ds
end

/-- The cursor, when there is one, is in a block of function `fn`. -/
def State.CursorIn (fn : String) (st : State) : Prop :=
  ∀ c, st.cursor = some c → c.parent = fn

/-- What a lowering from `st` to `st'` does to the entry block of `fn`: `n` allocations
are put at its beginning, each before the ones created earlier, their slots are new, and
what is added at its end contains no allocation. -/
def AllocsIn (fn : String) (n : Nat) (st st' : State) : Prop :=
  st.nextId ≤ st'.nextId ∧
  ∀ b0, entryBlock fn st.blocks = some b0 →
    ∃ new added,
      entryBlock fn st'.blocks = some { b0 with instrs := new ++ b0.instrs ++ added } ∧
      new.length = n ∧ (∀ i ∈ new, i.isAlloca = true) ∧ (∀ i ∈ added, i.isAlloca = false) ∧
      (allocaIds new).Pairwise (· > ·) ∧
      ∀ k ∈ allocaIds new, st.nextId ≤ k ∧ k < st'.nextId

/-- The instruction ends a block: a conditional branch, a branch or a return. -/
def Instr.isTerminator : Instr → Bool
  | .condBr _ _ _ => true
  | .br _ => true
  | .ret _ => true
  | _ => false

/-- No instruction of the list is a terminator. -/
def Unterminated (l : List Instr) : Prop := ∀ i ∈ l, i.isTerminator = false

/-- The list holds exactly one terminator, and it is its last instruction. -/
def Terminated (l : List Instr) : Prop :=
  ∃ body t, l = body ++ [t] ∧ t.isTerminator = true ∧ ∀ i ∈ body, i.isTerminator = false

/-- The shape of the blocks of function `fn` while one of its expressions is lowered.
The cursor is in an attached block of `fn`; `P` lists attached blocks that have not
been entered yet (the body block of a loop while its condition is lowered); `D` lists
attached blocks nothing is said about. Of the other blocks of `fn`, the cursor block
and the blocks of `P` hold no terminator and every other one holds exactly one
terminator, its last instruction. -/
def State.Shaped (fn : String) (P D : List Nat) (st : State) : Prop :=
  ∃ c, st.cursor = some c ∧ c.parent = fn ∧ c.id ∈ st.blocks.map (fun x => x.id) ∧
    c.id ∉ P ∧ c.id ∉ D ∧
    (∀ p ∈ P, p ∈ st.blocks.map (fun x => x.id) ∧ p ∉ D) ∧
    (∀ d ∈ D, d ∈ st.blocks.map (fun x => x.id)) ∧
    ∀ b ∈ st.blocks, b.parent = fn → b.id ∉ D →
      ((b.id = c.id ∨ b.id ∈ P) → Unterminated b.instrs) ∧
      (¬ (b.id = c.id ∨ b.id ∈ P) → Terminated b.instrs)

/-! ## Concrete sessions and syntax trees used to exercise the theorems -/

/-- The bit pattern of the literal `0.0`. -/
def lit0 : Nat := 0

/-- The bit pattern of the literal `1.0`. -/
def lit1 : Nat := 0x3FF0000000000000

/-- The bit pattern of the literal `2.0`. -/
def lit2 : Nat := 0x4000000000000000

/-- The bit pattern of the literal `3.0`. -/
def lit3 : Nat := 0x4008000000000000

/-- A session positioned in the entry block of a function `f` whose parameter `a` has
slot 1; the module has a global `g`; the next identity is 2. -/
def inF : State :=
  { functions := [{ name := "f", args := ["a"] }], globals := ["g"],
    blocks := [{ id := 0, parent := "f", label := "entry",
                 instrs := [Instr.alloca 1 "a",
                            Instr.store (Value.argument "f" 0) (Value.inst 1)] }],
    cursor := some ⟨0, "f"⟩, NamedValues := [("a", some 1)], nextId := 2, out := [] }

/-- A fresh session after the declaration `extern foo(x)`. -/
def declFoo : State := PrototypeAST.codegen ⟨"foo", ["x"], true⟩ State.init

/-- The definition `def bad(x) nope`, whose body reads an undefined name. -/
def badFn : FunctionAST := ⟨⟨"bad", ["x"], false⟩, ExprAST.var "nope"⟩

/-- A nested conditional: `if g then (if g then 1 else 2) else 3`. -/
def nestedIf : ExprAST :=
  ExprAST.ifExpr (ExprAST.var "g")
    (ExprAST.ifExpr (ExprAST.var "g") (ExprAST.number lit1) (ExprAST.number lit2))
    (ExprAST.number lit3)

/-- The session `inF` after the nested conditional `nestedIf` has been lowered. -/
def afterNestedIf : State :=
  match nestedIf.codegen inF with
  | some (_, s) => s
  | none => inF

/-- A block that binds `x` twice: `var x = 1, x = 2 in x`. -/
def dupBlock : ExprAST :=
  ExprAST.block
    [VarBindingAST.mk "x" (ExprAST.number lit1), VarBindingAST.mk "x" (ExprAST.number lit2)]
    [ExprAST.var "x"]

/-- A block that binds the parameter `a` twice: `var a = 1, a = 2 in a`. -/
def dupShadow : ExprAST :=
  ExprAST.block
    [VarBindingAST.mk "a" (ExprAST.number lit1), VarBindingAST.mk "a" (ExprAST.number lit2)]
    [ExprAST.var "a"]

/-- The loop `for (a = 0; a < 3) a = a + 1` whose init assigns the existing `a`. -/
def forAssign : ExprAST :=
  ExprAST.forExpr (ForInit.assign (AssignmentAST.mk "a" (ExprAST.number lit0)))
    (ExprAST.binary '<' (ExprAST.var "a") (ExprAST.number lit3)) none
    (ExprAST.assignment (AssignmentAST.mk "a"
      (ExprAST.binary '+' (ExprAST.var "a") (ExprAST.number lit1))))

/-- The loop `for (var i = 0; i < 3) i = i + 1` whose init is a fresh binding. -/
def forBinding : ExprAST :=
  ExprAST.forExpr (ForInit.binding (VarBindingAST.mk "i" (ExprAST.number lit0)))
    (ExprAST.binary '<' (ExprAST.var "i") (ExprAST.number lit3)) none
    (ExprAST.assignment (AssignmentAST.mk "i"
      (ExprAST.binary '+' (ExprAST.var "i") (ExprAST.number lit1))))

/-- The loop `for (var x = (var x = 1, x = 2 in x); x < 3) x = x + 1`. -/
def forDupInit : ExprAST :=
  ExprAST.forExpr (ForInit.binding (VarBindingAST.mk "x" dupBlock))
    (ExprAST.binary '<' (ExprAST.var "x") (ExprAST.number lit3)) none
    (ExprAST.assignment (AssignmentAST.mk "x"
      (ExprAST.binary '+' (ExprAST.var "x") (ExprAST.number lit1))))

/-- The definition `def f(x) 1`. -/
def constFn : FunctionAST := ⟨⟨"f", ["x"], false⟩, ExprAST.number lit1⟩

/-- The definition `def g() x`, whose body reads a name that `g` does not bind. -/
def readsX : FunctionAST := ⟨⟨"g", [], false⟩, ExprAST.var "x"⟩

/-- A sequence whose first half is the global `q` and whose continuation is absent. -/
def seqNoContinuation : RootAST :=
  RootAST.seq (some (RootAST.globalVariable "q")) none

/-- The expression `nope + g`: the left operand is undefined, the right one is a global. -/
def undefinedPlusGlobal : ExprAST :=
  ExprAST.binary '+' (ExprAST.var "nope") (ExprAST.var "g")

/-- The expression `nope and g`. -/
def undefinedAndGlobal : ExprAST :=
  ExprAST.logical "and" (ExprAST.var "nope") (some (ExprAST.var "g"))

/-- The block `var x = 1 in nope`, whose body fails after `x` has been bound. -/
def blockFailingBody : ExprAST :=
  ExprAST.block [VarBindingAST.mk "x" (ExprAST.number lit1)] [ExprAST.var "nope"]

/-- The block `var a = 1, y = nope in a`, whose second binding fails after the parameter
`a` has been shadowed. -/
def blockFailingBinding : ExprAST :=
  ExprAST.block
    [VarBindingAST.mk "a" (ExprAST.number lit1), VarBindingAST.mk "y" (ExprAST.var "nope")]
    [ExprAST.var "a"]

/-- The state in which the failed lowering of `def bad(x) nope` leaves a fresh session. -/
def afterBadFn : State :=
  (LogErrorV ((badFn.enter State.init).subscript "nope")
    "Variabile nope non definita (Variable)").eraseFromParent "bad"

/-- The init `a = 0` of a `for`, where `a` is the parameter of `f`. -/
def initAssignA : ForInit := ForInit.assign (AssignmentAST.mk "a" (ExprAST.number lit0))

/-- The conditional `if g then nope else 1`, whose true arm reads an undefined name. -/
def ifFailingThen : ExprAST :=
  ExprAST.ifExpr (ExprAST.var "g") (ExprAST.var "nope") (ExprAST.number lit1)

/-- The loop `for (var i = 0; (if g then i else 1) < 3) i = i + 1`, whose condition
contains a conditional. -/
def forBranchingCond : ExprAST :=
  ExprAST.forExpr (ForInit.binding (VarBindingAST.mk "i" (ExprAST.number lit0)))
    (ExprAST.binary '<'
      (ExprAST.ifExpr (ExprAST.var "g") (ExprAST.var "i") (ExprAST.number lit1))
      (ExprAST.number lit3)) none
    (ExprAST.assignment (AssignmentAST.mk "i"
      (ExprAST.binary '+' (ExprAST.var "i") (ExprAST.number lit1))))

/-- The session `inF` after the loop `forBinding` has been lowered. -/
def afterForBinding : State :=
  match forBinding.codegen inF with
  | some (_, s) => s
  | none => inF

/-- The session `inF` after the loop `forBranchingCond` has been lowered. -/
def afterForBranchingCond : State :=
  match forBranchingCond.codegen inF with
  | some (_, s) => s
  | none => inF

/-- The block `var a = a + 1 in a`, lowered where `a` is a parameter. -/
def shadowBlock : ExprAST :=
  ExprAST.block
    [VarBindingAST.mk "a" (ExprAST.binary '+' (ExprAST.var "a") (ExprAST.number lit1))]
    [ExprAST.var "a"]

/-- The loop `for (var i = 0; i < 3) (var a = a + 1 in a)`: a block inside a loop. -/
def forShadowBlock : ExprAST :=
  ExprAST.forExpr (ForInit.binding (VarBindingAST.mk "i" (ExprAST.number lit0)))
    (ExprAST.binary '<' (ExprAST.var "i") (ExprAST.number lit3)) none shadowBlock

/-- The session `inF` after the loop `forShadowBlock` has been lowered. -/
def afterForShadowBlock : State :=
  match forShadowBlock.codegen inF with
  | some (_, s) => s
  | none => inF

/-- The definition `def r(n) if n < 1 then 1 else r(n - 1)`, which calls itself. -/
def recFn : FunctionAST :=
  ⟨⟨"r", ["n"], false⟩,
    ExprAST.ifExpr (ExprAST.binary '<' (ExprAST.var "n") (ExprAST.number lit1))
      (ExprAST.number lit1)
      (ExprAST.call "r" [ExprAST.binary '-' (ExprAST.var "n") (ExprAST.number lit1)])⟩

/-- The state in which the condition of the body of `recFn` leaves a fresh session. -/
def recFnAfterCond : State :=
  match (ExprAST.binary '<' (ExprAST.var "n") (ExprAST.number lit1)).codegen
      (recFn.enter State.init) with
  | some (_, s) => s
  | none => State.init

/-- The state in which the recursive call in the body of `recFn` is lowered. -/
def recFnAtCall : State :=
  IfExprAST.elseEntry recFnAfterCond ⟨0, "r"⟩
    (IfExprAST.thenEntry recFnAfterCond ⟨0, "r"⟩ (Value.inst 3))

/-- The bindings `var x = 1, x = 2` of a block that binds `x` twice. -/
def dupDefs : List VarBindingAST :=
  [VarBindingAST.mk "x" (ExprAST.number lit1), VarBindingAST.mk "x" (ExprAST.number lit2)]

/-- The bindings `var x = 3, y = (var x = 1, x = 2 in x)`: the value of `y` is a block
that binds `x` twice. -/
def leakDefs : List VarBindingAST :=
  [VarBindingAST.mk "x" (ExprAST.number lit3), VarBindingAST.mk "y" dupBlock]

/-- The session `inF` after the block `shadowBlock` has been lowered. -/
def afterShadowBlock : State :=
  match shadowBlock.codegen inF with
  | some (_, s) => s
  | none => inF

/-- The definition `def h(a b) for (var i = 0; i < 3) (var a = a + 1 in a)`: two
parameters, a loop variable and a block binding. -/
def loopFn : FunctionAST := ⟨⟨"h", ["a", "b"], false⟩, forShadowBlock⟩

/-- A fresh session after the definition `loopFn` has been lowered. -/
def afterLoopFn : State :=
  match loopFn.codegen State.init with
  | some (_, s) => s
  | none => State.init

/-- A fresh session after the definition `recFn` has been lowered. -/
def afterRecFn : State :=
  match recFn.codegen State.init with
  | some (_, s) => s
  | none => State.init

/-! ## Lemmas on the Scope Manager -/

theorem scopeMap_lookup_subscript (nv : ScopeMap) (n m : String) :
    ScopeMap.lookup (ScopeMap.subscript nv n) m = ScopeMap.lookup nv m := by
  induction nv with
  | nil =>
    by_cases h : n = m <;> simp [ScopeMap.subscript, ScopeMap.lookup, h]
  | cons p rest ih =>
    obtain ⟨k, v⟩ := p
    by_cases hk : k = n
    · simp [ScopeMap.subscript, ScopeMap.lookup, hk]
    · by_cases hm : k = m
      · subst hm
        simp [ScopeMap.subscript, ScopeMap.lookup, hk]
      · simp [ScopeMap.subscript, ScopeMap.lookup, hk, hm, ih]

theorem scopeMap_lookup_assign (nv : ScopeMap) (n m : String) (v : Option Nat) :
    ScopeMap.lookup (ScopeMap.assign nv n v) m = if n = m then v else ScopeMap.lookup nv m := by
  induction nv with
  | nil => simp [ScopeMap.assign, ScopeMap.lookup]
  | cons p rest ih =>
    obtain ⟨k, w⟩ := p
    by_cases hk : k = n
    · subst hk
      by_cases hm : k = m <;> simp [ScopeMap.assign, ScopeMap.lookup, hm]
    · by_cases hm : k = m
      · subst hm
        have : ¬ n = k := fun h => hk h.symm
        simp [ScopeMap.assign, ScopeMap.lookup, hk, this]
      · simp [ScopeMap.assign, ScopeMap.lookup, hk, hm, ih]

theorem scopeMap_lookup_erase (nv : ScopeMap) (n m : String) :
    ScopeMap.lookup (ScopeMap.erase nv n) m = if n = m then none else ScopeMap.lookup nv m := by
  induction nv with
  | nil => simp [ScopeMap.erase, ScopeMap.lookup]
  | cons p rest ih =>
    obtain ⟨k, w⟩ := p
    by_cases hk : k = n
    · subst hk
      by_cases hm : k = m
      · subst hm
        simpa [ScopeMap.erase, ScopeMap.lookup] using ih
      · simpa [ScopeMap.erase, ScopeMap.lookup, hm] using ih
    · by_cases hm : k = m
      · subst hm
        have : ¬ n = k := fun h => hk h.symm
        simp [ScopeMap.erase, ScopeMap.lookup, hk, this]
      · simp [ScopeMap.erase, ScopeMap.lookup, hk, hm, ih]

@[simp] theorem State.lookup_subscript (st : State) (n m : String) :
    (st.subscript n).lookup m = st.lookup m := by
  simp [State.subscript, State.lookup, scopeMap_lookup_subscript]

@[simp] theorem State.lookup_assign (st : State) (n m : String) (v : Option Nat) :
    (st.assign n v).lookup m = if n = m then v else st.lookup m := by
  simp [State.assign, State.lookup, scopeMap_lookup_assign, scopeMap_lookup_subscript]

@[simp] theorem State.lookup_erase (st : State) (n m : String) :
    (st.erase n).lookup m = if n = m then none else st.lookup m := by
  simp [State.erase, State.lookup, scopeMap_lookup_erase]

@[simp] theorem State.lookup_insert (st : State) (i : Instr) (m : String) :
    (st.insert i).lookup m = st.lookup m := by
  unfold State.insert State.lookup
  cases st.cursor <;> rfl

@[simp] theorem State.lookup_emit (st : State) (mk : Nat → Instr) (m : String) :
    (st.emit mk).lookup m = st.lookup m := by
  unfold State.emit State.reserve State.insert State.lookup
  cases st.cursor <;> rfl

@[simp] theorem State.lookup_print (st : State) (o : Output) (m : String) :
    (st.print o).lookup m = st.lookup m := rfl

@[simp] theorem State.lookup_reserve (st : State) (k : Nat) (m : String) :
    (st.reserve k).lookup m = st.lookup m := rfl

@[simp] theorem State.lookup_attach (st : State) (fn : String) (id : Nat) (l m : String) :
    (st.attach fn id l).lookup m = st.lookup m := rfl

@[simp] theorem State.lookup_SetInsertPoint (st : State) (c : BlockRef) (m : String) :
    (st.SetInsertPoint c).lookup m = st.lookup m := rfl

@[simp] theorem lookup_CreateEntryBlockAlloca (fn v : String) (st : State) (m : String) :
    (CreateEntryBlockAlloca fn v st).lookup m = st.lookup m := rfl

/-! ## Lemmas on the builder -/

@[simp] theorem State.nextId_insert (st : State) (i : Instr) : (st.insert i).nextId = st.nextId := by
  unfold State.insert; cases st.cursor <;> rfl

@[simp] theorem State.cursor_insert (st : State) (i : Instr) : (st.insert i).cursor = st.cursor := by
  unfold State.insert
  cases h : st.cursor <;> simp [h]

@[simp] theorem State.nextId_reserve (st : State) (k : Nat) : (st.reserve k).nextId = st.nextId + k := rfl

@[simp] theorem State.cursor_reserve (st : State) (k : Nat) : (st.reserve k).cursor = st.cursor := rfl

@[simp] theorem State.blocks_reserve (st : State) (k : Nat) : (st.reserve k).blocks = st.blocks := rfl

@[simp] theorem State.nextId_emit (st : State) (mk : Nat → Instr) : (st.emit mk).nextId = st.nextId + 1 := by
  simp [State.emit]

@[simp] theorem State.cursor_emit (st : State) (mk : Nat → Instr) : (st.emit mk).cursor = st.cursor := by
  simp [State.emit]

@[simp] theorem State.nextId_attach (st : State) (fn : String) (id : Nat) (l : String) :
    (st.attach fn id l).nextId = st.nextId := rfl

@[simp] theorem State.cursor_attach (st : State) (fn : String) (id : Nat) (l : String) :
    (st.attach fn id l).cursor = st.cursor := rfl

@[simp] theorem State.nextId_SetInsertPoint (st : State) (c : BlockRef) :
    (st.SetInsertPoint c).nextId = st.nextId := rfl

@[simp] theorem State.cursor_SetInsertPoint (st : State) (c : BlockRef) :
    (st.SetInsertPoint c).cursor = some c := rfl

@[simp] theorem State.blocks_SetInsertPoint (st : State) (c : BlockRef) :
    (st.SetInsertPoint c).blocks = st.blocks := rfl

@[simp] theorem State.nextId_assign (st : State) (n : String) (v : Option Nat) :
    (st.assign n v).nextId = st.nextId := rfl

@[simp] theorem State.cursor_assign (st : State) (n : String) (v : Option Nat) :
    (st.assign n v).cursor = st.cursor := rfl

@[simp] theorem State.nextId_subscript (st : State) (n : String) :
    (st.subscript n).nextId = st.nextId := rfl

@[simp] theorem State.cursor_subscript (st : State) (n : String) :
    (st.subscript n).cursor = st.cursor := rfl

@[simp] theorem State.nextId_erase (st : State) (n : String) : (st.erase n).nextId = st.nextId := rfl

@[simp] theorem State.nextId_print (st : State) (o : Output) : (st.print o).nextId = st.nextId := rfl

@[simp] theorem nextId_CreateEntryBlockAlloca (fn v : String) (st : State) :
    (CreateEntryBlockAlloca fn v st).nextId = st.nextId + 1 := rfl

@[simp] theorem cursor_CreateEntryBlockAlloca (fn v : String) (st : State) :
    (CreateEntryBlockAlloca fn v st).cursor = st.cursor := rfl

theorem State.blocks_insert_of_cursor (st : State) (i : Instr) (c : BlockRef)
    (h : st.cursor = some c) : (st.insert i).blocks = appendAt c.id i st.blocks := by
  unfold State.insert
  simp [h]

theorem blockInstrs_appendAt (c : Nat) (i : Instr) (bs : List BasicBlock) (k : Nat) :
    blockInstrs (appendAt c i bs) k =
      if k = c then (blockInstrs bs k).map (fun l => l ++ [i]) else blockInstrs bs k := by
  induction bs with
  | nil => simp [appendAt, blockInstrs]
  | cons b rest ih =>
    unfold appendAt at ih ⊢
    by_cases hb : b.id = c
    · by_cases hk : k = c
      · subst hk; simp [blockInstrs, hb]
      · have : ¬ c = k := fun h => hk h.symm
        simp [blockInstrs, hb, hk, this] at ih ⊢
        exact ih
    · by_cases hk : b.id = k
      · subst hk; simp [blockInstrs, hb]
      · simp [blockInstrs, hb, hk] at ih ⊢
        exact ih

theorem map_id_appendAt (c : Nat) (i : Instr) (bs : List BasicBlock) :
    (appendAt c i bs).map (fun x => x.id) = bs.map (fun x => x.id) := by
  induction bs with
  | nil => rfl
  | cons b rest ih =>
    unfold appendAt at ih ⊢
    by_cases hb : b.id = c <;> simp [hb] at ih ⊢ <;> exact ih

theorem map_id_insertAtEntry (fn : String) (i : Instr) (bs : List BasicBlock) :
    (insertAtEntry fn i bs).map (fun x => x.id) = bs.map (fun x => x.id) := by
  induction bs with
  | nil => rfl
  | cons b rest ih =>
    by_cases hb : b.parent = fn <;> simp [insertAtEntry, hb, ih]

theorem blockInstrs_insertAtEntry (fn : String) (i : Instr) (bs : List BasicBlock) (k : Nat)
    (l : List Instr) (h : blockInstrs bs k = some l) :
    ∃ pre, blockInstrs (insertAtEntry fn i bs) k = some (pre ++ l) := by
  induction bs with
  | nil => simp [blockInstrs] at h
  | cons b rest ih =>
    by_cases hb : b.parent = fn
    · by_cases hk : b.id = k
      · simp [blockInstrs, hk] at h
        exact ⟨[i], by simp [insertAtEntry, blockInstrs, hb, hk, h]⟩
      · simp [blockInstrs, hk] at h
        exact ⟨[], by simp [insertAtEntry, blockInstrs, hb, hk, h]⟩
    · by_cases hk : b.id = k
      · simp [blockInstrs, hk] at h
        exact ⟨[], by simp [insertAtEntry, blockInstrs, hb, hk, h]⟩
      · simp [blockInstrs, hk] at h
        obtain ⟨pre, hpre⟩ := ih h
        exact ⟨pre, by simp [insertAtEntry, blockInstrs, hb, hk, hpre]⟩

theorem blockInstrs_append_of_some (bs bs' : List BasicBlock) (k : Nat) (l : List Instr)
    (h : blockInstrs bs k = some l) : blockInstrs (bs ++ bs') k = some l := by
  induction bs with
  | nil => simp [blockInstrs] at h
  | cons b rest ih =>
    by_cases hk : b.id = k
    · simpa [blockInstrs, hk] using h
    · simp [blockInstrs, hk] at h ⊢
      exact ih h

theorem blockInstrs_eq_none (bs : List BasicBlock) (k : Nat) :
    blockInstrs bs k = none ↔ k ∉ bs.map (fun x => x.id) := by
  induction bs with
  | nil => simp [blockInstrs]
  | cons b rest ih =>
    by_cases hk : b.id = k
    · simp [blockInstrs, hk]
    · have : ¬ k = b.id := fun h => hk h.symm
      simp [blockInstrs, hk, this] at ih ⊢
      exact ih

theorem blockInstrs_append_of_none (bs bs' : List BasicBlock) (k : Nat)
    (h : blockInstrs bs k = none) : blockInstrs (bs ++ bs') k = blockInstrs bs' k := by
  induction bs with
  | nil => rfl
  | cons b rest ih =>
    by_cases hk : b.id = k
    · simp [blockInstrs, hk] at h
    · simp [blockInstrs, hk] at h ⊢
      exact ih h

theorem blockInstrs_isSome (bs : List BasicBlock) (k : Nat) :
    (blockInstrs bs k).isSome ↔ k ∈ bs.map (fun x => x.id) := by
  cases h : blockInstrs bs k with
  | none => simpa using (blockInstrs_eq_none bs k).mp h
  | some l =>
    have : ¬ blockInstrs bs k = none := by simp [h]
    rw [blockInstrs_eq_none] at this
    simpa using this

theorem State.ids_insert (st : State) (i : Instr) :
    (st.insert i).blocks.map (fun x => x.id) = st.blocks.map (fun x => x.id) := by
  unfold State.insert
  cases st.cursor with
  | none => rfl
  | some c => exact map_id_appendAt _ _ _

theorem State.ids_attach (st : State) (fn : String) (id : Nat) (l : String) :
    (st.attach fn id l).blocks.map (fun x => x.id) = st.blocks.map (fun x => x.id) ++ [id] := by
  simp [State.attach]

/-! ## What a lowering may do to the IR -/

theorem StepsFrom.refl (b : Nat) (st : State) : StepsFrom b st st where
  functions_eq := rfl
  globals_eq := rfl
  nextId_le := Nat.le_refl _
  cursor_none := fun h => h
  cursor_some := fun c h => ⟨c, h, rfl, Or.inl rfl⟩
  ids := ⟨[], by simp⟩
  frame := fun k l _ _ h => ⟨[], by simpa using h⟩
  attached := fun c c' h h' ha => by
    rw [h] at h'; cases h'; exact ha

theorem StepsFrom.trans {b b1 : Nat} {st s1 s2 : State} (h1 : StepsFrom b st s1)
    (h2 : StepsFrom b1 s1 s2) (hb : b ≤ b1) : StepsFrom b st s2 where
  functions_eq := h2.functions_eq.trans h1.functions_eq
  globals_eq := h2.globals_eq.trans h1.globals_eq
  nextId_le := Nat.le_trans h1.nextId_le h2.nextId_le
  cursor_none := fun h => h2.cursor_none (h1.cursor_none h)
  cursor_some := fun c h => by
    obtain ⟨c1, hc1, hp1, hi1⟩ := h1.cursor_some c h
    obtain ⟨c2, hc2, hp2, hi2⟩ := h2.cursor_some c1 hc1
    have := h2.nextId_le
    refine ⟨c2, hc2, hp2.trans hp1, ?_⟩
    omega
  ids := by
    obtain ⟨n1, e1, hn1⟩ := h1.ids
    obtain ⟨n2, e2, hn2⟩ := h2.ids
    have := h2.nextId_le
    refine ⟨n1 ++ n2, by rw [e2, e1, List.append_assoc], ?_⟩
    intro k hk
    rcases List.mem_append.mp hk with hk | hk
    · have := hn1 k hk; omega
    · have := hn2 k hk; omega
  frame := fun k l hk hc hl => by
    obtain ⟨pre1, hp1⟩ := h1.frame k l hk hc hl
    have hc1 : ∀ c, s1.cursor = some c → c.id ≠ k := by
      intro c1 hc1
      cases hcur : st.cursor with
      | none => rw [h1.cursor_none hcur] at hc1; cases hc1
      | some c =>
        obtain ⟨c1', hc1', _, hi1⟩ := h1.cursor_some c hcur
        rw [hc1] at hc1'; cases hc1'
        have := hc c hcur
        omega
    obtain ⟨pre2, hp2⟩ := h2.frame k (pre1 ++ l) (by omega) hc1 hp1
    exact ⟨pre2 ++ pre1, by rw [hp2, List.append_assoc]⟩
  attached := fun c c2 hc hc2 ha => by
    obtain ⟨c1, hc1, _, _⟩ := h1.cursor_some c hc
    exact h2.attached c1 c2 hc1 hc2 (h1.attached c c1 hc hc1 ha)

theorem StepsFrom.weaken {b b1 : Nat} {st st' : State} (h : StepsFrom b1 st st') (hb : b ≤ b1) :
    StepsFrom b st st' :=
  (StepsFrom.refl b st).trans h hb

/-- A step that leaves module, blocks and cursor alone. -/
theorem StepsFrom.of_eq {b : Nat} {st st' : State} (hf : st'.functions = st.functions)
    (hg : st'.globals = st.globals) (hb : st'.blocks = st.blocks) (hc : st'.cursor = st.cursor)
    (hn : st.nextId ≤ st'.nextId) : StepsFrom b st st' where
  functions_eq := hf
  globals_eq := hg
  nextId_le := hn
  cursor_none := fun h => by rw [hc, h]
  cursor_some := fun c h => ⟨c, by rw [hc, h], rfl, Or.inl rfl⟩
  ids := ⟨[], by simp [hb]⟩
  frame := fun k l _ _ h => ⟨[], by simpa [hb] using h⟩
  attached := fun c c' h h' ha => by
    rw [hc, h] at h'; cases h'; rw [hb]; exact ha

theorem StepsFrom.insert (b : Nat) (st : State) (i : Instr) : StepsFrom b st (st.insert i) := by
  unfold State.insert
  cases hcur : st.cursor with
  | none => exact StepsFrom.refl b st
  | some c =>
    refine ⟨rfl, rfl, Nat.le_refl _, fun h => by simp [hcur] at h,
      fun c0 h => ⟨c0, by simpa [hcur] using h, rfl, Or.inl rfl⟩,
      ⟨[], by simp [map_id_appendAt]⟩, ?_, ?_⟩
    · intro k l _ hc hl
      have : ¬ k = c.id := fun h => hc c hcur h.symm
      exact ⟨[], by simp [blockInstrs_appendAt, this, hl]⟩
    · intro c0 c1 h0 h1 ha
      simp only [hcur] at h0 h1
      cases h0; cases h1
      simp only [blockInstrs_appendAt]
      cases hbi : blockInstrs st.blocks c.id with
      | none => simp [hbi] at ha
      | some l => simp

theorem StepsFrom.reserve (b : Nat) (st : State) (k : Nat) : StepsFrom b st (st.reserve k) :=
  StepsFrom.of_eq rfl rfl rfl rfl (by simp [State.reserve])

theorem StepsFrom.emit (b : Nat) (st : State) (mk : Nat → Instr) : StepsFrom b st (st.emit mk) :=
  (StepsFrom.insert b st _).trans (StepsFrom.reserve b _ 1) (Nat.le_refl _)

theorem StepsFrom.subscript (b : Nat) (st : State) (n : String) :
    StepsFrom b st (st.subscript n) :=
  StepsFrom.of_eq rfl rfl rfl rfl (Nat.le_refl _)

theorem StepsFrom.assign (b : Nat) (st : State) (n : String) (v : Option Nat) :
    StepsFrom b st (st.assign n v) :=
  StepsFrom.of_eq rfl rfl rfl rfl (Nat.le_refl _)

theorem StepsFrom.erase (b : Nat) (st : State) (n : String) : StepsFrom b st (st.erase n) :=
  StepsFrom.of_eq rfl rfl rfl rfl (Nat.le_refl _)

theorem StepsFrom.print (b : Nat) (st : State) (o : Output) : StepsFrom b st (st.print o) :=
  StepsFrom.of_eq rfl rfl rfl rfl (Nat.le_refl _)

theorem StepsFrom.logError (b : Nat) (st : State) (s : String) : StepsFrom b st (LogErrorV st s) :=
  StepsFrom.print b st _

theorem StepsFrom.entryAlloca (b : Nat) (fn VarName : String) (st : State) :
    StepsFrom b st (CreateEntryBlockAlloca fn VarName st) where
  functions_eq := rfl
  globals_eq := rfl
  nextId_le := by simp [CreateEntryBlockAlloca]
  cursor_none := fun h => h
  cursor_some := fun c h => ⟨c, h, rfl, Or.inl rfl⟩
  ids := ⟨[], by simp [CreateEntryBlockAlloca, map_id_insertAtEntry]⟩
  frame := fun k l _ _ h => blockInstrs_insertAtEntry fn _ st.blocks k l h
  attached := fun c c' h h' ha => by
    have h'' : st.cursor = some c' := h'
    rw [h] at h''; cases h''
    cases hbi : blockInstrs st.blocks c.id with
    | none => simp [hbi] at ha
    | some l =>
      obtain ⟨pre, hpre⟩ := blockInstrs_insertAtEntry fn (Instr.alloca st.nextId VarName) st.blocks c.id l hbi
      show (blockInstrs (insertAtEntry fn _ st.blocks) c.id).isSome
      rw [hpre]; rfl

/-- Attaching a block whose identity is at least `b`. -/
theorem StepsFrom.attach (b : Nat) (st : State) (fn : String) (id : Nat) (label : String)
    (h1 : b ≤ id) (h2 : id < st.nextId) : StepsFrom b st (st.attach fn id label) where
  functions_eq := rfl
  globals_eq := rfl
  nextId_le := Nat.le_refl _
  cursor_none := fun h => h
  cursor_some := fun c h => ⟨c, h, rfl, Or.inl rfl⟩
  ids := ⟨[id], by simp [State.attach], by
    intro k hk
    simp at hk; subst hk
    exact ⟨h1, h2⟩⟩
  frame := fun k l _ _ h => ⟨[], by
    simpa [State.attach] using blockInstrs_append_of_some st.blocks _ k l h⟩
  attached := fun c c' h h' ha => by
    have h'' : st.cursor = some c' := h'
    rw [h] at h''; cases h''
    cases hbi : blockInstrs st.blocks c.id with
    | none => simp [hbi] at ha
    | some l =>
      show (blockInstrs (st.blocks ++ _) c.id).isSome
      rw [blockInstrs_append_of_some _ _ _ _ hbi]; rfl

/-- Moving the cursor to an attached block of the same function whose identity is at
least `b`. -/
theorem StepsFrom.setInsertPoint (b : Nat) (st : State) (c : BlockRef) (id : Nat)
    (hc : st.cursor = some c) (h1 : b ≤ id) (h2 : id < st.nextId)
    (ha : (blockInstrs st.blocks id).isSome) :
    StepsFrom b st (st.SetInsertPoint ⟨id, c.parent⟩) where
  functions_eq := rfl
  globals_eq := rfl
  nextId_le := Nat.le_refl _
  cursor_none := fun h => by rw [hc] at h; cases h
  cursor_some := fun c0 h => ⟨⟨id, c.parent⟩, rfl, by
    rw [hc] at h; cases h; rfl, Or.inr ⟨h1, h2⟩⟩
  ids := ⟨[], by simp [State.SetInsertPoint]⟩
  frame := fun k l _ _ h => ⟨[], by simpa [State.SetInsertPoint] using h⟩
  attached := fun c0 c' _ h' _ => by
    have h'' : some (BlockRef.mk id c.parent) = some c' := h'
    cases h''
    exact ha

/-- The header of a control-flow construct: a fresh block is attached to the current
function, a branch is written to the old cursor block, the cursor enters the block. -/
theorem StepsFrom.enter (b : Nat) (st : State) (c : BlockRef) (fn : String) (id : Nat)
    (label : String) (hc : st.cursor = some c) (hfn : fn = c.parent) (h1 : b ≤ id)
    (h2 : id < st.nextId) :
    StepsFrom b st ((st.attach fn id label).SetInsertPoint ⟨id, fn⟩) := by
  subst hfn
  exact (StepsFrom.attach b st c.parent id label h1 h2).trans
    (StepsFrom.setInsertPoint b _ c id hc h1 h2
      ((blockInstrs_isSome _ _).mpr (by rw [State.ids_attach]; simp)))
    (Nat.le_refl _)

theorem StepsFrom.branchEnter (b : Nat) (st : State) (c : BlockRef) (id : Nat) (label : String)
    (i : Instr) (hc : st.cursor = some c) (h1 : b ≤ id) (h2 : id < st.nextId) :
    StepsFrom b st
      (((st.attach c.parent id label).insert i).SetInsertPoint ⟨id, c.parent⟩) :=
  ((StepsFrom.attach b st c.parent id label h1 h2).trans (StepsFrom.insert b _ i)
    (Nat.le_refl _)).trans
    (StepsFrom.setInsertPoint b _ c id (by simpa using hc) h1 (by simpa using h2)
      ((blockInstrs_isSome _ _).mpr (by rw [State.ids_insert, State.ids_attach]; simp)))
    (Nat.le_refl _)

theorem StepsFrom.restoreDefs (b : Nat) : ∀ (Def : List VarBindingAST) (tmp : List (Option Nat))
    (st : State), StepsFrom b st (restoreDefs Def tmp st)
  | [], _, st => by simp only [Kaleidoscope.restoreDefs]; exact StepsFrom.refl b st
  | _ :: _, [], st => by simp only [Kaleidoscope.restoreDefs]; exact StepsFrom.refl b st
  | d :: ds, t :: ts, st => by
    simp only [Kaleidoscope.restoreDefs]
    exact (StepsFrom.assign b st d.getName t).trans (StepsFrom.restoreDefs b ds ts _)
      (Nat.le_refl _)

mutual
theorem ExprAST_codegen_steps : ∀ (e : ExprAST) (st : State) (r : Option Value) (st' : State),
    e.codegen st = some (r, st') → StepsFrom st.nextId st st'
  | .number Val, st, r, st', h => by
    simp only [ExprAST.codegen] at h
    cases h
    exact StepsFrom.refl _ _
  | .var Name, st, r, st', h => by
    simp only [ExprAST.codegen] at h
    split at h
    · cases h
      exact (StepsFrom.subscript _ st Name).trans (StepsFrom.emit _ _ _) (Nat.le_refl _)
    · split at h
      · cases h
        exact (StepsFrom.subscript _ st Name).trans (StepsFrom.emit _ _ _) (Nat.le_refl _)
      · cases h
        exact (StepsFrom.subscript _ st Name).trans (StepsFrom.logError _ _ _) (Nat.le_refl _)
  | .logical Op LHS RHS, st, r, st', h => by
    simp only [ExprAST.codegen] at h
    split at h
    · cases h
    · rename_i L s1 hL
      have ih := ExprAST_codegen_steps LHS st L s1 hL
      split at h
      · split at h
        · cases h
        · cases h
          exact ih.trans (StepsFrom.emit _ _ _) ih.nextId_le
      · split at h
        · cases h
        · rename_i R s2 hR
          have ih2 := derefCodegen_steps RHS s1 R s2 hR
          have ih12 := ih.trans ih2 ih.nextId_le
          split at h
          · split at h
            · cases h
              exact ih12.trans (StepsFrom.emit _ _ _) ih12.nextId_le
            · split at h
              · cases h
                exact ih12.trans (StepsFrom.emit _ _ _) ih12.nextId_le
              · cases h
                exact ih12.trans ((StepsFrom.print _ _ _).trans (StepsFrom.logError _ _ _)
                  (Nat.le_refl _)) ih12.nextId_le
          · cases h
            exact ih12
  | .binary Op LHS RHS, st, r, st', h => by
    simp only [ExprAST.codegen] at h
    split at h
    · cases h
    · rename_i L s1 hL
      have ih := ExprAST_codegen_steps LHS st L s1 hL
      split at h
      · cases h
      · rename_i R s2 hR
        have ih2 := ExprAST_codegen_steps RHS s1 R s2 hR
        have ih12 := ih.trans ih2 ih.nextId_le
        split at h
        · split at h
          · split at h
            · cases h
              exact ih12
            · cases h
              exact ih12.trans (StepsFrom.emit _ _ _) ih12.nextId_le
          · cases h
            exact ih12.trans ((StepsFrom.print _ _ _).trans (StepsFrom.logError _ _ _)
              (Nat.le_refl _)) ih12.nextId_le
        · cases h
          exact ih12
  | .call Callee Args, st, r, st', h => by
    simp only [ExprAST.codegen] at h
    split at h
    · cases h
      exact StepsFrom.logError _ _ _
    · split at h
      · cases h
        exact StepsFrom.logError _ _ _
      · split at h
        · cases h
        · rename_i s1 hA
          cases h
          exact codegenList_steps Args st none _ hA
        · rename_i ArgsV s1 hA
          cases h
          have ih := codegenList_steps Args st (some ArgsV) _ hA
          exact ih.trans (StepsFrom.emit _ _ _) ih.nextId_le
  | .ifExpr Cond TrueExp FalseExp, st, r, st', h => by
    simp only [ExprAST.codegen] at h
    split at h
    · cases h
    · rename_i s1 hC
      cases h
      exact ExprAST_codegen_steps Cond st none _ hC
    · rename_i CondV s1 hC
      have ihc := ExprAST_codegen_steps Cond st _ _ hC
      have n1 := ihc.nextId_le
      split at h
      · cases h
      · rename_i cur hcur
        have k2 : StepsFrom s1.nextId s1 ((((s1.reserve 3).attach cur.parent s1.nextId
            "trueexp").insert (Instr.condBr CondV s1.nextId (s1.nextId + 1))).SetInsertPoint
            ⟨s1.nextId, cur.parent⟩) :=
          (StepsFrom.reserve s1.nextId s1 3).trans
            (StepsFrom.branchEnter s1.nextId (s1.reserve 3) cur s1.nextId "trueexp" _
              (by simpa using hcur) (Nat.le_refl _) (by simp)) (Nat.le_refl _)
        split at h
        · cases h
        · rename_i s3 hT
          cases h
          have iht := ExprAST_codegen_steps TrueExp _ _ _ hT
          exact ihc.trans (k2.trans iht (by simp)) n1
        · rename_i TrueV s3 hT
          have iht := ExprAST_codegen_steps TrueExp _ _ _ hT
          have n3 := iht.nextId_le
          simp at n3
          have k4 : StepsFrom s1.nextId s1 (s3.insert (Instr.br (s1.nextId + 2))) :=
            (k2.trans iht (by simp)).trans (StepsFrom.insert _ _ _) (Nat.le_refl _)
          split at h
          · cases h
          · rename_i TrueEnd hTE
            obtain ⟨c4, hc4, hp4, -⟩ := k4.cursor_some cur hcur
            rw [hTE] at hc4
            cases hc4
            have k5 := k4.trans (StepsFrom.enter s1.nextId _ TrueEnd cur.parent (s1.nextId + 1)
              "falseexp" hTE hp4.symm (by omega) (by simp; omega)) (Nat.le_refl _)
            split at h
            · cases h
            · rename_i s6 hF
              cases h
              have ihf := ExprAST_codegen_steps FalseExp _ _ _ hF
              exact ihc.trans (k5.trans ihf (by simp; omega)) n1
            · rename_i FalseV s6 hF
              have ihf := ExprAST_codegen_steps FalseExp _ _ _ hF
              have n6 := ihf.nextId_le
              simp at n6
              have k7 : StepsFrom s1.nextId s1 (s6.insert (Instr.br (s1.nextId + 2))) :=
                (k5.trans ihf (by simp; omega)).trans (StepsFrom.insert _ _ _) (Nat.le_refl _)
              split at h
              · cases h
              · rename_i FalseEnd hFE
                obtain ⟨c7, hc7, hp7, -⟩ := k7.cursor_some cur hcur
                rw [hFE] at hc7
                cases hc7
                cases h
                exact ihc.trans ((k7.trans (StepsFrom.enter s1.nextId _ FalseEnd cur.parent
                  (s1.nextId + 2) "endcond" hFE hp7.symm (by omega) (by simp; omega))
                  (Nat.le_refl _)).trans (StepsFrom.emit _ _ _) (Nat.le_refl _)) n1
  | .forExpr StartExp Cond StepExp BlockExp, st, r, st', h => by
    simp only [ExprAST.codegen] at h
    split at h
    · cases h
    · rename_i cur hcur
      split at h
      · cases h
      · rename_i s1 hI
        cases h
        exact ForInit_codegen_steps StartExp _ st _ _ hI
      · rename_i outer s1 hI
        have ihi := ForInit_codegen_steps StartExp _ st _ _ hI
        have n1 := ihi.nextId_le
        obtain ⟨c1, hc1, hp1, -⟩ := ihi.cursor_some cur hcur
        have k2 : StepsFrom st.nextId st ((s1.reserve 2).attach cur.parent s1.nextId "loop") :=
          ihi.trans ((StepsFrom.reserve s1.nextId s1 2).trans
            (StepsFrom.attach s1.nextId _ cur.parent s1.nextId "loop" (Nat.le_refl _) (by simp))
            (Nat.le_refl _)) n1
        split at h
        · cases h
        · rename_i s3 hC
          cases h
          have ihc := ExprAST_codegen_steps Cond _ _ _ hC
          exact k2.trans ihc (by simp; omega)
        · rename_i EndV s3 hC
          have ihc := ExprAST_codegen_steps Cond _ _ _ hC
          have n3 := ihc.nextId_le
          simp at n3
          have k3 := k2.trans ihc (by simp; omega)
          obtain ⟨c3, hc3, hp3, -⟩ := k3.cursor_some cur hcur
          have a3 : (blockInstrs s3.blocks s1.nextId).isSome := by
            rw [blockInstrs_isSome]
            obtain ⟨new, hnew, -⟩ := ihc.ids
            rw [hnew, State.ids_attach]
            simp
          have k4 : StepsFrom st.nextId st ((s3.insert (Instr.condBr EndV s1.nextId
              (s1.nextId + 1))).SetInsertPoint ⟨s1.nextId, cur.parent⟩) := by
            have k3i := k3.trans (StepsFrom.insert st.nextId s3
              (Instr.condBr EndV s1.nextId (s1.nextId + 1))) (Nat.le_refl _)
            refine k3i.trans ?_ (Nat.le_refl _)
            rw [← hp3]
            exact StepsFrom.setInsertPoint st.nextId _ c3 s1.nextId (by simpa using hc3)
              (by omega) (by simp; omega)
              (by rw [blockInstrs_isSome, State.ids_insert, ← blockInstrs_isSome]; exact a3)
          split at h
          · cases h
          · rename_i s5 hB
            cases h
            have ihb := ExprAST_codegen_steps BlockExp _ _ _ hB
            exact k4.trans ihb (by simp; omega)
          · rename_i bv s5 hB
            have ihb := ExprAST_codegen_steps BlockExp _ _ _ hB
            have n5 := ihb.nextId_le
            simp at n5
            have k5 := k4.trans ihb (by simp; omega)
            split at h
            · cases h
            · rename_i s6 hS
              cases h
              have ihs := stepCodegen_steps StepExp _ _ _ hS
              exact k5.trans ihs (by omega)
            · rename_i sv s6 hS
              have ihs := stepCodegen_steps StepExp _ _ _ hS
              have n6 := ihs.nextId_le
              have k6 := k5.trans ihs (by omega)
              split at h
              · cases h
              · rename_i s7 hC2
                cases h
                have ihc2 := ExprAST_codegen_steps Cond _ _ _ hC2
                exact k6.trans ihc2 (by omega)
              · rename_i EndV2 s7 hC2
                have ihc2 := ExprAST_codegen_steps Cond _ _ _ hC2
                have n7 := ihc2.nextId_le
                have k7 := (k6.trans ihc2 (by omega)).trans
                  (StepsFrom.insert st.nextId _ (Instr.condBr EndV2 s1.nextId (s1.nextId + 1)))
                  (Nat.le_refl _)
                obtain ⟨c7, hc7, hp7, -⟩ := k7.cursor_some cur hcur
                have k8 := k7.trans (StepsFrom.enter st.nextId _ c7 cur.parent (s1.nextId + 1)
                  "afterloop" hc7 hp7.symm (by omega) (by simp; omega)) (Nat.le_refl _)
                split at h
                · cases h
                · split at h
                  · cases h
                    exact k8.trans (StepsFrom.assign _ _ _ _) (Nat.le_refl _)
                  · cases h
                    exact k8.trans (StepsFrom.erase _ _ _) (Nat.le_refl _)
  | .block Def Val, st, r, st', h => by
    simp only [ExprAST.codegen] at h
    split at h
    · cases h
    · rename_i s1 hD
      cases h
      exact codegenDefs_steps Def st _ _ hD
    · rename_i tmp s1 hD
      have ihd := codegenDefs_steps Def st _ _ hD
      split at h
      · cases h
      · rename_i s2 hV
        cases h
        exact ihd.trans (codegenList_steps Val _ _ _ hV) ihd.nextId_le
      · rename_i vals s2 hV
        have ihv := ihd.trans (codegenList_steps Val _ _ _ hV) ihd.nextId_le
        split at h
        · cases h
        · cases h
          exact ihv.trans (StepsFrom.restoreDefs _ _ _ _) (Nat.le_refl _)
  | .assignment a, st, r, st', h => by
    simp only [ExprAST.codegen] at h
    exact AssignmentAST_codegen_steps a st r st' h
theorem derefCodegen_steps : ∀ (e : Option ExprAST) (st : State) (r : Option Value) (st' : State),
    derefCodegen e st = some (r, st') → StepsFrom st.nextId st st'
  | none, st, r, st', h => by
    simp only [derefCodegen] at h
    cases h
  | some e, st, r, st', h => by
    simp only [derefCodegen] at h
    exact ExprAST_codegen_steps e st r st' h
theorem ForInit_codegen_steps : ∀ (i : ForInit) (fn : String) (st : State)
    (r : Option (Option (String × Option Nat))) (st' : State),
    i.codegen fn st = some (r, st') → StepsFrom st.nextId st st'
  | .binding b, fn, st, r, st', h => by
    simp only [ForInit.codegen] at h
    split at h
    · cases h
    · rename_i s1 hB
      cases h
      exact VarBindingAST_codegen_steps b st _ _ hB
    · rename_i Alloca s1 hB
      cases h
      exact (VarBindingAST_codegen_steps b st _ _ hB).trans (StepsFrom.assign _ _ _ _)
        (Nat.le_refl _)
  | .assign a, fn, st, r, st', h => by
    simp only [ForInit.codegen] at h
    have k0 := StepsFrom.entryAlloca st.nextId fn a.getName st
    split at h
    · cases h
    · rename_i s1 hA
      cases h
      exact k0.trans (AssignmentAST_codegen_steps a _ _ _ hA) (by simp)
    · rename_i Var s1 hA
      cases h
      exact ((k0.trans (AssignmentAST_codegen_steps a _ _ _ hA) (by simp)).trans
        (StepsFrom.insert _ _ _) (Nat.le_refl _)).trans (StepsFrom.assign _ _ _ _) (Nat.le_refl _)
theorem stepCodegen_steps : ∀ (e : Option AssignmentAST) (st : State) (r : Option Value)
    (st' : State), stepCodegen e st = some (r, st') → StepsFrom st.nextId st st'
  | none, st, r, st', h => by
    simp only [stepCodegen] at h
    cases h
    exact StepsFrom.refl _ _
  | some a, st, r, st', h => by
    simp only [stepCodegen] at h
    exact AssignmentAST_codegen_steps a st r st' h
theorem VarBindingAST_codegen_steps : ∀ (d : VarBindingAST) (st : State) (r : Option Nat)
    (st' : State), d.codegen st = some (r, st') → StepsFrom st.nextId st st'
  | .mk Name Val, st, r, st', h => by
    simp only [VarBindingAST.codegen] at h
    split at h
    · cases h
    · split at h
      · cases h
      · rename_i s1 hV
        cases h
        exact ExprAST_codegen_steps Val st _ _ hV
      · rename_i BoundVal s1 hV
        cases h
        have ih := ExprAST_codegen_steps Val st _ _ hV
        exact (ih.trans (StepsFrom.entryAlloca _ _ _ _) ih.nextId_le).trans
          (StepsFrom.insert _ _ _) (Nat.le_refl _)
theorem AssignmentAST_codegen_steps : ∀ (a : AssignmentAST) (st : State) (r : Option Value)
    (st' : State), a.codegen st = some (r, st') → StepsFrom st.nextId st st'
  | .mk VName VValue, st, r, st', h => by
    simp only [AssignmentAST.codegen] at h
    have k0 := StepsFrom.subscript st.nextId st VName
    split at h
    · cases h
      exact k0.trans (StepsFrom.logError _ _ _) (Nat.le_refl _)
    · split at h
      · cases h
      · rename_i s2 hV
        cases h
        exact k0.trans (ExprAST_codegen_steps VValue _ _ _ hV) (Nat.le_refl _)
      · rename_i v s2 hV
        cases h
        exact (k0.trans (ExprAST_codegen_steps VValue _ _ _ hV) (Nat.le_refl _)).trans
          (StepsFrom.insert _ _ _) (Nat.le_refl _)
theorem codegenList_steps : ∀ (es : List ExprAST) (st : State) (r : Option (List Value))
    (st' : State), codegenList es st = some (r, st') → StepsFrom st.nextId st st'
  | [], st, r, st', h => by
    simp only [codegenList] at h
    cases h
    exact StepsFrom.refl _ _
  | e :: es, st, r, st', h => by
    simp only [codegenList] at h
    split at h
    · cases h
    · rename_i s1 hE
      cases h
      exact ExprAST_codegen_steps e st _ _ hE
    · rename_i v s1 hE
      have ih := ExprAST_codegen_steps e st _ _ hE
      split at h
      · cases h
      · rename_i s2 hR
        cases h
        exact ih.trans (codegenList_steps es _ _ _ hR) ih.nextId_le
      · rename_i vs s2 hR
        cases h
        exact ih.trans (codegenList_steps es _ _ _ hR) ih.nextId_le
theorem codegenDefs_steps : ∀ (ds : List VarBindingAST) (st : State)
    (r : Option (List (Option Nat))) (st' : State),
    codegenDefs ds st = some (r, st') → StepsFrom st.nextId st st'
  | [], st, r, st', h => by
    simp only [codegenDefs] at h
    cases h
    exact StepsFrom.refl _ _
  | d :: ds, st, r, st', h => by
    simp only [codegenDefs] at h
    split at h
    · cases h
    · rename_i s1 hE
      cases h
      exact VarBindingAST_codegen_steps d st _ _ hE
    · rename_i v s1 hE
      have ih := (VarBindingAST_codegen_steps d st _ _ hE).trans
        (StepsFrom.assign st.nextId s1 d.getName (some v)) (Nat.le_refl _)
      split at h
      · cases h
      · rename_i s2 hR
        cases h
        exact ih.trans (codegenDefs_steps ds _ _ _ hR) ih.nextId_le
      · rename_i vs s2 hR
        cases h
        exact ih.trans (codegenDefs_steps ds _ _ _ hR) ih.nextId_le
end

/-! ## The module tables and the parameters of a function -/

theorem getFunction_eq_none (st : State) (name : String) :
    st.getFunction name = none ↔ ∀ F ∈ st.functions, F.name ≠ name := by
  unfold State.getFunction
  rw [List.find?_eq_none]
  simp

theorem bindArgs_functions (fn : String) : ∀ (args : List String) (idx : Nat) (st : State),
    (bindArgs fn args idx st).functions = st.functions ∧
    (bindArgs fn args idx st).globals = st.globals
  | [], _, _ => ⟨rfl, rfl⟩
  | a :: rest, idx, st => by
    simp only [bindArgs]
    obtain ⟨h1, h2⟩ := bindArgs_functions fn rest (idx + 1)
      (((CreateEntryBlockAlloca fn a st).insert
        (Instr.store (Value.argument fn idx) (Value.inst st.nextId))).assign a (some st.nextId))
    rw [h1, h2]
    constructor
    · exact (((StepsFrom.entryAlloca 0 fn a st).trans (StepsFrom.insert 0 _ _) (Nat.le_refl _)).trans
        (StepsFrom.assign 0 _ _ _) (Nat.le_refl _)).functions_eq
    · exact (((StepsFrom.entryAlloca 0 fn a st).trans (StepsFrom.insert 0 _ _) (Nat.le_refl _)).trans
        (StepsFrom.assign 0 _ _ _) (Nat.le_refl _)).globals_eq

theorem bindArgs_nextId (fn : String) : ∀ (args : List String) (idx : Nat) (st : State),
    (bindArgs fn args idx st).nextId = st.nextId + args.length
  | [], _, _ => rfl
  | a :: rest, idx, st => by
    simp only [bindArgs]
    rw [bindArgs_nextId fn rest]
    simp
    omega

theorem bindArgs_ids (fn : String) : ∀ (args : List String) (idx : Nat) (st : State),
    (bindArgs fn args idx st).blocks.map (fun x => x.id) = st.blocks.map (fun x => x.id)
  | [], _, _ => rfl
  | a :: rest, idx, st => by
    simp only [bindArgs]
    rw [bindArgs_ids fn rest]
    obtain ⟨new, hid, hb⟩ := (((StepsFrom.entryAlloca (st.nextId + 1) fn a st).trans
      (StepsFrom.insert (st.nextId + 1) _
        (Instr.store (Value.argument fn idx) (Value.inst st.nextId))) (Nat.le_refl _)).trans
      (StepsFrom.assign (st.nextId + 1) _ a (some st.nextId)) (Nat.le_refl _)).ids
    cases new with
    | nil => simpa using hid
    | cons k ks =>
      have := hb k (by simp)
      simp at this
      omega

theorem bindArgs_lookup_of_not_mem (fn : String) (p : String) : ∀ (args : List String) (idx : Nat)
    (st : State), p ∉ args → (bindArgs fn args idx st).lookup p = st.lookup p
  | [], _, _, _ => rfl
  | a :: rest, idx, st, h => by
    simp only [bindArgs]
    rw [bindArgs_lookup_of_not_mem fn p rest _ _ (fun hm => h (List.mem_cons_of_mem _ hm))]
    have : ¬ a = p := fun e => h (by simp [e])
    simp [this]

theorem bindArgs_lookup_of_mem (fn : String) (p : String) : ∀ (args : List String) (idx : Nat)
    (st : State), p ∈ args →
    ∃ slot, st.nextId ≤ slot ∧ (bindArgs fn args idx st).lookup p = some slot
  | [], _, _, h => by cases h
  | a :: rest, idx, st, h => by
    simp only [bindArgs]
    by_cases hr : p ∈ rest
    · obtain ⟨slot, hs, hl⟩ := bindArgs_lookup_of_mem fn p rest (idx + 1)
        (((CreateEntryBlockAlloca fn a st).insert
          (Instr.store (Value.argument fn idx) (Value.inst st.nextId))).assign a
            (some st.nextId)) hr
      refine ⟨slot, ?_, hl⟩
      simp at hs
      omega
    · have hp : a = p := by
        rcases List.mem_cons.mp h with h | h
        · exact h.symm
        · exact absurd h hr
      rw [bindArgs_lookup_of_not_mem fn p rest _ _ hr]
      exact ⟨st.nextId, Nat.le_refl _, by simp [hp]⟩

/-- When the parameter names are pairwise distinct, the parameter of index `i` stays
bound to the slot created for it, the one of index `i` among the new slots. -/
theorem bindArgs_lookup_nth (fn : String) : ∀ (args : List String) (idx : Nat) (st : State),
    args.Nodup → ∀ i p, args.get? i = some p →
    (bindArgs fn args idx st).lookup p = some (st.nextId + i)
  | [], _, _, _, i, p, h => by simp at h
  | a :: rest, idx, st, hnd, i, p, h => by
    simp only [bindArgs]
    rw [List.nodup_cons] at hnd
    cases i with
    | zero =>
      simp only [List.get?_cons_zero, Option.some.injEq] at h
      subst h
      rw [bindArgs_lookup_of_not_mem fn a rest _ _ hnd.1]
      simp
    | succ j =>
      simp only [List.get?_cons_succ] at h
      rw [bindArgs_lookup_nth fn rest (idx + 1) _ hnd.2 j p h]
      simp
      omega

theorem FunctionAST.enter_functions (f : FunctionAST) (st : State) :
    (f.enter st).functions = st.functions ++ [{ name := f.Proto.Name, args := f.Proto.Args }] ∧
    (f.enter st).globals = st.globals := by
  unfold FunctionAST.enter
  simp only []
  obtain ⟨h1, h2⟩ := bindArgs_functions f.Proto.Name f.Proto.Args 0
    ((((f.Proto.codegen st).reserve 1).attach f.Proto.Name (f.Proto.codegen st).nextId
      "entry").SetInsertPoint ⟨(f.Proto.codegen st).nextId, f.Proto.Name⟩)
  rw [h1, h2]
  unfold PrototypeAST.codegen
  by_cases he : f.Proto.emitcode <;> simp [he, State.SetInsertPoint, State.attach, State.reserve, State.print]

theorem FunctionAST.enter_lookup_of_not_mem (g : FunctionAST) (s : State) (p : String)
    (hp : p ∉ g.Proto.Args) : (g.enter s).lookup p = s.lookup p := by
  unfold FunctionAST.enter
  simp only []
  rw [bindArgs_lookup_of_not_mem _ _ _ _ _ hp]
  unfold PrototypeAST.codegen
  by_cases he : g.Proto.emitcode <;> simp [he] <;> rfl

theorem FunctionAST.enter_lookup_of_mem (f : FunctionAST) (st : State) (p : String)
    (hp : p ∈ f.Proto.Args) :
    ∃ slot, st.nextId < slot ∧ (f.enter st).lookup p = some slot := by
  obtain ⟨slot, hs, hl⟩ := bindArgs_lookup_of_mem f.Proto.Name p f.Proto.Args 0
    ((((f.Proto.codegen st).reserve 1).attach f.Proto.Name (f.Proto.codegen st).nextId
      "entry").SetInsertPoint ⟨(f.Proto.codegen st).nextId, f.Proto.Name⟩) hp
  refine ⟨slot, ?_, hl⟩
  have : (f.Proto.codegen st).nextId = st.nextId := by
    unfold PrototypeAST.codegen
    by_cases he : f.Proto.emitcode <;> simp [he]
  simp [this] at hs
  omega

/-! ## Well-formed states -/

theorem State.wellFormed_iff (st : State) :
    st.WellFormed ↔ ∀ k ∈ st.blocks.map (fun x => x.id), k < st.nextId := by
  unfold State.WellFormed
  constructor
  · intro h k hk
    obtain ⟨b, hb, rfl⟩ := List.mem_map.mp hk
    exact h b hb
  · intro h b hb
    exact h b.id (List.mem_map.mpr ⟨b, hb, rfl⟩)

theorem StepsFrom.wellFormed {st st' : State} (h : StepsFrom st.nextId st st')
    (hw : st.WellFormed) : st'.WellFormed := by
  rw [State.wellFormed_iff] at hw ⊢
  obtain ⟨new, hid, hb⟩ := h.ids
  intro k hk
  rw [hid] at hk
  have := h.nextId_le
  rcases List.mem_append.mp hk with hk | hk
  · have := hw k hk
    omega
  · exact (hb k hk).2

theorem FunctionAST.enter_wellFormed (f : FunctionAST) (st : State) (hw : st.WellFormed) :
    (f.enter st).WellFormed := by
  rw [State.wellFormed_iff] at hw ⊢
  unfold FunctionAST.enter
  simp only []
  rw [bindArgs_ids, bindArgs_nextId]
  have hn : (f.Proto.codegen st).nextId = st.nextId := by
    unfold PrototypeAST.codegen
    by_cases he : f.Proto.emitcode <;> simp [he]
  have hb : (f.Proto.codegen st).blocks = st.blocks := by
    unfold PrototypeAST.codegen
    by_cases he : f.Proto.emitcode <;> simp [he, State.print]
  intro k hk
  simp only [State.blocks_SetInsertPoint, State.ids_attach, State.blocks_reserve, hb, hn,
    State.nextId_SetInsertPoint, State.nextId_attach, State.nextId_reserve] at hk ⊢
  rcases List.mem_append.mp hk with hk | hk
  · have := hw k hk
    omega
  · simp at hk
    omega

/-- Every state reached from a well-formed one by lowering a top-level node is
well-formed; the initial state is. -/
theorem RootAST_codegen_wellFormed : ∀ (t : RootAST) (st : State) (r : Option Value)
    (st' : State), st.WellFormed → t.codegen st = some (r, st') → st'.WellFormed
  | .seq (some first) none, st, r, st', hw, h => by
    simp only [RootAST.codegen] at h
    split at h <;> cases h
  | .seq (some first) (some c), st, r, st', hw, h => by
    simp only [RootAST.codegen] at h
    split at h
    · cases h
    · rename_i r1 s1 h1
      have hw1 := RootAST_codegen_wellFormed first st r1 s1 hw h1
      split at h
      · cases h
      · rename_i r2 s2 h2
        cases h
        exact RootAST_codegen_wellFormed c s1 r2 _ hw1 h2
  | .seq none none, st, r, st', hw, h => by
    simp only [RootAST.codegen] at h
    cases h
    exact hw
  | .seq none (some c), st, r, st', hw, h => by
    simp only [RootAST.codegen] at h
    split at h
    · cases h
    · rename_i r2 s2 h2
      cases h
      exact RootAST_codegen_wellFormed c st r2 _ hw h2
  | .expr e, st, r, st', hw, h => by
    simp only [RootAST.codegen] at h
    exact (ExprAST_codegen_steps e st r st' h).wellFormed hw
  | .prototype p, st, r, st', hw, h => by
    simp only [RootAST.codegen] at h
    cases h
    unfold PrototypeAST.codegen
    by_cases he : p.emitcode <;> simpa [he, State.WellFormed, State.print] using hw
  | .function f, st, r, st', hw, h => by
    simp only [RootAST.codegen] at h
    unfold FunctionAST.codegen at h
    split at h
    · cases h
      exact hw
    · split at h
      · cases h
      · rename_i RetVal s4 hb
        cases h
        have hw4 := (ExprAST_codegen_steps _ _ _ _ hb).wellFormed (f.enter_wellFormed st hw)
        rw [State.wellFormed_iff] at hw4 ⊢
        simpa [State.print, State.ids_insert] using hw4
      · rename_i s4 hb
        cases h
        have hw4 := (ExprAST_codegen_steps _ _ _ _ hb).wellFormed (f.enter_wellFormed st hw)
        intro b hbm
        have : b ∈ s4.blocks := by
          simp only [State.eraseFromParent] at hbm
          exact (List.mem_filter.mp hbm).1
        exact hw4 b this
  | .globalVariable Name, st, r, st', hw, h => by
    simp only [RootAST.codegen, GlobalVariableAST.codegen] at h
    cases h
    simpa [State.WellFormed, State.print] using hw

theorem State.init_wellFormed : State.init.WellFormed := by
  intro b hb
  cases hb

/-! ## Successful lowering of a well-scoped expression leaves the scope as it found it -/

theorem restoreDefs_lookup (f : String → Option Nat) (n : String) :
    ∀ (ds : List VarBindingAST) (st : State),
    (restoreDefs ds ((defNames ds).map f) st).lookup n =
      if n ∈ defNames ds then f n else st.lookup n
  | [], st => by simp [restoreDefs, defNames]
  | d :: ds, st => by
    simp only [defNames, List.map_cons, restoreDefs]
    rw [restoreDefs_lookup f n ds]
    by_cases h1 : n ∈ defNames ds
    · simp [h1]
    · by_cases h2 : d.getName = n
      · subst h2
        simp [h1]
      · have : ¬ n = d.getName := fun e => h2 e.symm
        simp [h1, h2, this]

mutual
theorem ExprAST_codegen_scope : ∀ (e : ExprAST) (st : State) (v : Value) (st' : State),
    e.wellScoped = true → e.codegen st = some (some v, st') → ∀ n, st'.lookup n = st.lookup n
  | .number Val, st, v, st', _, h => by
    simp only [ExprAST.codegen] at h
    cases h
    intro n; rfl
  | .var Name, st, v, st', _, h => by
    simp only [ExprAST.codegen] at h
    intro n
    split at h
    · cases h; simp
    · split at h
      · cases h; simp
      · cases h
  | .logical Op LHS RHS, st, v, st', hw, h => by
    simp only [ExprAST.wellScoped, Bool.and_eq_true] at hw
    simp only [ExprAST.codegen] at h
    intro n
    split at h
    · cases h
    · rename_i L s1 hL
      split at h
      · split at h
        · cases h
        · rename_i Lv
          cases h
          simp [ExprAST_codegen_scope LHS st Lv s1 hw.1 hL n]
      · split at h
        · cases h
        · rename_i R s2 hR
          split at h
          · rename_i Lv Rv
            have e1 := ExprAST_codegen_scope LHS st Lv s1 hw.1 hL n
            have e2 := derefCodegen_scope RHS s1 Rv s2 hw.2 hR n
            split at h
            · cases h; simp [e1, e2]
            · split at h
              · cases h; simp [e1, e2]
              · cases h
          · cases h
  | .binary Op LHS RHS, st, v, st', hw, h => by
    simp only [ExprAST.wellScoped, Bool.and_eq_true] at hw
    simp only [ExprAST.codegen] at h
    intro n
    split at h
    · cases h
    · rename_i L s1 hL
      split at h
      · cases h
      · rename_i R s2 hR
        split at h
        · rename_i Lv Rv
          have e1 := ExprAST_codegen_scope LHS st Lv s1 hw.1 hL n
          have e2 := ExprAST_codegen_scope RHS s1 Rv s2 hw.2 hR n
          split at h
          · split at h <;> (cases h; simp [e1, e2])
          · cases h
        · cases h
  | .call Callee Args, st, v, st', hw, h => by
    simp only [ExprAST.wellScoped] at hw
    simp only [ExprAST.codegen] at h
    intro n
    split at h
    · cases h
    · split at h
      · cases h
      · split at h
        · cases h
        · cases h
        · rename_i ArgsV s1 hA
          cases h
          simp [codegenList_scope Args st ArgsV s1 hw hA n]
  | .ifExpr Cond TrueExp FalseExp, st, v, st', hw, h => by
    simp only [ExprAST.wellScoped, Bool.and_eq_true] at hw
    simp only [ExprAST.codegen] at h
    intro n
    split at h
    · cases h
    · cases h
    · rename_i CondV s1 hC
      have e1 := ExprAST_codegen_scope Cond st CondV s1 hw.1.1 hC n
      split at h
      · cases h
      · split at h
        · cases h
        · cases h
        · rename_i TrueV s3 hT
          have e2 := ExprAST_codegen_scope TrueExp _ TrueV s3 hw.1.2 hT n
          split at h
          · cases h
          · split at h
            · cases h
            · cases h
            · rename_i FalseV s6 hF
              have e3 := ExprAST_codegen_scope FalseExp _ FalseV s6 hw.2 hF n
              split at h
              · cases h
              · cases h
                simp at e2 e3
                simp [e1, e2, e3]
  | .forExpr StartExp Cond StepExp BlockExp, st, v, st', hw, h => by
    simp only [ExprAST.wellScoped, Bool.and_eq_true] at hw
    simp only [ExprAST.codegen] at h
    intro n
    split at h
    · cases h
    · rename_i cur hcur
      split at h
      · cases h
      · cases h
      · rename_i outer s1 hI
        obtain ⟨name, slot, ho, e1⟩ := ForInit_codegen_scope StartExp _ st outer s1 hw.1.1.1 hI
        subst ho
        split at h
        · cases h
        · cases h
        · rename_i EndV s3 hC
          have e3 := ExprAST_codegen_scope Cond _ EndV s3 hw.1.1.2 hC
          split at h
          · cases h
          · cases h
          · rename_i bv s5 hB
            have e5 := ExprAST_codegen_scope BlockExp _ bv s5 hw.2 hB
            split at h
            · cases h
            · cases h
            · rename_i sv s6 hS
              have e6 := stepCodegen_scope StepExp s5 sv s6 hw.1.2 hS
              split at h
              · cases h
              · cases h
              · rename_i EndV2 s7 hC2
                have e7 := ExprAST_codegen_scope Cond s6 EndV2 s7 hw.1.1.2 hC2
                have e17 : ∀ m, s7.lookup m = if name = m then some slot else st.lookup m := by
                  intro m
                  rw [e7, e6, e5]
                  simp only [State.lookup_SetInsertPoint, State.lookup_insert]
                  rw [e3]
                  simp only [State.lookup_attach, State.lookup_reserve]
                  exact e1 m
                simp only at h
                split at h
                · rename_i old hold
                  cases h
                  by_cases hn : name = n
                  · subst hn; simp [hold]
                  · simp [hn, e17]
                · rename_i hold
                  cases h
                  by_cases hn : name = n
                  · subst hn; simp [hold]
                  · simp [hn, e17]
  | .block Def Val, st, v, st', hw, h => by
    simp only [ExprAST.wellScoped, Bool.and_eq_true, decide_eq_true_eq] at hw
    simp only [ExprAST.codegen] at h
    intro n
    split at h
    · cases h
    · cases h
    · rename_i tmp s1 hD
      obtain ⟨ht, e1⟩ := codegenDefs_scope Def st tmp s1 hw.1.2 hw.1.1 hD
      split at h
      · cases h
      · cases h
      · rename_i vals s2 hV
        have e2 := codegenList_scope Val s1 vals s2 hw.2 hV
        split at h
        · cases h
        · cases h
          rw [ht, restoreDefs_lookup]
          by_cases hn : n ∈ defNames Def
          · simp [hn]
          · simp [hn, e2, e1 n hn]
  | .assignment a, st, v, st', hw, h => by
    simp only [ExprAST.wellScoped] at hw
    simp only [ExprAST.codegen] at h
    exact AssignmentAST_codegen_scope a st v st' hw h
theorem derefCodegen_scope : ∀ (e : Option ExprAST) (st : State) (v : Value) (st' : State),
    wellScopedOpt e = true → derefCodegen e st = some (some v, st') →
    ∀ n, st'.lookup n = st.lookup n
  | none, st, v, st', _, h => by
    simp only [derefCodegen] at h
    cases h
  | some e, st, v, st', hw, h => by
    simp only [wellScopedOpt] at hw
    simp only [derefCodegen] at h
    exact ExprAST_codegen_scope e st v st' hw h
theorem ForInit_codegen_scope : ∀ (i : ForInit) (fn : String) (st : State)
    (outer : Option (String × Option Nat)) (st' : State),
    i.wellScoped = true → i.codegen fn st = some (some outer, st') →
    ∃ name slot, outer = some (name, st.lookup name) ∧
      ∀ n, st'.lookup n = if name = n then some slot else st.lookup n
  | .binding b, fn, st, outer, st', hw, h => by
    simp only [ForInit.wellScoped] at hw
    simp only [ForInit.codegen] at h
    split at h
    · cases h
    · cases h
    · rename_i Alloca s1 hB
      have e1 := VarBindingAST_codegen_scope b st Alloca s1 hw hB
      cases h
      exact ⟨b.getName, Alloca, by rw [e1], fun n => by simp [e1]⟩
  | .assign a, fn, st, outer, st', hw, h => by
    simp [ForInit.wellScoped] at hw
theorem stepCodegen_scope : ∀ (e : Option AssignmentAST) (st : State) (v : Value)
    (st' : State), wellScopedStep e = true → stepCodegen e st = some (some v, st') →
    ∀ n, st'.lookup n = st.lookup n
  | none, st, v, st', _, h => by
    simp only [stepCodegen] at h
    cases h
    intro n; rfl
  | some a, st, v, st', hw, h => by
    simp only [wellScopedStep] at hw
    simp only [stepCodegen] at h
    exact AssignmentAST_codegen_scope a st v st' hw h
theorem VarBindingAST_codegen_scope : ∀ (d : VarBindingAST) (st : State) (slot : Nat)
    (st' : State), d.wellScoped = true → d.codegen st = some (some slot, st') →
    ∀ n, st'.lookup n = st.lookup n
  | .mk Name Val, st, slot, st', hw, h => by
    simp only [VarBindingAST.wellScoped] at hw
    simp only [VarBindingAST.codegen] at h
    intro n
    split at h
    · cases h
    · split at h
      · cases h
      · cases h
      · rename_i BoundVal s1 hV
        cases h
        simp [ExprAST_codegen_scope Val st BoundVal s1 hw hV n]
theorem AssignmentAST_codegen_scope : ∀ (a : AssignmentAST) (st : State) (v : Value)
    (st' : State), a.wellScoped = true → a.codegen st = some (some v, st') →
    ∀ n, st'.lookup n = st.lookup n
  | .mk VName VValue, st, v, st', hw, h => by
    simp only [AssignmentAST.wellScoped] at hw
    simp only [AssignmentAST.codegen] at h
    intro n
    split at h
    · cases h
    · split at h
      · cases h
      · cases h
      · rename_i w s2 hV
        have e := ExprAST_codegen_scope VValue _ w s2 hw hV n
        cases h
        simpa using e
theorem codegenList_scope : ∀ (es : List ExprAST) (st : State) (vs : List Value)
    (st' : State), wellScopedList es = true → codegenList es st = some (some vs, st') →
    ∀ n, st'.lookup n = st.lookup n
  | [], st, vs, st', _, h => by
    simp only [codegenList] at h
    cases h
    intro n; rfl
  | e :: es, st, vs, st', hw, h => by
    simp only [wellScopedList, Bool.and_eq_true] at hw
    simp only [codegenList] at h
    intro n
    split at h
    · cases h
    · cases h
    · rename_i w s1 hE
      split at h
      · cases h
      · cases h
      · rename_i ws s2 hR
        cases h
        rw [codegenList_scope es s1 ws _ hw.2 hR n, ExprAST_codegen_scope e st w s1 hw.1 hE n]
theorem codegenDefs_scope : ∀ (ds : List VarBindingAST) (st : State)
    (tmp : List (Option Nat)) (st' : State),
    wellScopedDefs ds = true → (defNames ds).Nodup →
    codegenDefs ds st = some (some tmp, st') →
    tmp = (defNames ds).map st.lookup ∧ ∀ n, n ∉ defNames ds → st'.lookup n = st.lookup n
  | [], st, tmp, st', _, _, h => by
    simp only [codegenDefs] at h
    cases h
    exact ⟨rfl, fun n _ => rfl⟩
  | d :: ds, st, tmp, st', hw, hnd, h => by
    simp only [wellScopedDefs, Bool.and_eq_true] at hw
    simp only [defNames, List.nodup_cons] at hnd
    simp only [codegenDefs] at h
    split at h
    · cases h
    · cases h
    · rename_i boundval s1 hE
      have e1 := VarBindingAST_codegen_scope d st boundval s1 hw.1 hE
      split at h
      · cases h
      · cases h
      · rename_i tmp2 s2 hR
        obtain ⟨ht, e2⟩ := codegenDefs_scope ds _ tmp2 s2 hw.2 hnd.2 hR
        cases h
        constructor
        · simp only [defNames, List.map_cons, e1]
          rw [ht]
          congr 1
          apply List.map_congr_left
          intro m hm
          have : ¬ d.getName = m := fun e => hnd.1 (e ▸ hm)
          simp [this, e1]
        · intro n hn
          simp only [defNames, List.mem_cons, not_or] at hn
          have : ¬ d.getName = n := fun e => hn.1 e.symm
          rw [e2 n hn.2]
          simp [this, e1]
end

/-! ## Blocks (C1) -/

/-- C1 (evaluation of the code). A block that binds the same name twice does not
restore it: `x`, absent before the block, is bound to the slot of the first binding
after it, and the parameter `a`, bound to slot 1 before the block, is bound to the
slot of the first inner binding after it. Both blocks lower successfully. -/
theorem BlockExprAST_codegen_duplicate_binding :
    inF.lookup "x" = none ∧
    (dupBlock.codegen inF).map (fun r => (r.1.isSome, r.2.lookup "x")) = some (true, some 2) ∧
    inF.lookup "a" = some 1 ∧
    (dupShadow.codegen inF).map (fun r => (r.1.isSome, r.2.lookup "a")) = some (true, some 2) := by
  decide

/-! ## Loops (C2) -/

theorem ForInit_codegen_assign_outer (a : AssignmentAST) (fn : String) (st s1 : State)
    (outer : Option (String × Option Nat))
    (h : (ForInit.assign a).codegen fn st = some (some outer, s1)) : outer = none := by
  simp only [ForInit.codegen] at h
  split at h
  · cases h
  · cases h
  · simp only [Option.some.injEq, Prod.mk.injEq] at h
    exact h.1.symm

/-- C2 (evaluation of the code). A `for` whose init assigns an existing name never
returns a value: when every part lowers successfully, the restore at the end of
`ForExprAST::codegen` goes through the outer `SubClass`, which is null in that branch.
The loop `forAssign` does not return, although its init is lowered successfully (and
leaves the outer `SubClass` null). The same loop with a fresh binding as init returns
and leaves its variable absent; a loop whose fresh binding is initialised by a block
binding `x` twice returns with `x`, absent before, bound. -/
theorem ForExprAST_codegen_assign_init :
    (∀ (a : AssignmentAST) (Cond : ExprAST) (StepExp : Option AssignmentAST)
        (BlockExp : ExprAST) (st st' : State) (v : Value),
      (ExprAST.forExpr (ForInit.assign a) Cond StepExp BlockExp).codegen st ≠
        some (some v, st')) ∧
    forAssign.codegen inF = none ∧
    ((ForInit.assign (AssignmentAST.mk "a" (ExprAST.number lit0))).codegen "f" inF).map
      (fun r => r.1) = some (some none) ∧
    (forBinding.codegen inF).map (fun r => (r.1, r.2.lookup "i")) =
      some (some (Value.constFP 0), none) ∧
    inF.lookup "x" = none ∧
    (forDupInit.codegen inF).map (fun r => (r.1, r.2.lookup "x")) =
      some (some (Value.constFP 0), some 2) := by
  refine ⟨?_, by decide, by decide, by decide, by decide, by decide⟩
  intro a Cond StepExp BlockExp st st' v h
  simp only [ExprAST.codegen] at h
  split at h
  · cases h
  · split at h
    · cases h
    · cases h
    · rename_i outer s1 hI
      have ho := ForInit_codegen_assign_outer a _ st s1 outer hI
      subst ho
      split at h
      · cases h
      · cases h
      · split at h
        · cases h
        · cases h
        · split at h
          · cases h
          · cases h
          · split at h
            · cases h
            · cases h
            · cases h

/-! ## Functions (C3, C4, C5) -/

theorem FunctionAST.enter_lookup_nth (f : FunctionAST) (st : State)
    (hnd : f.Proto.Args.Nodup) (i : Nat) (p : String) (hp : f.Proto.Args.get? i = some p) :
    (f.enter st).lookup p = some (st.nextId + 1 + i) := by
  have hn : (f.Proto.codegen st).nextId = st.nextId := by
    unfold PrototypeAST.codegen
    by_cases he : f.Proto.emitcode <;> simp [he]
  unfold FunctionAST.enter
  simp only []
  rw [bindArgs_lookup_nth f.Proto.Name f.Proto.Args 0 _ hnd i p hp]
  simp [hn]

/-- C3 (counterexample). Lowering `def f(x) 1` in a fresh session succeeds and leaves
the parameter `x`, absent before, bound to its slot; lowering `def g() x` after it in
the same sequence succeeds, its body reading the `x` of `f`. -/
theorem FunctionAST_codegen_param_not_restored :
    ¬ (∀ p ∈ constFn.Proto.Args, ∀ r st', constFn.codegen State.init = some (r, st') →
        st'.lookup p = State.init.lookup p) ∧
    (constFn.codegen State.init).map (fun r => (r.1.isSome, r.2.lookup "x")) =
      some (true, some 1) ∧
    ((RootAST.seq (some (RootAST.function constFn))
        (some (RootAST.function readsX))).codegen State.init).map
      (fun r => r.2.getFunction "g") = some (some ⟨"g", []⟩) := by
  refine ⟨?_, by decide, by decide⟩
  intro h
  have h1 : (constFn.codegen State.init).map (fun r => r.2.lookup "x") = some (some 1) := by
    decide
  cases hc : constFn.codegen State.init with
  | none => rw [hc] at h1; cases h1
  | some rs =>
    obtain ⟨r, st'⟩ := rs
    rw [hc] at h1
    have h2 := h "x" (by decide) r st' hc
    simp only [Option.map_some', Option.some.injEq] at h1
    rw [h2] at h1
    exact absurd h1 (by decide)

/-- C3 (amended). For a `Function` whose name is not yet in the module and whose
parameter names are pairwise distinct (so that the IR keeps them as written): (1) when
the lowering of the body starts, every parameter is bound to the slot created for it
by this lowering, the parameter of index `i` to the new slot of index `i`; (2) once
the body has been lowered, on success as on failure, the function lowering returns
with the Scope Manager exactly as the body left it: no parameter is restored; (3) so
after the successful lowering of a function with a well-scoped body every parameter is
still bound to its new slot, and every other name is bound as before the function;
(4) and the lowering of any function `g` with pairwise distinct parameter names starts
its body with every name that is not a parameter of `g` bound as it was before `g`:
what an earlier function left bound is visible in the body of a later one. -/
theorem FunctionAST_codegen_params_stay_bound (f : FunctionAST) (st : State)
    (hnew : ∀ F ∈ st.functions, F.name ≠ f.Proto.Name) (hnd : f.Proto.Args.Nodup) :
    (∀ i p, f.Proto.Args.get? i = some p →
      (f.enter st).lookup p = some (st.nextId + 1 + i)) ∧
    (∀ r s4, f.Body.codegen (f.enter st) = some (r, s4) →
      ∃ r' st', f.codegen st = some (r', st') ∧ r'.isSome = r.isSome ∧
        st'.NamedValues = s4.NamedValues) ∧
    (f.Body.wellScoped = true → ∀ v st', f.codegen st = some (some v, st') →
      (∀ i p, f.Proto.Args.get? i = some p → st'.lookup p = some (st.nextId + 1 + i)) ∧
      (∀ n, n ∉ f.Proto.Args → st'.lookup n = st.lookup n)) ∧
    (∀ (g : FunctionAST) (s : State) (p : String), g.Proto.Args.Nodup → p ∉ g.Proto.Args →
      (g.enter s).lookup p = s.lookup p) := by
  have hg : st.getFunction f.Proto.Name = none := (getFunction_eq_none _ _).mpr hnew
  refine ⟨fun i p hp => f.enter_lookup_nth st hnd i p hp, ?_, ?_,
    fun g s p _ hp => g.enter_lookup_of_not_mem s p hp⟩
  · intro r s4 hb
    unfold FunctionAST.codegen
    rw [hg]
    simp only [hb]
    cases r with
    | none => exact ⟨none, _, rfl, rfl, rfl⟩
    | some v =>
      refine ⟨some (Value.function f.Proto.Name), _, rfl, rfl, ?_⟩
      simp only [State.print]
      unfold State.insert
      cases s4.cursor <;> rfl
  · intro hws v st' h
    unfold FunctionAST.codegen at h
    rw [hg] at h
    simp only at h
    split at h
    · cases h
    · rename_i RetVal s4 hb
      have e := ExprAST_codegen_scope f.Body _ RetVal s4 hws hb
      cases h
      constructor
      · intro i p hp
        have hl := f.enter_lookup_nth st hnd i p hp
        simp [e, hl]
      · intro n hn
        simp [e, f.enter_lookup_of_not_mem st n hn]
    · cases h

theorem FunctionAST_codegen_params_stay_bound_witness :
    (∀ F ∈ State.init.functions, F.name ≠ constFn.Proto.Name) ∧ constFn.Proto.Args.Nodup ∧
    (∀ i p, constFn.Proto.Args.get? i = some p →
      (constFn.enter State.init).lookup p = some (State.init.nextId + 1 + i)) ∧
    (∀ r s4, constFn.Body.codegen (constFn.enter State.init) = some (r, s4) →
      ∃ r' st', constFn.codegen State.init = some (r', st') ∧ r'.isSome = r.isSome ∧
        st'.NamedValues = s4.NamedValues) ∧
    (constFn.Body.wellScoped = true → ∀ v st', constFn.codegen State.init = some (some v, st') →
      (∀ i p, constFn.Proto.Args.get? i = some p →
        st'.lookup p = some (State.init.nextId + 1 + i)) ∧
      (∀ n, n ∉ constFn.Proto.Args → st'.lookup n = State.init.lookup n)) ∧
    (∀ (g : FunctionAST) (s : State) (p : String), g.Proto.Args.Nodup → p ∉ g.Proto.Args →
      (g.enter s).lookup p = s.lookup p) :=
  ⟨by decide, by decide,
    FunctionAST_codegen_params_stay_bound constFn State.init (by decide) (by decide)⟩

/-- C4. A `Function` whose name already names a function of the module (declared by
an earlier prototype or defined by an earlier function) fails to lower and leaves the
whole session state (module, IR, cursor, Scope Manager, output) as it was. -/
theorem FunctionAST_codegen_duplicate (f : FunctionAST) (st : State)
    (h : ∃ F ∈ st.functions, F.name = f.Proto.Name) :
    f.codegen st = some (none, st) := by
  obtain ⟨F, hF, hn⟩ := h
  unfold FunctionAST.codegen
  cases hg : st.getFunction f.Proto.Name with
  | some G => rfl
  | none =>
    rw [getFunction_eq_none] at hg
    exact absurd hn (hg F hF)

theorem FunctionAST_codegen_duplicate_witness :
    (∃ F ∈ declFoo.functions, F.name = "foo") ∧
    FunctionAST.codegen ⟨⟨"foo", ["x"], false⟩, ExprAST.var "x"⟩ declFoo = some (none, declFoo) :=
  ⟨⟨⟨"foo", ["x"]⟩, by decide, rfl⟩,
    FunctionAST_codegen_duplicate ⟨⟨"foo", ["x"], false⟩, ExprAST.var "x"⟩ declFoo
      ⟨⟨"foo", ["x"]⟩, by decide, rfl⟩⟩

/-- C5. When the name of a `Function` is not yet in the module and the lowering of
its body fails, the `Function` fails to lower, and afterwards the module has no
function of that name: its functions and its globals are what they were before. -/
theorem FunctionAST_codegen_body_failure (f : FunctionAST) (st s4 : State)
    (hnew : ∀ F ∈ st.functions, F.name ≠ f.Proto.Name)
    (hbody : f.Body.codegen (f.enter st) = some (none, s4)) :
    ∃ st', f.codegen st = some (none, st') ∧ st'.getFunction f.Proto.Name = none ∧
      st'.functions = st.functions ∧ st'.globals = st.globals := by
  have hg : st.getFunction f.Proto.Name = none := (getFunction_eq_none _ _).mpr hnew
  have hs := ExprAST_codegen_steps f.Body _ _ _ hbody
  obtain ⟨e1, e2⟩ := f.enter_functions st
  have hfun : (s4.eraseFromParent f.Proto.Name).functions = st.functions := by
    simp only [State.eraseFromParent, hs.functions_eq, e1, List.filter_append]
    have : List.filter (fun F : IRFunction => decide (F.name ≠ f.Proto.Name)) st.functions
        = st.functions := by
      rw [List.filter_eq_self]
      intro F hF
      simpa using hnew F hF
    rw [this]
    simp
  refine ⟨s4.eraseFromParent f.Proto.Name, ?_, ?_, hfun, ?_⟩
  · unfold FunctionAST.codegen
    rw [hg]
    simp only [hbody]
  · rw [getFunction_eq_none, hfun]
    exact hnew
  · simp only [State.eraseFromParent, hs.globals_eq, e2]

theorem FunctionAST_codegen_body_failure_witness :
    (∀ F ∈ State.init.functions, F.name ≠ badFn.Proto.Name) ∧
    ∃ st', badFn.codegen State.init = some (none, st') ∧ st'.getFunction badFn.Proto.Name = none ∧
      st'.functions = State.init.functions ∧ st'.globals = State.init.globals :=
  ⟨by decide, FunctionAST_codegen_body_failure badFn State.init
    (LogErrorV ((badFn.enter State.init).subscript "nope")
      "Variabile nope non definita (Variable)") (by decide) (by decide)⟩

/-! ## Calls (C6, C7) -/

/-- C6. A `Call` whose callee is not a function of the module, or is one declared
with a number of parameters different from the number of arguments, fails to lower;
nothing but the diagnostic is produced: no argument is lowered, no instruction is
emitted, module, blocks, cursor, Scope Manager and identities are unchanged. -/
theorem CallExprAST_codegen_unresolved (Callee : String) (Args : List ExprAST) (st : State)
    (h : st.getFunction Callee = none ∨
      ∃ F, st.getFunction Callee = some F ∧ F.args.length ≠ Args.length) :
    (ExprAST.call Callee Args).codegen st =
      some (none, { st with out := st.out ++ [Output.error
        (if st.getFunction Callee = none then "Funzione non definita"
         else "Numero di argomenti non corretto")] }) := by
  simp only [ExprAST.codegen]
  rcases h with h | ⟨F, hF, hlen⟩
  · simp [h, LogErrorV, State.print]
  · simp [hF, hlen, LogErrorV, State.print]

theorem CallExprAST_codegen_unresolved_witness :
    (declFoo.getFunction "foo" = none ∨
      ∃ F, declFoo.getFunction "foo" = some F ∧
        F.args.length ≠ [ExprAST.number lit1, ExprAST.number lit2].length) ∧
    (ExprAST.call "foo" [ExprAST.number lit1, ExprAST.number lit2]).codegen declFoo =
      some (none, { declFoo with out := declFoo.out ++
        [Output.error "Numero di argomenti non corretto"] }) :=
  ⟨Or.inr ⟨⟨"foo", ["x"]⟩, by decide, by decide⟩,
    CallExprAST_codegen_unresolved "foo" [ExprAST.number lit1, ExprAST.number lit2] declFoo
      (Or.inr ⟨⟨"foo", ["x"]⟩, by decide, by decide⟩)⟩

theorem codegenList_of_loweredInOrder {Args : List ExprAST} {st s1 : State} {vs : List Value}
    (h : LoweredInOrder Args st vs s1) : codegenList Args st = some (some vs, s1) := by
  induction h with
  | nil st => simp [codegenList]
  | cons he _ ih => simp [codegenList, he, ih]

theorem codegenList_first_failure {pre post : List ExprAST} {a : ExprAST} {st si sf : State}
    {vs : List Value} (h : LoweredInOrder pre st vs si) (ha : a.codegen si = some (none, sf)) :
    codegenList (pre ++ a :: post) st = some (none, sf) := by
  induction h with
  | nil st => simp [codegenList, ha]
  | cons he _ ih => simp [codegenList, he, ih ha]

theorem loweredInOrder_of_codegenList : ∀ (Args : List ExprAST) (st s1 : State) (vs : List Value),
    codegenList Args st = some (some vs, s1) → LoweredInOrder Args st vs s1
  | [], st, s1, vs, h => by
    simp only [codegenList] at h
    cases h
    exact LoweredInOrder.nil st
  | e :: es, st, s1, vs, h => by
    simp only [codegenList] at h
    split at h
    · cases h
    · cases h
    · rename_i v s2 he
      split at h
      · cases h
      · cases h
      · rename_i vs2 s3 hr
        cases h
        exact LoweredInOrder.cons he (loweredInOrder_of_codegenList es _ _ _ hr)

theorem LoweredInOrder.length_eq {Args : List ExprAST} {st s1 : State} {vs : List Value}
    (h : LoweredInOrder Args st vs s1) : vs.length = Args.length := by
  induction h with
  | nil st => rfl
  | cons _ _ ih => simp [ih]

/-- C7. For a `Call` whose callee `F` exists with matching arity: (1) if the
arguments, lowered in source order, all succeed with values `vs` and leave the state
`s1`, the call lowers to one `call` instruction to `F` with operand list `vs`,
inserted in `s1`, i.e. after the instructions of the arguments; (2) if the arguments
before `a` succeed and `a` fails leaving `sf`, the `Call` fails in state `sf`: no
later argument is lowered and no `call` is emitted; (3) a `Call` succeeds only as
in (1). -/
theorem CallExprAST_codegen_resolved (Callee : String) (Args : List ExprAST) (st : State)
    (F : IRFunction) (hF : st.getFunction Callee = some F)
    (hlen : F.args.length = Args.length) :
    (∀ vs s1, LoweredInOrder Args st vs s1 →
      (ExprAST.call Callee Args).codegen st =
        some (some (Value.inst s1.nextId),
          (s1.insert (Instr.call s1.nextId F.name vs)).reserve 1)) ∧
    (∀ pre a post vs si sf, Args = pre ++ a :: post → LoweredInOrder pre st vs si →
      a.codegen si = some (none, sf) →
      (ExprAST.call Callee Args).codegen st = some (none, sf)) ∧
    (∀ v st', (ExprAST.call Callee Args).codegen st = some (some v, st') →
      ∃ vs s1, LoweredInOrder Args st vs s1 ∧ vs.length = Args.length ∧
        v = Value.inst s1.nextId ∧
        st' = (s1.insert (Instr.call s1.nextId F.name vs)).reserve 1) := by
  refine ⟨?_, ?_, ?_⟩
  · intro vs s1 h
    simp only [ExprAST.codegen, hF, hlen, codegenList_of_loweredInOrder h]
    simp [State.emit]
  · intro pre a post vs si sf hA h ha
    subst hA
    simp only [ExprAST.codegen, hF, hlen, codegenList_first_failure h ha]
    simp
  · intro v st' h
    simp only [ExprAST.codegen, hF, hlen] at h
    simp only [ne_eq, not_true_eq_false, ↓reduceIte] at h
    split at h
    · cases h
    · cases h
    · rename_i vs s1 hA
      have hl := loweredInOrder_of_codegenList _ _ _ _ hA
      simp only [Option.some.injEq, Prod.mk.injEq] at h
      obtain ⟨hv, hst⟩ := h
      exact ⟨vs, s1, hl, hl.length_eq, hv.symm, hst.symm⟩

theorem CallExprAST_codegen_resolved_witness :
    inF.getFunction "f" = some ⟨"f", ["a"]⟩ ∧
    (⟨"f", ["a"]⟩ : IRFunction).args.length = [ExprAST.var "a"].length ∧
    (ExprAST.call "f" [ExprAST.var "a"]).codegen inF =
      some (some (Value.inst 3),
        ((((inF.subscript "a").emit (fun id => Instr.load id (Value.inst 1))).insert
          (Instr.call 3 "f" [Value.inst 2])).reserve 1)) :=
  ⟨by decide, by decide,
    (CallExprAST_codegen_resolved "f" [ExprAST.var "a"] inF ⟨"f", ["a"]⟩ (by decide)
      (by decide)).1 [Value.inst 2]
      ((inF.subscript "a").emit (fun id => Instr.load id (Value.inst 1)))
      (LoweredInOrder.cons (by decide) (LoweredInOrder.nil _))⟩

/-! ## Variable reads and assignments (C8, C9) -/

/-- C8. A `VariableRef` of name `Name`: if `lookup` yields a local slot `A`, exactly
one load from that slot is emitted, whether or not a global of that name exists;
otherwise, if the module has a global `Name`, exactly one load from that global is
emitted; otherwise lowering fails and only reports the error, no instruction is
emitted. In every case `lookup` gives the same result for every name after the read
as before. -/
theorem VariableExprAST_codegen_spec (Name : String) (st : State) :
    (∀ A, st.lookup Name = some A →
      (ExprAST.var Name).codegen st =
        some (some (Value.inst st.nextId),
          ((st.subscript Name).insert (Instr.load st.nextId (Value.inst A))).reserve 1)) ∧
    (st.lookup Name = none → Name ∈ st.globals →
      (ExprAST.var Name).codegen st =
        some (some (Value.inst st.nextId),
          ((st.subscript Name).insert (Instr.load st.nextId (Value.global Name))).reserve 1)) ∧
    (st.lookup Name = none → Name ∉ st.globals →
      (ExprAST.var Name).codegen st =
        some (none, { st.subscript Name with out := st.out ++
          [Output.error ("Variabile " ++ Name ++ " non definita (Variable)")] })) ∧
    (∀ r st', (ExprAST.var Name).codegen st = some (r, st') → ∀ n, st'.lookup n = st.lookup n) := by
  refine ⟨?_, ?_, ?_, ?_⟩
  · intro A hA
    simp [ExprAST.codegen, hA, State.emit]
  · intro hA hg
    simp [ExprAST.codegen, hA, hg, State.emit, State.getNamedGlobal, State.subscript]
  · intro hA hg
    simp [ExprAST.codegen, hA, hg, State.getNamedGlobal, State.subscript, LogErrorV, State.print]
  · intro r st' h n
    simp only [ExprAST.codegen] at h
    split at h
    · cases h; simp [State.emit]
    · split at h
      · cases h; simp [State.emit]
      · cases h; simp [LogErrorV]

theorem VariableExprAST_codegen_spec_witness :
    inF.lookup "a" = some 1 ∧
    (ExprAST.var "a").codegen inF =
      some (some (Value.inst inF.nextId),
        ((inF.subscript "a").insert (Instr.load inF.nextId (Value.inst 1))).reserve 1) :=
  ⟨by decide, (VariableExprAST_codegen_spec "a" inF).1 1 (by decide)⟩

/-- C9. An `Assignment` to `VName`: if the name has neither a local slot nor a
global, lowering fails, the right-hand expression is not lowered and the IR is
unchanged (only the error is reported and `NamedValues[VName]` has been read). Otherwise
the target `Var` is the local slot when there is one and the global otherwise; the
right-hand expression is lowered; when it succeeds with value `v`, one store of `v`
into `Var` is inserted after its instructions and `v` is the result; when it fails,
the `Assignment` fails in the state the expression left, without a store. -/
theorem AssignmentAST_codegen_spec (VName : String) (VValue : ExprAST) (st : State) :
    (st.lookup VName = none → VName ∉ st.globals →
      (AssignmentAST.mk VName VValue).codegen st =
        some (none, { st.subscript VName with out := st.out ++
          [Output.error ("Variabile " ++ VName ++ " non definita (Assignment)")] })) ∧
    (∀ Var, ((∃ A, st.lookup VName = some A ∧ Var = Value.inst A) ∨
        (st.lookup VName = none ∧ VName ∈ st.globals ∧ Var = Value.global VName)) →
      (∀ v s2, VValue.codegen (st.subscript VName) = some (some v, s2) →
        (AssignmentAST.mk VName VValue).codegen st =
          some (some v, s2.insert (Instr.store v Var))) ∧
      (∀ s2, VValue.codegen (st.subscript VName) = some (none, s2) →
        (AssignmentAST.mk VName VValue).codegen st = some (none, s2))) := by
  refine ⟨?_, ?_⟩
  · intro hA hg
    simp [AssignmentAST.codegen, hA, hg, State.getNamedGlobal, State.subscript, LogErrorV,
      State.print]
  · intro Var hVar
    have hres : (match st.lookup VName with
        | some A => some (Value.inst A)
        | none => (st.subscript VName).getNamedGlobal VName) = some Var := by
      rcases hVar with ⟨A, hA, rfl⟩ | ⟨hA, hg, rfl⟩
      · simp [hA]
      · simp [hA, State.getNamedGlobal, State.subscript, hg]
    constructor
    · intro v s2 h
      simp only [AssignmentAST.codegen, hres, h]
    · intro s2 h
      simp only [AssignmentAST.codegen, hres, h]

theorem AssignmentAST_codegen_spec_witness :
    ((∃ A, inF.lookup "g" = some A ∧ Value.global "g" = Value.inst A) ∨
      (inF.lookup "g" = none ∧ "g" ∈ inF.globals ∧ Value.global "g" = Value.global "g")) ∧
    (ExprAST.number lit2).codegen (inF.subscript "g") =
      some (some (Value.constFP lit2), inF.subscript "g") ∧
    (AssignmentAST.mk "g" (ExprAST.number lit2)).codegen inF =
      some (some (Value.constFP lit2),
        (inF.subscript "g").insert (Instr.store (Value.constFP lit2) (Value.global "g"))) :=
  ⟨Or.inr ⟨by decide, by decide, rfl⟩, by decide,
    ((AssignmentAST_codegen_spec "g" (ExprAST.number lit2) inF).2 (Value.global "g")
      (Or.inr ⟨by decide, by decide, rfl⟩)).1 (Value.constFP lit2) (inF.subscript "g")
      (by decide)⟩

/-! ## Conditionals (C10) -/

/-- C10. When an `If` lowers successfully from a well-formed state (as all states of a
session are): `Cond`, `TrueExp` and `FalseExp` were lowered in turn with values
`CondV`, `TrueV`, `FalseV`; with `Bt` and `Bf` the blocks the cursor is in right
after `TrueExp` and right after `FalseExp`, the result is a phi node which is the
only instruction of the join block `MergeBB`, its incoming pairs are exactly
`(TrueV, Bt)` and `(FalseV, Bf)`, the blocks `Bt` and `Bf` both end with a branch to
`MergeBB`, and the cursor ends in `MergeBB`. -/
theorem IfExprAST_codegen_phi (Cond TrueExp FalseExp : ExprAST) (st st' : State) (v : Value)
    (hwf : st.WellFormed)
    (h : (ExprAST.ifExpr Cond TrueExp FalseExp).codegen st = some (some v, st')) :
    ∃ CondV s1 cur TrueV s3 Bt FalseV s6 Bf,
      Cond.codegen st = some (some CondV, s1) ∧ s1.cursor = some cur ∧
      TrueExp.codegen (IfExprAST.thenEntry s1 cur CondV) = some (some TrueV, s3) ∧
      s3.cursor = some Bt ∧
      FalseExp.codegen (IfExprAST.elseEntry s1 cur s3) = some (some FalseV, s6) ∧
      s6.cursor = some Bf ∧
      v = Value.inst s6.nextId ∧
      st'.cursor = some ⟨s1.nextId + 2, cur.parent⟩ ∧
      blockInstrs st'.blocks (s1.nextId + 2) =
        some [Instr.phi s6.nextId [(TrueV, Bt.id), (FalseV, Bf.id)]] ∧
      (∃ l, blockInstrs st'.blocks Bt.id = some (l ++ [Instr.br (s1.nextId + 2)])) ∧
      (∃ l, blockInstrs st'.blocks Bf.id = some (l ++ [Instr.br (s1.nextId + 2)])) := by
  simp only [ExprAST.codegen] at h
  split at h
  · cases h
  · cases h
  · rename_i CondV s1 hC
    split at h
    · cases h
    · rename_i cur hcur
      split at h
      · cases h
      · cases h
      · rename_i TrueV s3 hT
        split at h
        · cases h
        · rename_i Bt hBt
          split at h
          · cases h
          · cases h
          · rename_i FalseV s6 hF
            split at h
            · cases h
            · rename_i Bf hBf
              simp only [Option.some.injEq, Prod.mk.injEq] at h
              obtain ⟨hv, hst⟩ := h
              simp only [State.cursor_insert] at hBt hBf
              -- the three sub-lowerings
              have ihc := ExprAST_codegen_steps Cond _ _ _ hC
              have iht := ExprAST_codegen_steps TrueExp _ _ _ hT
              have ihf := ExprAST_codegen_steps FalseExp _ _ _ hF
              have n1 := ihc.nextId_le
              have n3 := iht.nextId_le
              have n6 := ihf.nextId_le
              simp at n3 n6
              -- identities of the attached blocks
              obtain ⟨newc, hidc, hbc⟩ := ihc.ids
              obtain ⟨newt, hidt, hbt⟩ := iht.ids
              obtain ⟨newf, hidf, hbf⟩ := ihf.ids
              simp only [State.blocks_SetInsertPoint, State.ids_insert, State.ids_attach,
                State.blocks_reserve, State.nextId_SetInsertPoint, State.nextId_insert,
                State.nextId_attach, State.nextId_reserve] at hidt hbt hidf hbf
              have hlt1 : ∀ k ∈ s1.blocks.map (fun x => x.id), k < s1.nextId := by
                intro k hk
                rw [hidc] at hk
                rcases List.mem_append.mp hk with hk | hk
                · obtain ⟨b, hb, rfl⟩ := List.mem_map.mp hk
                  have := hwf b hb
                  omega
                · exact (hbc k hk).2
              -- the cursor after the arms
              obtain ⟨ct, hct, -, hcti⟩ := iht.cursor_some ⟨s1.nextId, cur.parent⟩ rfl
              rw [hBt] at hct; cases hct
              obtain ⟨cf, hcf, -, hcfi⟩ := ihf.cursor_some ⟨s1.nextId + 1, cur.parent⟩ rfl
              rw [hBf] at hcf; cases hcf
              simp only [State.nextId_SetInsertPoint, State.nextId_insert, State.nextId_attach,
                State.nextId_reserve] at hcti hcfi
              -- `Bt` is attached after the true arm and ends with the branch
              have at3 : (blockInstrs s3.blocks Bt.id).isSome :=
                iht.attached _ Bt rfl hBt ((blockInstrs_isSome _ _).mpr (by
                  simp [State.ids_insert, State.ids_attach]))
              obtain ⟨l3, hl3⟩ := Option.isSome_iff_exists.mp at3
              have h4 : blockInstrs (s3.insert (Instr.br (s1.nextId + 2))).blocks Bt.id
                  = some (l3 ++ [Instr.br (s1.nextId + 2)]) := by
                rw [State.blocks_insert_of_cursor _ _ _ hBt, blockInstrs_appendAt]
                simp [hl3]
              have h5 : blockInstrs ((s3.insert (Instr.br (s1.nextId + 2))).attach cur.parent
                  (s1.nextId + 1) "falseexp").blocks Bt.id
                  = some (l3 ++ [Instr.br (s1.nextId + 2)]) :=
                blockInstrs_append_of_some _ _ _ _ h4
              obtain ⟨pre6, hpre6⟩ := ihf.frame Bt.id _ (by simp; omega)
                (by
                  intro c hc
                  simp at hc
                  subst hc
                  show s1.nextId + 1 ≠ Bt.id
                  omega) h5
              -- `Bf` is attached after the false arm
              have at6 : (blockInstrs s6.blocks Bf.id).isSome :=
                ihf.attached _ Bf rfl hBf ((blockInstrs_isSome _ _).mpr (by
                  simp [State.ids_insert, State.ids_attach]))
              obtain ⟨l6, hl6⟩ := Option.isSome_iff_exists.mp at6
              have hne : Bt.id ≠ Bf.id := by omega
              have h7f : blockInstrs (s6.insert (Instr.br (s1.nextId + 2))).blocks Bf.id
                  = some (l6 ++ [Instr.br (s1.nextId + 2)]) := by
                rw [State.blocks_insert_of_cursor _ _ _ hBf, blockInstrs_appendAt]
                simp [hl6]
              have h7t : blockInstrs (s6.insert (Instr.br (s1.nextId + 2))).blocks Bt.id
                  = some (pre6 ++ (l3 ++ [Instr.br (s1.nextId + 2)])) := by
                rw [State.blocks_insert_of_cursor _ _ _ hBf, blockInstrs_appendAt]
                simp [hne, hpre6]
              -- the join block is new
              have hM : blockInstrs (s6.insert (Instr.br (s1.nextId + 2))).blocks (s1.nextId + 2)
                  = none := by
                rw [blockInstrs_eq_none, State.ids_insert, hidf, hidt]
                simp only [List.mem_append, List.mem_singleton, not_or]
                refine ⟨⟨⟨⟨?_, ?_⟩, ?_⟩, ?_⟩, ?_⟩
                · intro hk; have := hlt1 _ hk; omega
                · omega
                · intro hk; have := hbt _ hk; omega
                · omega
                · intro hk; have := hbf _ hk; omega
              have hblocks : st'.blocks = appendAt (s1.nextId + 2)
                  (Instr.phi s6.nextId [(TrueV, Bt.id), (FalseV, Bf.id)])
                  ((s6.insert (Instr.br (s1.nextId + 2))).blocks ++
                    [{ id := s1.nextId + 2, parent := cur.parent, label := "endcond",
                       instrs := [] }]) := by
                rw [← hst, State.emit, State.blocks_reserve,
                  State.blocks_insert_of_cursor _ _ ⟨s1.nextId + 2, cur.parent⟩ rfl]
                simp only [State.nextId_SetInsertPoint, State.nextId_attach, State.nextId_insert,
                  State.blocks_SetInsertPoint]
                rfl
              refine ⟨CondV, s1, cur, TrueV, s3, Bt, FalseV, s6, Bf, hC, hcur, hT, hBt, hF, hBf,
                ?_, ?_, ?_, ?_, ?_⟩
              · rw [← hv]; simp
              · rw [← hst]; simp
              · rw [hblocks, blockInstrs_appendAt, blockInstrs_append_of_none _ _ _ hM]
                simp [blockInstrs]
              · refine ⟨pre6 ++ l3, ?_⟩
                rw [hblocks, blockInstrs_appendAt, blockInstrs_append_of_some _ _ _ _ h7t]
                have : ¬ Bt.id = s1.nextId + 2 := by omega
                simp [this]
              · refine ⟨l6, ?_⟩
                rw [hblocks, blockInstrs_appendAt, blockInstrs_append_of_some _ _ _ _ h7f]
                have : ¬ Bf.id = s1.nextId + 2 := by omega
                simp [this]

theorem IfExprAST_codegen_phi_witness :
    inF.WellFormed ∧
    nestedIf.codegen inF = some (some (Value.inst 11), afterNestedIf) ∧
    blockInstrs afterNestedIf.blocks 5 =
      some [Instr.phi 11 [(Value.inst 10, 9), (Value.constFP lit3, 4)]] ∧
    ∃ CondV s1 cur TrueV s3 Bt FalseV s6 Bf,
      (ExprAST.var "g").codegen inF = some (some CondV, s1) ∧ s1.cursor = some cur ∧
      (ExprAST.ifExpr (ExprAST.var "g") (ExprAST.number lit1) (ExprAST.number lit2)).codegen
        (IfExprAST.thenEntry s1 cur CondV) = some (some TrueV, s3) ∧
      s3.cursor = some Bt ∧
      (ExprAST.number lit3).codegen (IfExprAST.elseEntry s1 cur s3) = some (some FalseV, s6) ∧
      s6.cursor = some Bf ∧
      Value.inst 11 = Value.inst s6.nextId ∧
      afterNestedIf.cursor = some ⟨s1.nextId + 2, cur.parent⟩ ∧
      blockInstrs afterNestedIf.blocks (s1.nextId + 2) =
        some [Instr.phi s6.nextId [(TrueV, Bt.id), (FalseV, Bf.id)]] ∧
      (∃ l, blockInstrs afterNestedIf.blocks Bt.id = some (l ++ [Instr.br (s1.nextId + 2)])) ∧
      (∃ l, blockInstrs afterNestedIf.blocks Bf.id = some (l ++ [Instr.br (s1.nextId + 2)])) :=
  ⟨by decide, by decide, by decide,
    IfExprAST_codegen_phi (ExprAST.var "g")
      (ExprAST.ifExpr (ExprAST.var "g") (ExprAST.number lit1) (ExprAST.number lit2))
      (ExprAST.number lit3) inF afterNestedIf (Value.inst 11) (by decide) (by decide)⟩

/-! ## Operators (C13, C14) -/

/-- C13 (counterexample). The operands of `1 + 2` and of `1 < 2` are constants: the
builder folds them, the result is a constant, and no instruction is inserted: the
lowering returns in the state it started in, and not with an `fadd` written at the
cursor. -/
theorem BinaryExprAST_codegen_folds_constants :
    (ExprAST.binary '+' (ExprAST.number lit1) (ExprAST.number lit2)).codegen inF =
      some (some (Value.folded '+' (Value.constFP lit1) (Value.constFP lit2)), inF) ∧
    (ExprAST.binary '<' (ExprAST.number lit1) (ExprAST.number lit2)).codegen inF =
      some (some (Value.folded '<' (Value.constFP lit1) (Value.constFP lit2)), inF) ∧
    (ExprAST.binary '+' (ExprAST.number lit1) (ExprAST.number lit2)).codegen inF ≠
      some (some (Value.inst inF.nextId),
        (inF.insert (Instr.fadd inF.nextId (Value.constFP lit1) (Value.constFP lit2))).reserve 1) ∧
    blockInstrs inF.blocks 0 =
      some [Instr.alloca 1 "a", Instr.store (Value.argument "f" 0) (Value.inst 1)] := by
  decide

/-- C13 (amended). When the two operands of a `BinaryExpr` lower successfully, the left
one first with value `L` and then, in the state it left, the right one with value `R`
leaving `s2`: (1) if `L` and `R` are not both constants, for each of the operators
`+ - * / < =` exactly one instruction, the floating-point add, sub, mul, div, unordered
less-than or unordered equal of `(L, R)`, is inserted in `s2`, after the instructions
of the operands, and is the result; (2) if `L` and `R` are both constants, for each of
these operators nothing is inserted and the result is the constant folded from `L` and
`R`; (3) for every other operator character the lowering fails, leaving `s2` with only
the operator echoed and the error reported. -/
theorem BinaryExprAST_codegen_spec (Op : Char) (LHS RHS : ExprAST) (st s1 s2 : State)
    (L R : Value) (hL : LHS.codegen st = some (some L, s1))
    (hR : RHS.codegen s1 = some (some R, s2)) :
    (¬ (L.isConstant = true ∧ R.isConstant = true) →
      (Op = '+' → (ExprAST.binary Op LHS RHS).codegen st =
        some (some (Value.inst s2.nextId), (s2.insert (Instr.fadd s2.nextId L R)).reserve 1)) ∧
      (Op = '-' → (ExprAST.binary Op LHS RHS).codegen st =
        some (some (Value.inst s2.nextId), (s2.insert (Instr.fsub s2.nextId L R)).reserve 1)) ∧
      (Op = '*' → (ExprAST.binary Op LHS RHS).codegen st =
        some (some (Value.inst s2.nextId), (s2.insert (Instr.fmul s2.nextId L R)).reserve 1)) ∧
      (Op = '/' → (ExprAST.binary Op LHS RHS).codegen st =
        some (some (Value.inst s2.nextId), (s2.insert (Instr.fdiv s2.nextId L R)).reserve 1)) ∧
      (Op = '<' → (ExprAST.binary Op LHS RHS).codegen st =
        some (some (Value.inst s2.nextId),
          (s2.insert (Instr.fcmpULT s2.nextId L R)).reserve 1)) ∧
      (Op = '=' → (ExprAST.binary Op LHS RHS).codegen st =
        some (some (Value.inst s2.nextId),
          (s2.insert (Instr.fcmpUEQ s2.nextId L R)).reserve 1))) ∧
    (L.isConstant = true → R.isConstant = true → Op ∈ ['+', '-', '*', '/', '<', '='] →
      (ExprAST.binary Op LHS RHS).codegen st = some (some (Value.folded Op L R), s2)) ∧
    (Op ∉ ['+', '-', '*', '/', '<', '='] → (ExprAST.binary Op LHS RHS).codegen st =
      some (none, { s2 with out := s2.out ++
        [Output.cout Op.toString, Output.error "Operatore binario non supportato"] })) := by
  refine ⟨fun hc => ?_, fun hl hr hop => ?_, ?_⟩
  · have hc' : (L.isConstant && R.isConstant) = false := by
      cases hl : L.isConstant <;> cases hr : R.isConstant <;> simp_all
    refine ⟨?_, ?_, ?_, ?_, ?_, ?_⟩ <;> rintro rfl <;>
      simp [ExprAST.codegen, hL, hR, binaryInstr, State.emit, hc']
  · simp only [List.mem_cons, List.mem_singleton, List.not_mem_nil, or_false] at hop
    rcases hop with rfl | rfl | rfl | rfl | rfl | rfl <;>
      simp [ExprAST.codegen, hL, hR, binaryInstr, hl, hr]
  · intro h
    simp only [List.mem_cons, List.mem_singleton, List.not_mem_nil, or_false, not_or] at h
    obtain ⟨h1, h2, h3, h4, h5, h6⟩ := h
    simp [ExprAST.codegen, hL, hR, binaryInstr, h1, h2, h3, h4, h5, h6, LogErrorV, State.print]

theorem BinaryExprAST_codegen_spec_witness :
    (ExprAST.var "a").codegen inF = some (some (Value.inst 2),
      (inF.subscript "a").emit (fun id => Instr.load id (Value.inst 1))) ∧
    (ExprAST.number lit1).codegen ((inF.subscript "a").emit (fun id => Instr.load id (Value.inst 1)))
      = some (some (Value.constFP lit1),
        (inF.subscript "a").emit (fun id => Instr.load id (Value.inst 1))) ∧
    ¬ ((Value.inst 2).isConstant = true ∧ (Value.constFP lit1).isConstant = true) ∧
    (ExprAST.binary '<' (ExprAST.var "a") (ExprAST.number lit1)).codegen inF =
      some (some (Value.inst 3),
        (((inF.subscript "a").emit (fun id => Instr.load id (Value.inst 1))).insert
          (Instr.fcmpULT 3 (Value.inst 2) (Value.constFP lit1))).reserve 1) :=
  ⟨by decide, by decide, by decide,
    ((BinaryExprAST_codegen_spec '<' (ExprAST.var "a") (ExprAST.number lit1) inF
      ((inF.subscript "a").emit (fun id => Instr.load id (Value.inst 1)))
      ((inF.subscript "a").emit (fun id => Instr.load id (Value.inst 1)))
      (Value.inst 2) (Value.constFP lit1) (by decide) (by decide)).1 (by decide)).2.2.2.2.1 rfl⟩

/-- C15 (evaluation of the code). Of the four combinations of a `Sequence`, three
are lowered as described: nothing for two absent halves, the continuation alone when
only `first` is absent, `first` and then the continuation when both are present. With
`first` present and the continuation absent, `first` is lowered and then `codegen` is
called through the null `continuation`: the lowering does not return. -/
theorem SeqAST_codegen_cases :
    (∀ st : State, (RootAST.seq none none).codegen st = some (none, st)) ∧
    (∀ (c : RootAST) (st : State), (RootAST.seq none (some c)).codegen st =
      (c.codegen st).map (fun r => (none, r.2))) ∧
    (∀ (first c : RootAST) (st : State), (RootAST.seq (some first) (some c)).codegen st =
      (first.codegen st).bind (fun r1 => (c.codegen r1.2).map (fun r => (none, r.2)))) ∧
    (∀ (first : RootAST) (st : State), (RootAST.seq (some first) none).codegen st = none) ∧
    (RootAST.globalVariable "q").codegen State.init ≠ none ∧
    seqNoContinuation.codegen State.init = none := by
  refine ⟨?_, ?_, ?_, ?_, by decide, by decide⟩
  · intro st
    simp [RootAST.codegen]
  · intro c st
    simp only [RootAST.codegen]
    cases c.codegen st with
    | none => rfl
    | some r => rfl
  · intro first c st
    simp only [RootAST.codegen]
    cases first.codegen st with
    | none => rfl
    | some r1 =>
      simp only [Option.bind]
      cases c.codegen r1.2 with
      | none => rfl
      | some r => rfl
  · intro first st
    simp only [RootAST.codegen]
    cases first.codegen st with
    | none => rfl
    | some r => rfl

/-- C16. In a `Sequence` with both halves present whose `first` fails to lower,
leaving the state `s1`, the continuation is lowered all the same, starting from `s1`:
the sequence returns in the state the continuation leaves. -/
theorem SeqAST_codegen_first_failure (first c : RootAST) (st s1 : State)
    (h : first.codegen st = some (none, s1)) :
    (RootAST.seq (some first) (some c)).codegen st =
      (c.codegen s1).map (fun r => (none, r.2)) := by
  simp only [RootAST.codegen, h]
  cases c.codegen s1 with
  | none => rfl
  | some r => rfl

theorem SeqAST_codegen_first_failure_witness :
    (RootAST.function badFn).codegen State.init = some (none, afterBadFn) ∧
    (RootAST.seq (some (RootAST.function badFn)) (some (RootAST.function constFn))).codegen
        State.init =
      ((RootAST.function constFn).codegen afterBadFn).map (fun r => (none, r.2)) ∧
    ((RootAST.seq (some (RootAST.function badFn)) (some (RootAST.function constFn))).codegen
        State.init).map (fun r => r.2.functions) = some [⟨"f", ["x"]⟩] :=
  ⟨by decide,
    SeqAST_codegen_first_failure (RootAST.function badFn) (RootAST.function constFn)
      State.init afterBadFn (by decide),
    by decide⟩

/-! ## Failure paths of operators and blocks (C18, C19) -/

/-- C18 (counterexample). In `nope + g` and in `nope and g` the left operand fails, and
the right operand is lowered all the same: the expression fails in a state whose entry
block has one more instruction, the load of `g`, than the state left by the failed
left operand. -/
theorem BinaryExprAST_codegen_lowers_right_after_failure :
    (ExprAST.var "nope").codegen inF =
      some (none, LogErrorV (inF.subscript "nope") "Variabile nope non definita (Variable)") ∧
    blockInstrs (LogErrorV (inF.subscript "nope")
      "Variabile nope non definita (Variable)").blocks 0 =
      some [Instr.alloca 1 "a", Instr.store (Value.argument "f" 0) (Value.inst 1)] ∧
    (undefinedPlusGlobal.codegen inF).map (fun r => (r.1, blockInstrs r.2.blocks 0)) =
      some (none, some [Instr.alloca 1 "a", Instr.store (Value.argument "f" 0) (Value.inst 1),
        Instr.load 2 (Value.global "g")]) ∧
    (undefinedAndGlobal.codegen inF).map (fun r => (r.1, blockInstrs r.2.blocks 0)) =
      some (none, some [Instr.alloca 1 "a", Instr.store (Value.argument "f" 0) (Value.inst 1),
        Instr.load 2 (Value.global "g")]) := by
  decide

/-- C18 (amended). When the left operand of a `BinaryExpr`, or of a `LogicalExpr` whose
op is not `not`, fails to lower and leaves `s1`, the right operand is lowered all the
same, starting from `s1`; then the expression fails without an instruction of its
own: it returns `nullptr` in the state the right operand left, whatever the right
operand returned and whatever the operator is. -/
theorem BinaryExprAST_codegen_left_failure (LHS RHS : ExprAST) (st s1 : State)
    (hL : LHS.codegen st = some (none, s1)) :
    (∀ Op : Char, (ExprAST.binary Op LHS RHS).codegen st =
      (RHS.codegen s1).map (fun r => (none, r.2))) ∧
    (∀ Op : String, Op ≠ "not" → (ExprAST.logical Op LHS (some RHS)).codegen st =
      (RHS.codegen s1).map (fun r => (none, r.2))) := by
  constructor
  · intro Op
    simp only [ExprAST.codegen, hL]
    cases RHS.codegen s1 with
    | none => rfl
    | some r => rfl
  · intro Op hOp
    simp only [ExprAST.codegen, hL, derefCodegen, hOp, if_false]
    cases RHS.codegen s1 with
    | none => rfl
    | some r => rfl

theorem BinaryExprAST_codegen_left_failure_witness :
    (ExprAST.var "nope").codegen inF =
      some (none, LogErrorV (inF.subscript "nope") "Variabile nope non definita (Variable)") ∧
    (∀ Op : Char, (ExprAST.binary Op (ExprAST.var "nope") (ExprAST.var "g")).codegen inF =
      ((ExprAST.var "g").codegen (LogErrorV (inF.subscript "nope")
        "Variabile nope non definita (Variable)")).map (fun r => (none, r.2))) ∧
    (∀ Op : String, Op ≠ "not" →
      (ExprAST.logical Op (ExprAST.var "nope") (some (ExprAST.var "g"))).codegen inF =
      ((ExprAST.var "g").codegen (LogErrorV (inF.subscript "nope")
        "Variabile nope non definita (Variable)")).map (fun r => (none, r.2))) :=
  ⟨by decide, BinaryExprAST_codegen_left_failure (ExprAST.var "nope") (ExprAST.var "g") inF
    (LogErrorV (inF.subscript "nope") "Variabile nope non definita (Variable)") (by decide)⟩

/-- C19 (evaluation of the code). A block that fails after it has installed a binding
returns at once, without its restore loop: when the bindings have been lowered and an
expression of the body fails, the block fails in the very state that expression left.
In `var x = 1 in nope` the name `x`, absent before, stays bound to its slot; in
`var a = 1, y = nope in a` the parameter `a`, bound to slot 1 before, stays bound to
the slot of the block. -/
theorem BlockExprAST_codegen_failure_not_restored :
    (∀ (Def : List VarBindingAST) (Val : List ExprAST) (st s1 s2 : State)
        (AllocaTmp : List (Option Nat)),
      codegenDefs Def st = some (some AllocaTmp, s1) → codegenList Val s1 = some (none, s2) →
      (ExprAST.block Def Val).codegen st = some (none, s2)) ∧
    (∀ (Def : List VarBindingAST) (Val : List ExprAST) (st s1 : State),
      codegenDefs Def st = some (none, s1) →
      (ExprAST.block Def Val).codegen st = some (none, s1)) ∧
    inF.lookup "x" = none ∧
    (blockFailingBody.codegen inF).map (fun r => (r.1, r.2.lookup "x")) =
      some (none, some 2) ∧
    inF.lookup "a" = some 1 ∧
    (blockFailingBinding.codegen inF).map (fun r => (r.1, r.2.lookup "a")) =
      some (none, some 2) := by
  refine ⟨?_, ?_, by decide, by decide, by decide, by decide⟩
  · intro Def Val st s1 s2 AllocaTmp h1 h2
    simp only [ExprAST.codegen, h1, h2]
  · intro Def Val st s1 h1
    simp only [ExprAST.codegen, h1]

/-! ## The init of a loop that assigns an existing name (C17) -/

/-- C17 (counterexample). The init `a = 0` of a `for`, lowered in `f` where the
parameter `a` has slot 1, succeeds, creates the fresh slot 2 and emits two stores of
the value: the first into slot 1, the location `a` was bound to before the loop, the
second into the fresh slot. -/
theorem ForInit_codegen_assign_stores_old_location :
    inF.lookup "a" = some 1 ∧
    (initAssignA.codegen "f" inF).map
        (fun r => (r.1, blockInstrs r.2.blocks 0, r.2.lookup "a")) =
      some (some none,
        some [Instr.alloca 2 "a", Instr.alloca 1 "a",
          Instr.store (Value.argument "f" 0) (Value.inst 1),
          Instr.store (Value.constFP lit0) (Value.inst 1),
          Instr.store (Value.constFP lit0) (Value.inst 2)],
        some 2) := by
  decide

/-- C17 (amended). Let the init of a `for` in function `fn` be the assignment `x = e`,
with `x` bound to the slot `A`, or unbound and a global; `Var` is that location. When
`e` lowers with value `v`, the init succeeds and emits: the fresh slot `st.nextId`
(before `e` is lowered), the instructions of `e`, a store of `v` into `Var`, the
location `x` had before the loop, and then a store of `v` into the fresh slot. `x` is
bound to the fresh slot when `Cond` is lowered for the first time; when `Cond`,
`BlockExp` and the step are well scoped and lower successfully, `x` is still bound to
the fresh slot when `BlockExp`, the step and `Cond` again are lowered. -/
theorem ForInit_codegen_assign_spec (x : String) (e : ExprAST) (fn : String) (st s2 : State)
    (A : Nat) (Var v : Value)
    (hx : (st.lookup x = some A ∧ Var = Value.inst A) ∨
      (st.lookup x = none ∧ x ∈ st.globals ∧ Var = Value.global x))
    (he : e.codegen ((CreateEntryBlockAlloca fn x st).subscript x) = some (some v, s2)) :
    ∃ s1, s1 = ((s2.insert (Instr.store v Var)).insert
        (Instr.store v (Value.inst st.nextId))).assign x (some st.nextId) ∧
      (ForInit.assign (AssignmentAST.mk x e)).codegen fn st = some (some none, s1) ∧
      (ForExprAST.condEntry s1 fn).lookup x = some st.nextId ∧
      ∀ (Cond : ExprAST) (EndV : Value) (s3 : State), Cond.wellScoped = true →
        Cond.codegen (ForExprAST.condEntry s1 fn) = some (some EndV, s3) →
        (ForExprAST.bodyEntry s1 fn s3 EndV).lookup x = some st.nextId ∧
        ∀ (BlockExp : ExprAST) (bv : Value) (s5 : State), BlockExp.wellScoped = true →
          BlockExp.codegen (ForExprAST.bodyEntry s1 fn s3 EndV) = some (some bv, s5) →
          s5.lookup x = some st.nextId ∧
          ∀ (StepExp : Option AssignmentAST) (sv : Value) (s6 : State),
            wellScopedStep StepExp = true → stepCodegen StepExp s5 = some (some sv, s6) →
            s6.lookup x = some st.nextId := by
  refine ⟨_, rfl, ?_, ?_, ?_⟩
  · rcases hx with ⟨h1, rfl⟩ | ⟨h1, h2, rfl⟩
    · simp [ForInit.codegen, AssignmentAST.codegen, AssignmentAST.getName, h1, he]
    · have hl : (CreateEntryBlockAlloca fn x st).lookup x = none := by simp [h1]
      have hg : ((CreateEntryBlockAlloca fn x st).subscript x).getNamedGlobal x =
          some (Value.global x) := by
        simp [State.getNamedGlobal, State.subscript, CreateEntryBlockAlloca, h2]
      simp [ForInit.codegen, AssignmentAST.codegen, AssignmentAST.getName, hl, hg, he]
  · simp [ForExprAST.condEntry]
  · intro Cond EndV s3 hwC hC
    have e3 := ExprAST_codegen_scope Cond _ EndV s3 hwC hC x
    have l3 : s3.lookup x = some st.nextId := by
      rw [e3]; simp [ForExprAST.condEntry]
    refine ⟨by simp [ForExprAST.bodyEntry, l3], ?_⟩
    intro BlockExp bv s5 hwB hB
    have e5 := ExprAST_codegen_scope BlockExp _ bv s5 hwB hB x
    have l5 : s5.lookup x = some st.nextId := by
      rw [e5]; simp [ForExprAST.bodyEntry, l3]
    refine ⟨l5, ?_⟩
    intro StepExp sv s6 hwS hS
    rw [stepCodegen_scope StepExp s5 sv s6 hwS hS x]
    exact l5

theorem ForInit_codegen_assign_spec_witness :
    ((inF.lookup "a" = some 1 ∧ Value.inst 1 = Value.inst 1) ∨
      (inF.lookup "a" = none ∧ "a" ∈ inF.globals ∧ Value.inst 1 = Value.global "a")) ∧
    (ExprAST.number lit0).codegen ((CreateEntryBlockAlloca "f" "a" inF).subscript "a") =
      some (some (Value.constFP lit0), (CreateEntryBlockAlloca "f" "a" inF).subscript "a") ∧
    ∃ s1, s1 = ((((CreateEntryBlockAlloca "f" "a" inF).subscript "a").insert
        (Instr.store (Value.constFP lit0) (Value.inst 1))).insert
        (Instr.store (Value.constFP lit0) (Value.inst inF.nextId))).assign "a"
          (some inF.nextId) ∧
      (ForInit.assign (AssignmentAST.mk "a" (ExprAST.number lit0))).codegen "f" inF =
        some (some none, s1) ∧
      (ForExprAST.condEntry s1 "f").lookup "a" = some inF.nextId ∧
      ∀ (Cond : ExprAST) (EndV : Value) (s3 : State), Cond.wellScoped = true →
        Cond.codegen (ForExprAST.condEntry s1 "f") = some (some EndV, s3) →
        (ForExprAST.bodyEntry s1 "f" s3 EndV).lookup "a" = some inF.nextId ∧
        ∀ (BlockExp : ExprAST) (bv : Value) (s5 : State), BlockExp.wellScoped = true →
          BlockExp.codegen (ForExprAST.bodyEntry s1 "f" s3 EndV) = some (some bv, s5) →
          s5.lookup "a" = some inF.nextId ∧
          ∀ (StepExp : Option AssignmentAST) (sv : Value) (s6 : State),
            wellScopedStep StepExp = true → stepCodegen StepExp s5 = some (some sv, s6) →
            s6.lookup "a" = some inF.nextId :=
  ⟨by decide, by decide,
    ForInit_codegen_assign_spec "a" (ExprAST.number lit0) "f" inF
      ((CreateEntryBlockAlloca "f" "a" inF).subscript "a") 1 (Value.inst 1)
      (Value.constFP lit0) (by decide) (by decide)⟩

/-! ## Failure of a conditional (C11) -/

@[simp] theorem IfExprAST.thenEntry_nextId (s1 : State) (cur : BlockRef) (CondV : Value) :
    (IfExprAST.thenEntry s1 cur CondV).nextId = s1.nextId + 3 := by
  simp [IfExprAST.thenEntry]

@[simp] theorem IfExprAST.thenEntry_cursor (s1 : State) (cur : BlockRef) (CondV : Value) :
    (IfExprAST.thenEntry s1 cur CondV).cursor = some ⟨s1.nextId, cur.parent⟩ := by
  simp [IfExprAST.thenEntry]

theorem IfExprAST.thenEntry_ids (s1 : State) (cur : BlockRef) (CondV : Value) :
    (IfExprAST.thenEntry s1 cur CondV).blocks.map (fun x => x.id) =
      s1.blocks.map (fun x => x.id) ++ [s1.nextId] := by
  simp [IfExprAST.thenEntry, State.ids_insert, State.ids_attach]

@[simp] theorem IfExprAST.elseEntry_nextId (s1 : State) (cur : BlockRef) (s3 : State) :
    (IfExprAST.elseEntry s1 cur s3).nextId = s3.nextId := by
  simp [IfExprAST.elseEntry]

@[simp] theorem IfExprAST.elseEntry_cursor (s1 : State) (cur : BlockRef) (s3 : State) :
    (IfExprAST.elseEntry s1 cur s3).cursor = some ⟨s1.nextId + 1, cur.parent⟩ := by
  simp [IfExprAST.elseEntry]

theorem IfExprAST.elseEntry_ids (s1 : State) (cur : BlockRef) (s3 : State) :
    (IfExprAST.elseEntry s1 cur s3).blocks.map (fun x => x.id) =
      s3.blocks.map (fun x => x.id) ++ [s1.nextId + 1] := by
  simp [IfExprAST.elseEntry, State.ids_insert, State.ids_attach]

/-- The cases in which `IfExprAST::codegen` returns `nullptr`. -/
theorem IfExprAST_codegen_none_iff (Cond TrueExp FalseExp : ExprAST) (st st' : State) :
    (ExprAST.ifExpr Cond TrueExp FalseExp).codegen st = some (none, st') ↔
      (Cond.codegen st = some (none, st') ∨
      (∃ CondV s1 cur, Cond.codegen st = some (some CondV, s1) ∧ s1.cursor = some cur ∧
        TrueExp.codegen (IfExprAST.thenEntry s1 cur CondV) = some (none, st')) ∨
      (∃ CondV s1 cur TrueV s3, Cond.codegen st = some (some CondV, s1) ∧
        s1.cursor = some cur ∧
        TrueExp.codegen (IfExprAST.thenEntry s1 cur CondV) = some (some TrueV, s3) ∧
        FalseExp.codegen (IfExprAST.elseEntry s1 cur s3) = some (none, st'))) := by
  constructor
  · intro h
    simp only [ExprAST.codegen] at h
    split at h
    · cases h
    · rename_i s1 hC
      cases h
      exact Or.inl hC
    · rename_i CondV s1 hC
      split at h
      · cases h
      · rename_i cur hcur
        split at h
        · cases h
        · rename_i s3 hT
          cases h
          exact Or.inr (Or.inl ⟨CondV, s1, cur, hC, hcur, hT⟩)
        · rename_i TrueV s3 hT
          split at h
          · cases h
          · rename_i Bt hBt
            split at h
            · cases h
            · rename_i s6 hF
              cases h
              exact Or.inr (Or.inr ⟨CondV, s1, cur, TrueV, s3, hC, hcur, hT, hF⟩)
            · split at h
              · cases h
              · cases h
  · rintro (hC | ⟨CondV, s1, cur, hC, hcur, hT⟩ | ⟨CondV, s1, cur, TrueV, s3, hC, hcur, hT, hF⟩)
    · simp only [ExprAST.codegen, hC]
    · simp only [IfExprAST.thenEntry] at hT
      simp only [ExprAST.codegen, hC, hcur, hT]
    · have iht := ExprAST_codegen_steps TrueExp _ _ _ hT
      obtain ⟨ct, hct, -, -⟩ := iht.cursor_some ⟨s1.nextId, cur.parent⟩ (by simp)
      simp only [IfExprAST.thenEntry] at hT
      simp only [IfExprAST.elseEntry] at hF
      simp only [ExprAST.codegen, hC, hcur, hT, State.cursor_insert, hct, hF]

/-- C11. An `If` fails to lower exactly in three cases: `Cond` fails; `Cond` succeeds
and `TrueExp`, lowered in the true-block, fails; both succeed and `FalseExp`, lowered in
the false-block, fails. In each case the state the `If` fails in is the state the
failing sub-expression left: nothing is lowered or emitted after it, so no phi node is
created, and when `Cond` fails the `If` has created no block and written no branch.
When `Cond` succeeded, from a well-formed state, the join block `MergeBB` has been
created (its identity `s1.nextId + 2` is taken) and is not among the attached blocks
of the state the `If` fails in. -/
theorem IfExprAST_codegen_failure (Cond TrueExp FalseExp : ExprAST) (st : State)
    (hwf : st.WellFormed) :
    (∀ st', (ExprAST.ifExpr Cond TrueExp FalseExp).codegen st = some (none, st') ↔
      (Cond.codegen st = some (none, st') ∨
      (∃ CondV s1 cur, Cond.codegen st = some (some CondV, s1) ∧ s1.cursor = some cur ∧
        TrueExp.codegen (IfExprAST.thenEntry s1 cur CondV) = some (none, st')) ∨
      (∃ CondV s1 cur TrueV s3, Cond.codegen st = some (some CondV, s1) ∧
        s1.cursor = some cur ∧
        TrueExp.codegen (IfExprAST.thenEntry s1 cur CondV) = some (some TrueV, s3) ∧
        FalseExp.codegen (IfExprAST.elseEntry s1 cur s3) = some (none, st')))) ∧
    (∀ st' CondV s1, (ExprAST.ifExpr Cond TrueExp FalseExp).codegen st = some (none, st') →
      Cond.codegen st = some (some CondV, s1) →
      s1.nextId + 2 < st'.nextId ∧ s1.nextId + 2 ∉ st'.blocks.map (fun b => b.id)) := by
  refine ⟨fun st' => IfExprAST_codegen_none_iff Cond TrueExp FalseExp st st', ?_⟩
  intro st' CondV s1 h hC
  have ihc := ExprAST_codegen_steps Cond _ _ _ hC
  have hw1 := (State.wellFormed_iff s1).mp (ihc.wellFormed hwf)
  rcases (IfExprAST_codegen_none_iff Cond TrueExp FalseExp st st').mp h with
    hC' | ⟨CondV', s1', cur, hC', hcur, hT⟩ | ⟨CondV', s1', cur, TrueV, s3, hC', hcur, hT, hF⟩
  · rw [hC] at hC'; cases hC'
  · rw [hC] at hC'; cases hC'
    have iht := ExprAST_codegen_steps TrueExp _ _ _ hT
    have n3 := iht.nextId_le
    obtain ⟨newt, hidt, hbt⟩ := iht.ids
    simp only [IfExprAST.thenEntry_nextId, IfExprAST.thenEntry_ids] at n3 hidt hbt
    refine ⟨by omega, ?_⟩
    rw [hidt]
    simp only [List.mem_append, List.mem_singleton, not_or]
    refine ⟨⟨?_, by omega⟩, ?_⟩
    · intro hk; have := hw1 _ hk; omega
    · intro hk; have := hbt _ hk; omega
  · rw [hC] at hC'; cases hC'
    have iht := ExprAST_codegen_steps TrueExp _ _ _ hT
    have ihf := ExprAST_codegen_steps FalseExp _ _ _ hF
    have n3 := iht.nextId_le
    have n6 := ihf.nextId_le
    obtain ⟨newt, hidt, hbt⟩ := iht.ids
    obtain ⟨newf, hidf, hbf⟩ := ihf.ids
    simp only [IfExprAST.thenEntry_nextId, IfExprAST.thenEntry_ids,
      IfExprAST.elseEntry_nextId, IfExprAST.elseEntry_ids] at n3 n6 hidt hbt hidf hbf
    refine ⟨by omega, ?_⟩
    rw [hidf, hidt]
    simp only [List.mem_append, List.mem_singleton, not_or]
    refine ⟨⟨⟨⟨?_, by omega⟩, ?_⟩, by omega⟩, ?_⟩
    · intro hk; have := hw1 _ hk; omega
    · intro hk; have := hbt _ hk; omega
    · intro hk; have := hbf _ hk; omega

theorem IfExprAST_codegen_failure_witness :
    inF.WellFormed ∧
    (ifFailingThen.codegen inF).map
        (fun r => (r.1, r.2.blocks.map (fun b => b.id), r.2.nextId)) =
      some (none, [0, 3], 6) ∧
    (∀ st', (ExprAST.ifExpr (ExprAST.var "g") (ExprAST.var "nope")
        (ExprAST.number lit1)).codegen inF = some (none, st') ↔
      ((ExprAST.var "g").codegen inF = some (none, st') ∨
      (∃ CondV s1 cur, (ExprAST.var "g").codegen inF = some (some CondV, s1) ∧
        s1.cursor = some cur ∧
        (ExprAST.var "nope").codegen (IfExprAST.thenEntry s1 cur CondV) = some (none, st')) ∨
      (∃ CondV s1 cur TrueV s3, (ExprAST.var "g").codegen inF = some (some CondV, s1) ∧
        s1.cursor = some cur ∧
        (ExprAST.var "nope").codegen (IfExprAST.thenEntry s1 cur CondV) =
          some (some TrueV, s3) ∧
        (ExprAST.number lit1).codegen (IfExprAST.elseEntry s1 cur s3) = some (none, st')))) ∧
    (∀ st' CondV s1, (ExprAST.ifExpr (ExprAST.var "g") (ExprAST.var "nope")
        (ExprAST.number lit1)).codegen inF = some (none, st') →
      (ExprAST.var "g").codegen inF = some (some CondV, s1) →
      s1.nextId + 2 < st'.nextId ∧ s1.nextId + 2 ∉ st'.blocks.map (fun b => b.id)) :=
  ⟨by decide, by decide,
    IfExprAST_codegen_failure (ExprAST.var "g") (ExprAST.var "nope") (ExprAST.number lit1) inF
      (by decide)⟩

/-! ## Where a successful lowering attaches blocks and leaves the cursor -/

theorem map_ref_appendAt (c : Nat) (i : Instr) (bs : List BasicBlock) :
    (appendAt c i bs).map BasicBlock.ref = bs.map BasicBlock.ref := by
  unfold appendAt
  rw [List.map_map]
  apply List.map_congr_left
  intro b _
  simp only [Function.comp, BasicBlock.ref]
  split <;> rfl

theorem map_ref_insertAtEntry (fn : String) (i : Instr) (bs : List BasicBlock) :
    (insertAtEntry fn i bs).map BasicBlock.ref = bs.map BasicBlock.ref := by
  induction bs with
  | nil => rfl
  | cons b bs ih =>
    simp only [insertAtEntry]
    split
    · simp [BasicBlock.ref]
    · simp [ih]

@[simp] theorem State.refs_insert (st : State) (i : Instr) : (st.insert i).refs = st.refs := by
  unfold State.insert State.refs
  cases st.cursor with
  | none => rfl
  | some c => exact map_ref_appendAt _ _ _

@[simp] theorem State.refs_reserve (st : State) (k : Nat) : (st.reserve k).refs = st.refs := rfl

@[simp] theorem State.refs_emit (st : State) (mk : Nat → Instr) : (st.emit mk).refs = st.refs := by
  simp [State.emit]

@[simp] theorem State.refs_SetInsertPoint (st : State) (c : BlockRef) :
    (st.SetInsertPoint c).refs = st.refs := rfl

@[simp] theorem State.refs_assign (st : State) (n : String) (v : Option Nat) :
    (st.assign n v).refs = st.refs := rfl

@[simp] theorem State.refs_subscript (st : State) (n : String) :
    (st.subscript n).refs = st.refs := rfl

@[simp] theorem State.refs_erase (st : State) (n : String) : (st.erase n).refs = st.refs := rfl

@[simp] theorem State.cursor_erase (st : State) (n : String) :
    (st.erase n).cursor = st.cursor := rfl

@[simp] theorem State.refs_attach (st : State) (fn : String) (id : Nat) (l : String) :
    (st.attach fn id l).refs = st.refs ++ [⟨id, fn⟩] := by
  simp [State.attach, State.refs, BasicBlock.ref]

@[simp] theorem refs_CreateEntryBlockAlloca (fn v : String) (st : State) :
    (CreateEntryBlockAlloca fn v st).refs = st.refs := by
  simp [CreateEntryBlockAlloca, State.refs, map_ref_insertAtEntry]

theorem refs_restoreDefs : ∀ (Def : List VarBindingAST) (tmp : List (Option Nat)) (st : State),
    (restoreDefs Def tmp st).refs = st.refs ∧ (restoreDefs Def tmp st).cursor = st.cursor
  | [], _, st => by simp [restoreDefs]
  | _ :: _, [], st => by simp [restoreDefs]
  | d :: ds, t :: ts, st => by
    simp only [restoreDefs]
    have := refs_restoreDefs ds ts (st.assign d.getName t)
    simpa using this

theorem Lands.of_same {st st' : State} (hr : st'.refs = st.refs) (hc : st'.cursor = st.cursor) :
    Lands 0 st st' :=
  ⟨[], by simp [hr], rfl, by simp [hc]⟩

theorem Lands.append {n m : Nat} {st s1 s2 : State} (h1 : Lands n st s1) (h2 : Lands m s1 s2) :
    Lands (n + m) st s2 := by
  obtain ⟨n1, e1, l1, c1⟩ := h1
  obtain ⟨n2, e2, l2, c2⟩ := h2
  refine ⟨n1 ++ n2, by rw [e2, e1, List.append_assoc], by simp [l1, l2], ?_⟩
  rw [c2, c1, List.getLast?_append, Option.or_assoc]

theorem Lands.cast {n m : Nat} {st st' : State} (h : Lands n st st') (e : n = m) :
    Lands m st st' := e ▸ h

/-- A step that attaches nothing and leaves the cursor alone, after a lowering. -/
theorem Lands.step {n : Nat} {st s st' : State} (h : Lands n st s) (hr : st'.refs = s.refs)
    (hc : st'.cursor = s.cursor) : Lands n st st' :=
  (h.append (Lands.of_same hr hc)).cast (by omega)

theorem Lands.grows {n : Nat} {st st' : State} (h : Lands n st st') : Grows n st st' := by
  obtain ⟨new, e, l, _⟩ := h
  exact ⟨new, e, l⟩

theorem Grows.of_same_refs {st st' : State} (hr : st'.refs = st.refs) : Grows 0 st st' :=
  ⟨[], by simp [hr], rfl⟩

theorem Grows.concat {n m : Nat} {st s1 s2 : State} (h1 : Grows n st s1) (h2 : Grows m s1 s2) :
    Grows (n + m) st s2 := by
  obtain ⟨n1, e1, l1⟩ := h1
  obtain ⟨n2, e2, l2⟩ := h2
  exact ⟨n1 ++ n2, by rw [e2, e1, List.append_assoc], by simp [l1, l2]⟩

/-- The end of a control-flow construct: whatever was attached before, a block is
attached and entered. -/
theorem Lands.of_grows_enter {n : Nat} {st s st' : State} (r : BlockRef) (h : Grows n st s)
    (hr : st'.refs = s.refs ++ [r]) (hc : st'.cursor = some r) : Lands (n + 1) st st' := by
  obtain ⟨new, e, l⟩ := h
  refine ⟨new ++ [r], by rw [hr, e, List.append_assoc], by simp [l], ?_⟩
  rw [hc, List.getLast?_append]
  simp

mutual
theorem ExprAST_codegen_lands : ∀ (e : ExprAST) (st : State) (v : Value) (st' : State),
    e.codegen st = some (some v, st') → Lands e.blockCount st st'
  | .number Val, st, v, st', h => by
    simp only [ExprAST.codegen] at h
    simp only [ExprAST.blockCount]
    cases h
    exact Lands.of_same rfl rfl
  | .var Name, st, v, st', h => by
    simp only [ExprAST.codegen] at h
    simp only [ExprAST.blockCount]
    split at h
    · cases h; exact Lands.of_same (by simp) (by simp)
    · split at h
      · cases h; exact Lands.of_same (by simp) (by simp)
      · cases h
  | .logical Op LHS RHS, st, v, st', h => by
    simp only [ExprAST.codegen] at h
    simp only [ExprAST.blockCount]
    split at h
    · cases h
    · rename_i L s1 hL
      split at h
      · rename_i hop
        split at h
        · cases h
        · rename_i Lv
          cases h
          have i1 := ExprAST_codegen_lands LHS st Lv s1 hL
          simp only [hop, if_true]
          exact i1.step (by simp) (by simp)
      · rename_i hop
        split at h
        · cases h
        · rename_i R s2 hR
          split at h
          · rename_i Lv Rv
            have i1 := ExprAST_codegen_lands LHS st Lv s1 hL
            have i2 := derefCodegen_lands RHS s1 Rv s2 hR
            simp only [hop, if_false]
            split at h
            · cases h; exact (i1.append i2).step (by simp) (by simp)
            · split at h
              · cases h; exact (i1.append i2).step (by simp) (by simp)
              · cases h
          · cases h
  | .binary Op LHS RHS, st, v, st', h => by
    simp only [ExprAST.codegen] at h
    simp only [ExprAST.blockCount]
    split at h
    · cases h
    · rename_i L s1 hL
      split at h
      · cases h
      · rename_i R s2 hR
        split at h
        · rename_i Lv Rv
          have i1 := ExprAST_codegen_lands LHS st Lv s1 hL
          have i2 := ExprAST_codegen_lands RHS s1 Rv s2 hR
          split at h
          · split at h
            · cases h; exact i1.append i2
            · cases h; exact (i1.append i2).step (by simp) (by simp)
          · cases h
        · cases h
  | .call Callee Args, st, v, st', h => by
    simp only [ExprAST.codegen] at h
    simp only [ExprAST.blockCount]
    split at h
    · cases h
    · split at h
      · cases h
      · split at h
        · cases h
        · cases h
        · rename_i ArgsV s1 hA
          cases h
          exact (codegenList_lands Args st ArgsV s1 hA).step (by simp) (by simp)
  | .ifExpr Cond TrueExp FalseExp, st, v, st', h => by
    simp only [ExprAST.codegen] at h
    simp only [ExprAST.blockCount]
    split at h
    · cases h
    · cases h
    · rename_i CondV s1 hC
      have i1 := (ExprAST_codegen_lands Cond st CondV s1 hC).grows
      split at h
      · cases h
      · rename_i cur hcur
        split at h
        · cases h
        · cases h
        · rename_i TrueV s3 hT
          have i2 := (ExprAST_codegen_lands TrueExp _ TrueV s3 hT).grows
          split at h
          · cases h
          · split at h
            · cases h
            · cases h
            · rename_i FalseV s6 hF
              have i3 := (ExprAST_codegen_lands FalseExp _ FalseV s6 hF).grows
              split at h
              · cases h
              · cases h
                have g2 : Grows 1 s1 ((((s1.reserve 3).attach cur.parent s1.nextId
                    "trueexp").insert (Instr.condBr CondV s1.nextId
                    (s1.nextId + 1))).SetInsertPoint ⟨s1.nextId, cur.parent⟩) :=
                  ⟨[⟨s1.nextId, cur.parent⟩], by simp, rfl⟩
                have g5 : Grows 1 s3 (((s3.insert (Instr.br (s1.nextId + 2))).attach cur.parent
                    (s1.nextId + 1) "falseexp").SetInsertPoint ⟨s1.nextId + 1, cur.parent⟩) :=
                  ⟨[⟨s1.nextId + 1, cur.parent⟩], by simp, rfl⟩
                have g7 : Grows 0 s6 (s6.insert (Instr.br (s1.nextId + 2))) :=
                  Grows.of_same_refs (by simp)
                have g := ((((i1.concat g2).concat i2).concat g5).concat i3).concat g7
                exact (Lands.of_grows_enter ⟨s1.nextId + 2, cur.parent⟩ g (by simp)
                  (by simp)).cast (by omega)
  | .forExpr StartExp Cond StepExp BlockExp, st, v, st', h => by
    simp only [ExprAST.codegen] at h
    simp only [ExprAST.blockCount]
    split at h
    · cases h
    · rename_i cur hcur
      split at h
      · cases h
      · cases h
      · rename_i outer s1 hI
        have i1 := (ForInit_codegen_lands StartExp _ st outer s1 hI).grows
        split at h
        · cases h
        · cases h
        · rename_i EndV s3 hC
          have i3 := (ExprAST_codegen_lands Cond _ EndV s3 hC).grows
          split at h
          · cases h
          · cases h
          · rename_i bv s5 hB
            have i5 := (ExprAST_codegen_lands BlockExp _ bv s5 hB).grows
            split at h
            · cases h
            · cases h
            · rename_i sv s6 hS
              have i6 := (stepCodegen_lands StepExp s5 sv s6 hS).grows
              split at h
              · cases h
              · cases h
              · rename_i EndV2 s7 hC2
                have i7 := (ExprAST_codegen_lands Cond s6 EndV2 s7 hC2).grows
                have g2 : Grows 1 s1 ((s1.reserve 2).attach cur.parent s1.nextId "loop") :=
                  ⟨[⟨s1.nextId, cur.parent⟩], by simp, rfl⟩
                have g4 : Grows 0 s3 ((s3.insert (Instr.condBr EndV s1.nextId
                    (s1.nextId + 1))).SetInsertPoint ⟨s1.nextId, cur.parent⟩) :=
                  Grows.of_same_refs (by simp)
                have g8 : Grows 0 s7 (s7.insert (Instr.condBr EndV2 s1.nextId
                    (s1.nextId + 1))) :=
                  Grows.of_same_refs (by simp)
                have g := ((((((i1.concat g2).concat i3).concat g4).concat i5).concat i6).concat
                  i7).concat g8
                split at h
                · cases h
                · split at h
                  · cases h
                    exact (Lands.of_grows_enter ⟨s1.nextId + 1, cur.parent⟩ g (by simp)
                      (by simp)).cast (by omega)
                  · cases h
                    exact (Lands.of_grows_enter ⟨s1.nextId + 1, cur.parent⟩ g (by simp)
                      (by simp)).cast (by omega)
  | .block Def Val, st, v, st', h => by
    simp only [ExprAST.codegen] at h
    simp only [ExprAST.blockCount]
    split at h
    · cases h
    · cases h
    · rename_i tmp s1 hD
      have i1 := codegenDefs_lands Def st tmp s1 hD
      split at h
      · cases h
      · cases h
      · rename_i vals s2 hV
        have i2 := codegenList_lands Val s1 vals s2 hV
        split at h
        · cases h
        · cases h
          exact (i1.append i2).step (refs_restoreDefs _ _ _).1 (refs_restoreDefs _ _ _).2
  | .assignment a, st, v, st', h => by
    simp only [ExprAST.codegen] at h
    simp only [ExprAST.blockCount]
    exact AssignmentAST_codegen_lands a st v st' h
theorem derefCodegen_lands : ∀ (e : Option ExprAST) (st : State) (v : Value) (st' : State),
    derefCodegen e st = some (some v, st') → Lands (blockCountOpt e) st st'
  | none, st, v, st', h => by
    simp only [derefCodegen] at h
    cases h
  | some e, st, v, st', h => by
    simp only [derefCodegen] at h
    simp only [blockCountOpt]
    exact ExprAST_codegen_lands e st v st' h
theorem ForInit_codegen_lands : ∀ (i : ForInit) (fn : String) (st : State)
    (outer : Option (String × Option Nat)) (st' : State),
    i.codegen fn st = some (some outer, st') → Lands i.blockCount st st'
  | .binding b, fn, st, outer, st', h => by
    simp only [ForInit.codegen] at h
    simp only [ForInit.blockCount]
    split at h
    · cases h
    · cases h
    · rename_i Alloca s1 hB
      cases h
      exact (VarBindingAST_codegen_lands b st Alloca s1 hB).step (by simp) (by simp)
  | .assign a, fn, st, outer, st', h => by
    simp only [ForInit.codegen] at h
    simp only [ForInit.blockCount]
    split at h
    · cases h
    · cases h
    · rename_i Var s1 hA
      cases h
      have i0 : Lands 0 st (CreateEntryBlockAlloca fn a.getName st) :=
        Lands.of_same (by simp) (by simp)
      exact ((i0.append (AssignmentAST_codegen_lands a _ Var s1 hA)).step (by simp)
        (by simp)).cast (by omega)
theorem stepCodegen_lands : ∀ (e : Option AssignmentAST) (st : State) (v : Value)
    (st' : State), stepCodegen e st = some (some v, st') → Lands (blockCountStep e) st st'
  | none, st, v, st', h => by
    simp only [stepCodegen] at h
    simp only [blockCountStep]
    cases h
    exact Lands.of_same rfl rfl
  | some a, st, v, st', h => by
    simp only [stepCodegen] at h
    simp only [blockCountStep]
    exact AssignmentAST_codegen_lands a st v st' h
theorem VarBindingAST_codegen_lands : ∀ (d : VarBindingAST) (st : State) (slot : Nat)
    (st' : State), d.codegen st = some (some slot, st') → Lands d.blockCount st st'
  | .mk Name Val, st, slot, st', h => by
    simp only [VarBindingAST.codegen] at h
    simp only [VarBindingAST.blockCount]
    split at h
    · cases h
    · split at h
      · cases h
      · cases h
      · rename_i BoundVal s1 hV
        cases h
        exact (ExprAST_codegen_lands Val st BoundVal s1 hV).step (by simp) (by simp)
theorem AssignmentAST_codegen_lands : ∀ (a : AssignmentAST) (st : State) (v : Value)
    (st' : State), a.codegen st = some (some v, st') → Lands a.blockCount st st'
  | .mk VName VValue, st, v, st', h => by
    simp only [AssignmentAST.codegen] at h
    simp only [AssignmentAST.blockCount]
    split at h
    · cases h
    · split at h
      · cases h
      · cases h
      · rename_i w s2 hV
        have i0 : Lands 0 st (st.subscript VName) := Lands.of_same (by simp) (by simp)
        have i1 := i0.append (ExprAST_codegen_lands VValue _ w s2 hV)
        cases h
        exact (i1.step (by simp) (by simp)).cast (by omega)
theorem codegenList_lands : ∀ (es : List ExprAST) (st : State) (vs : List Value)
    (st' : State), codegenList es st = some (some vs, st') → Lands (blockCountList es) st st'
  | [], st, vs, st', h => by
    simp only [codegenList] at h
    simp only [blockCountList]
    cases h
    exact Lands.of_same rfl rfl
  | e :: es, st, vs, st', h => by
    simp only [codegenList] at h
    simp only [blockCountList]
    split at h
    · cases h
    · cases h
    · rename_i w s1 hE
      split at h
      · cases h
      · cases h
      · rename_i ws s2 hR
        cases h
        exact (ExprAST_codegen_lands e st w s1 hE).append (codegenList_lands es s1 ws _ hR)
theorem codegenDefs_lands : ∀ (ds : List VarBindingAST) (st : State)
    (tmp : List (Option Nat)) (st' : State),
    codegenDefs ds st = some (some tmp, st') → Lands (blockCountDefs ds) st st'
  | [], st, tmp, st', h => by
    simp only [codegenDefs] at h
    simp only [blockCountDefs]
    cases h
    exact Lands.of_same rfl rfl
  | d :: ds, st, tmp, st', h => by
    simp only [codegenDefs] at h
    simp only [blockCountDefs]
    split at h
    · cases h
    · cases h
    · rename_i boundval s1 hE
      split at h
      · cases h
      · cases h
      · rename_i tmp2 s2 hR
        cases h
        have i1 := VarBindingAST_codegen_lands d st boundval s1 hE
        have i2 : Lands 0 s1 (s1.assign d.getName (some boundval)) :=
          Lands.of_same (by simp) (by simp)
        exact ((i1.append i2).append (codegenDefs_lands ds _ tmp2 _ hR)).cast (by omega)
end

/-! ## The shape of a successful conditional and of a successful loop -/

theorem blockInstrs_insert_cursor (st : State) (i : Instr) (c : BlockRef) (l : List Instr)
    (hc : st.cursor = some c) (hl : blockInstrs st.blocks c.id = some l) :
    blockInstrs (st.insert i).blocks c.id = some (l ++ [i]) := by
  rw [State.blocks_insert_of_cursor _ _ _ hc, blockInstrs_appendAt]
  simp [hl]

theorem blockInstrs_insert_other (st : State) (i : Instr) (c : BlockRef) (k : Nat)
    (hc : st.cursor = some c) (hk : k ≠ c.id) :
    blockInstrs (st.insert i).blocks k = blockInstrs st.blocks k := by
  rw [State.blocks_insert_of_cursor _ _ _ hc, blockInstrs_appendAt]
  simp [hk]

/-- The sub-lowerings of a `for` that lowers successfully, and the state it returns. -/
theorem ForExprAST_codegen_success_inv (StartExp : ForInit) (Cond : ExprAST)
    (StepExp : Option AssignmentAST) (BlockExp : ExprAST) (st st' : State) (v : Value)
    (h : (ExprAST.forExpr StartExp Cond StepExp BlockExp).codegen st = some (some v, st')) :
    ∃ cur outer s1 EndV s3 bv s5 sv s6 EndV2 s7 name,
      st.cursor = some cur ∧
      StartExp.codegen cur.parent st = some (some outer, s1) ∧
      Cond.codegen (ForExprAST.condEntry s1 cur.parent) = some (some EndV, s3) ∧
      BlockExp.codegen (ForExprAST.bodyEntry s1 cur.parent s3 EndV) = some (some bv, s5) ∧
      stepCodegen StepExp s5 = some (some sv, s6) ∧
      Cond.codegen s6 = some (some EndV2, s7) ∧
      v = Value.constFP 0 ∧
      ((∃ old, st' = (ForExprAST.afterEntry s1 cur.parent s7 EndV2).assign name (some old)) ∨
        st' = (ForExprAST.afterEntry s1 cur.parent s7 EndV2).erase name) := by
  simp only [ExprAST.codegen] at h
  split at h
  · cases h
  · rename_i cur hcur
    split at h
    · cases h
    · cases h
    · rename_i outer s1 hI
      split at h
      · cases h
      · cases h
      · rename_i EndV s3 hC
        split at h
        · cases h
        · cases h
        · rename_i bv s5 hB
          split at h
          · cases h
          · cases h
          · rename_i sv s6 hS
            split at h
            · cases h
            · cases h
            · rename_i EndV2 s7 hC2
              split at h
              · cases h
              · rename_i name AllocaTmp
                refine ⟨cur, _, s1, EndV, s3, bv, s5, sv, s6, EndV2, s7, name, hcur, hI, hC,
                  hB, hS, hC2, ?_⟩
                split at h
                · rename_i old
                  cases h
                  exact ⟨rfl, Or.inl ⟨old, rfl⟩⟩
                · cases h
                  exact ⟨rfl, Or.inr rfl⟩

/-- The sub-lowerings of an `If` that lowers successfully, and the state it returns. -/
theorem IfExprAST_codegen_success_inv (Cond TrueExp FalseExp : ExprAST) (st st' : State)
    (v : Value) (h : (ExprAST.ifExpr Cond TrueExp FalseExp).codegen st = some (some v, st')) :
    ∃ CondV s1 cur TrueV s3 Bt FalseV s6 Bf,
      Cond.codegen st = some (some CondV, s1) ∧ s1.cursor = some cur ∧
      TrueExp.codegen (IfExprAST.thenEntry s1 cur CondV) = some (some TrueV, s3) ∧
      s3.cursor = some Bt ∧
      FalseExp.codegen (IfExprAST.elseEntry s1 cur s3) = some (some FalseV, s6) ∧
      s6.cursor = some Bf ∧
      st' = ((((s6.insert (Instr.br (s1.nextId + 2))).attach cur.parent (s1.nextId + 2)
          "endcond").SetInsertPoint ⟨s1.nextId + 2, cur.parent⟩).emit
        (fun id => Instr.phi id [(TrueV, Bt.id), (FalseV, Bf.id)])) := by
  simp only [ExprAST.codegen] at h
  split at h
  · cases h
  · cases h
  · rename_i CondV s1 hC
    split at h
    · cases h
    · rename_i cur hcur
      split at h
      · cases h
      · cases h
      · rename_i TrueV s3 hT
        split at h
        · cases h
        · rename_i Bt hBt
          split at h
          · cases h
          · cases h
          · rename_i FalseV s6 hF
            split at h
            · cases h
            · rename_i Bf hBf
              simp only [State.cursor_insert] at hBt hBf
              cases h
              exact ⟨CondV, s1, cur, TrueV, s3, Bt, FalseV, s6, Bf, hC, hcur, hT, hBt, hF, hBf,
                rfl⟩

/-! ## The two lowerings of the condition of a loop (C12) -/

/-- C12 (counterexample). The loop `forBranchingCond` lowers successfully in `f`. The
cursor is in the entry block 0 after the init, and the loop-body and after-loop blocks
are 3 and 4. Block 0 does not end with the conditional branch on the first value of
the condition (instruction 11): it ends with the branch of the conditional inside
the condition, and the branch on instruction 11 to blocks 3 and 4 ends block 8, the
block the cursor is in after the first lowering of the condition. -/
theorem ForExprAST_codegen_cond_moves_cursor :
    ((ForInit.binding (VarBindingAST.mk "i" (ExprAST.number lit0))).codegen "f" inF).map
      (fun r => (r.2.cursor, r.2.nextId)) = some (some ⟨0, "f"⟩, 3) ∧
    (forBranchingCond.codegen inF).map
        (fun r => (r.1, (blockInstrs r.2.blocks 0).map List.getLast?,
          (blockInstrs r.2.blocks 8).map List.getLast?)) =
      some (some (Value.constFP 0), some (some (Instr.condBr (Value.inst 5) 6 7)),
        some (some (Instr.condBr (Value.inst 11) 3 4))) := by
  decide

/-- C12 (amended). When a `for` lowers successfully from a well-formed state whose
cursor block is attached (as in every state of the lowering of a function body), `Cond`
is lowered exactly twice. The first lowering starts in the state the init left, with
`LoopBB` attached and the cursor still in the block it was in after the init; the block
`B1` the cursor is in after that lowering, which is the block the cursor was in after
the init when `Cond` attaches no block, ends with the conditional branch on the first
value to `LoopBB` and `AfterBB`. The second lowering comes after `BlockExp` and the
step, lowered from the beginning of `LoopBB`; the block `B2` the cursor is in after it
ends with the conditional branch on the second value to the same `LoopBB` and
`AfterBB`. The cursor ends in `AfterBB`, which is attached and empty. -/
theorem ForExprAST_codegen_cond_twice (StartExp : ForInit) (Cond : ExprAST)
    (StepExp : Option AssignmentAST) (BlockExp : ExprAST) (st st' : State) (v : Value)
    (cur : BlockRef) (hwf : st.WellFormed) (hcur : st.cursor = some cur)
    (hatt : (blockInstrs st.blocks cur.id).isSome)
    (h : (ExprAST.forExpr StartExp Cond StepExp BlockExp).codegen st = some (some v, st')) :
    ∃ outer s1 EndV s3 B1 bv s5 sv s6 EndV2 s7 B2,
      StartExp.codegen cur.parent st = some (some outer, s1) ∧
      (ForExprAST.condEntry s1 cur.parent).cursor = s1.cursor ∧
      Cond.codegen (ForExprAST.condEntry s1 cur.parent) = some (some EndV, s3) ∧
      s3.cursor = some B1 ∧
      (Cond.blockCount = 0 → s3.cursor = s1.cursor) ∧
      (ForExprAST.bodyEntry s1 cur.parent s3 EndV).cursor = some ⟨s1.nextId, cur.parent⟩ ∧
      BlockExp.codegen (ForExprAST.bodyEntry s1 cur.parent s3 EndV) = some (some bv, s5) ∧
      stepCodegen StepExp s5 = some (some sv, s6) ∧
      Cond.codegen s6 = some (some EndV2, s7) ∧
      s7.cursor = some B2 ∧
      (∃ l, blockInstrs st'.blocks B1.id =
        some (l ++ [Instr.condBr EndV s1.nextId (s1.nextId + 1)])) ∧
      (∃ l, blockInstrs st'.blocks B2.id =
        some (l ++ [Instr.condBr EndV2 s1.nextId (s1.nextId + 1)])) ∧
      st'.cursor = some ⟨s1.nextId + 1, cur.parent⟩ ∧
      blockInstrs st'.blocks (s1.nextId + 1) = some [] := by
  obtain ⟨cur', outer, s1, EndV, s3, bv, s5, sv, s6, EndV2, s7, name, hcur', hI, hC, hB, hS,
    hC2, -, hst⟩ := ForExprAST_codegen_success_inv StartExp Cond StepExp BlockExp st st' v h
  rw [hcur] at hcur'; cases hcur'
  -- the init
  have kI := ForInit_codegen_steps StartExp _ st _ _ hI
  have hw1 := (State.wellFormed_iff s1).mp (kI.wellFormed hwf)
  obtain ⟨c1, hc1, hp1, -⟩ := kI.cursor_some cur hcur
  have a1 := kI.attached cur c1 hcur hc1 hatt
  have lt1 : c1.id < s1.nextId := hw1 _ ((blockInstrs_isSome _ _).mp a1)
  -- the first lowering of the condition
  have kC := ExprAST_codegen_steps Cond _ _ _ hC
  have hc2 : (ForExprAST.condEntry s1 cur.parent).cursor = some c1 := by
    simp [ForExprAST.condEntry, hc1]
  obtain ⟨B1, hB1, -, hi1⟩ := kC.cursor_some c1 hc2
  have n3 := kC.nextId_le
  obtain ⟨newc, hidc, hbc⟩ := kC.ids
  simp only [ForExprAST.condEntry, State.nextId_attach, State.nextId_reserve,
    State.ids_attach, State.blocks_reserve] at hi1 n3 hidc hbc
  have a2 : (blockInstrs (ForExprAST.condEntry s1 cur.parent).blocks c1.id).isSome := by
    obtain ⟨l, hl⟩ := Option.isSome_iff_exists.mp a1
    simp only [ForExprAST.condEntry, State.attach, State.blocks_reserve]
    rw [blockInstrs_append_of_some _ _ _ _ hl]; rfl
  have a3 := kC.attached c1 B1 hc2 hB1 a2
  obtain ⟨l1, hl1⟩ := Option.isSome_iff_exists.mp a3
  -- the state in which the body is lowered
  have hc4 : (ForExprAST.bodyEntry s1 cur.parent s3 EndV).cursor =
      some ⟨s1.nextId, cur.parent⟩ := by
    simp [ForExprAST.bodyEntry]
  have hn4 : (ForExprAST.bodyEntry s1 cur.parent s3 EndV).nextId = s3.nextId := by
    simp [ForExprAST.bodyEntry]
  have hid4 : (ForExprAST.bodyEntry s1 cur.parent s3 EndV).blocks.map (fun x => x.id) =
      s3.blocks.map (fun x => x.id) := by
    simp [ForExprAST.bodyEntry, State.ids_insert]
  have hl4 : blockInstrs (ForExprAST.bodyEntry s1 cur.parent s3 EndV).blocks B1.id =
      some (l1 ++ [Instr.condBr EndV s1.nextId (s1.nextId + 1)]) := by
    simp only [ForExprAST.bodyEntry, State.blocks_SetInsertPoint]
    exact blockInstrs_insert_cursor _ _ _ _ hB1 hl1
  have a4 : (blockInstrs (ForExprAST.bodyEntry s1 cur.parent s3 EndV).blocks
      s1.nextId).isSome := by
    rw [blockInstrs_isSome, hid4, hidc]
    simp
  -- body, step and second lowering of the condition
  have kB := ExprAST_codegen_steps BlockExp _ _ _ hB
  have kS := stepCodegen_steps StepExp _ _ _ hS
  have kC2 := ExprAST_codegen_steps Cond _ _ _ hC2
  have k47 := (kB.trans kS kB.nextId_le).trans kC2 (Nat.le_trans kB.nextId_le kS.nextId_le)
  have n7 := k47.nextId_le
  obtain ⟨B2, hB2, -, hi2⟩ := k47.cursor_some _ hc4
  obtain ⟨new7, hid7, hb7⟩ := k47.ids
  rw [hn4] at hi2 n7 hb7
  rw [hid4, hidc] at hid7
  have hne : B1.id ≠ B2.id := by
    show ¬ B1.id = B2.id
    simp only at hi2
    omega
  obtain ⟨pre7, hpre7⟩ := k47.frame B1.id _ (by rw [hn4]; omega)
    (by
      intro c hc
      rw [hc4] at hc; cases hc
      show ¬ s1.nextId = B1.id
      omega) hl4
  have a7 := k47.attached _ B2 hc4 hB2 a4
  obtain ⟨l2, hl2⟩ := Option.isSome_iff_exists.mp a7
  -- the after-loop block is new
  have hA : blockInstrs (s7.insert (Instr.condBr EndV2 s1.nextId (s1.nextId + 1))).blocks
      (s1.nextId + 1) = none := by
    rw [blockInstrs_eq_none, State.ids_insert, hid7]
    simp only [List.mem_append, List.mem_singleton, not_or]
    refine ⟨⟨⟨?_, by omega⟩, ?_⟩, ?_⟩
    · intro hk; have := hw1 _ hk; omega
    · intro hk; have := hbc _ hk; omega
    · intro hk; have := hb7 _ hk; omega
  have h8B1 : blockInstrs (ForExprAST.afterEntry s1 cur.parent s7 EndV2).blocks B1.id =
      some (pre7 ++ (l1 ++ [Instr.condBr EndV s1.nextId (s1.nextId + 1)])) := by
    simp only [ForExprAST.afterEntry, State.blocks_SetInsertPoint, State.attach]
    apply blockInstrs_append_of_some
    rw [blockInstrs_insert_other _ _ _ _ hB2 hne]
    exact hpre7
  have h8B2 : blockInstrs (ForExprAST.afterEntry s1 cur.parent s7 EndV2).blocks B2.id =
      some (l2 ++ [Instr.condBr EndV2 s1.nextId (s1.nextId + 1)]) := by
    simp only [ForExprAST.afterEntry, State.blocks_SetInsertPoint, State.attach]
    apply blockInstrs_append_of_some
    exact blockInstrs_insert_cursor _ _ _ _ hB2 hl2
  have h8A : blockInstrs (ForExprAST.afterEntry s1 cur.parent s7 EndV2).blocks
      (s1.nextId + 1) = some [] := by
    simp only [ForExprAST.afterEntry, State.blocks_SetInsertPoint, State.attach]
    rw [blockInstrs_append_of_none _ _ _ hA]
    simp [blockInstrs]
  have hblocks : st'.blocks = (ForExprAST.afterEntry s1 cur.parent s7 EndV2).blocks := by
    rcases hst with ⟨old, rfl⟩ | rfl <;> rfl
  have hcursor : st'.cursor = some ⟨s1.nextId + 1, cur.parent⟩ := by
    rcases hst with ⟨old, rfl⟩ | rfl <;> rfl
  refine ⟨outer, s1, EndV, s3, B1, bv, s5, sv, s6, EndV2, s7, B2, hI, ?_, hC, hB1, ?_, hc4, hB,
    hS, hC2, hB2, ⟨pre7 ++ l1, ?_⟩, ⟨l2, ?_⟩, hcursor, ?_⟩
  · simp [ForExprAST.condEntry]
  · intro h0
    obtain ⟨new, -, hlen, hc⟩ := ExprAST_codegen_lands Cond _ _ _ hC
    rw [h0] at hlen
    have : new = [] := List.length_eq_zero.mp hlen
    subst this
    rw [hc]
    simp [ForExprAST.condEntry]
  · rw [hblocks, h8B1, List.append_assoc]
  · rw [hblocks, h8B2]
  · rw [hblocks, h8A]

theorem ForExprAST_codegen_cond_twice_witness :
    inF.WellFormed ∧ inF.cursor = some ⟨0, "f"⟩ ∧ (blockInstrs inF.blocks 0).isSome ∧
    forBinding.codegen inF = some (some (Value.constFP 0), afterForBinding) ∧
    (blockInstrs afterForBinding.blocks 0).map List.getLast? =
      some (some (Instr.condBr (Value.inst 6) 3 4)) ∧
    (blockInstrs afterForBinding.blocks 3).map List.getLast? =
      some (some (Instr.condBr (Value.inst 10) 3 4)) ∧
    ∃ outer s1 EndV s3 B1 bv s5 sv s6 EndV2 s7 B2,
      (ForInit.binding (VarBindingAST.mk "i" (ExprAST.number lit0))).codegen "f" inF =
        some (some outer, s1) ∧
      (ForExprAST.condEntry s1 "f").cursor = s1.cursor ∧
      (ExprAST.binary '<' (ExprAST.var "i") (ExprAST.number lit3)).codegen
        (ForExprAST.condEntry s1 "f") = some (some EndV, s3) ∧
      s3.cursor = some B1 ∧
      ((ExprAST.binary '<' (ExprAST.var "i") (ExprAST.number lit3)).blockCount = 0 →
        s3.cursor = s1.cursor) ∧
      (ForExprAST.bodyEntry s1 "f" s3 EndV).cursor = some ⟨s1.nextId, "f"⟩ ∧
      (ExprAST.assignment (AssignmentAST.mk "i"
        (ExprAST.binary '+' (ExprAST.var "i") (ExprAST.number lit1)))).codegen
        (ForExprAST.bodyEntry s1 "f" s3 EndV) = some (some bv, s5) ∧
      stepCodegen none s5 = some (some sv, s6) ∧
      (ExprAST.binary '<' (ExprAST.var "i") (ExprAST.number lit3)).codegen s6 =
        some (some EndV2, s7) ∧
      s7.cursor = some B2 ∧
      (∃ l, blockInstrs afterForBinding.blocks B1.id =
        some (l ++ [Instr.condBr EndV s1.nextId (s1.nextId + 1)])) ∧
      (∃ l, blockInstrs afterForBinding.blocks B2.id =
        some (l ++ [Instr.condBr EndV2 s1.nextId (s1.nextId + 1)])) ∧
      afterForBinding.cursor = some ⟨s1.nextId + 1, "f"⟩ ∧
      blockInstrs afterForBinding.blocks (s1.nextId + 1) = some [] :=
  ⟨by decide, by decide, by decide, by decide, by decide, by decide,
    ForExprAST_codegen_cond_twice
      (ForInit.binding (VarBindingAST.mk "i" (ExprAST.number lit0)))
      (ExprAST.binary '<' (ExprAST.var "i") (ExprAST.number lit3)) none
      (ExprAST.assignment (AssignmentAST.mk "i"
        (ExprAST.binary '+' (ExprAST.var "i") (ExprAST.number lit1))))
      inF afterForBinding (Value.constFP 0) ⟨0, "f"⟩ (by decide) (by decide) (by decide)
      (by decide)⟩

/-! ## Neighbours in the block order of a function -/

theorem State.order_eq (st : State) (fn : String) :
    st.order fn = (st.refs.filter (fun r => r.parent = fn)).map (fun r => r.id) := by
  unfold State.order State.refs
  induction st.blocks with
  | nil => rfl
  | cons b bs ih =>
    simp only [List.filter_cons, List.map_cons, BasicBlock.ref]
    by_cases hb : b.parent = fn
    · simp only [hb, decide_True, if_true, List.map_cons]
      rw [← ih]
    · simp only [hb, decide_False, Bool.false_eq_true, if_false]
      rw [← ih]

theorem immediatelyFollows_of_eq (a b : Nat) (post : List Nat) :
    ∀ (pre l : List Nat), l = pre ++ a :: b :: post → immediatelyFollows l a b = true
  | [], l, h => by
    subst h
    simp [immediatelyFollows]
  | [x], l, h => by
    subst h
    have := immediatelyFollows_of_eq a b post [] (a :: b :: post) rfl
    simp [immediatelyFollows, this]
  | x :: y :: pre, l, h => by
    subst h
    have := immediatelyFollows_of_eq a b post (y :: pre) _ rfl
    simp only [List.cons_append] at this ⊢
    simp [immediatelyFollows, this]

/-- Two blocks of `fn` attached one right after the other are neighbours in the block
order of `fn`, and stay so when blocks are attached later. -/
theorem State.order_adjacent (st : State) (fn : String) (pre post : List BlockRef)
    (a b : BlockRef) (h : st.refs = pre ++ a :: b :: post) (ha : a.parent = fn)
    (hb : b.parent = fn) : immediatelyFollows (st.order fn) a.id b.id = true := by
  rw [State.order_eq, h]
  apply immediatelyFollows_of_eq a.id b.id
    ((post.filter (fun r => r.parent = fn)).map (fun r => r.id))
    ((pre.filter (fun r => r.parent = fn)).map (fun r => r.id))
  simp [List.filter_cons, ha, hb]

/-- When the cursor is in the last attached block before a successful lowering, it is
in the last attached block after it. -/
theorem Lands.refs_getLast {n : Nat} {st st' : State} (h : Lands n st st')
    (hl : st.refs.getLast? = st.cursor) : st'.refs.getLast? = st'.cursor := by
  obtain ⟨new, e, -, c⟩ := h
  rw [e, c, List.getLast?_append, hl]

/-! ## Block identities are unique -/

theorem State.UniqueIds.same {st st' : State} (h : st.UniqueIds)
    (hid : st'.blocks.map (fun x => x.id) = st.blocks.map (fun x => x.id))
    (hn : st.nextId ≤ st'.nextId) : st'.UniqueIds := by
  refine ⟨(State.wellFormed_iff st').mpr ?_, by rw [hid]; exact h.2⟩
  intro k hk
  rw [hid] at hk
  have := (State.wellFormed_iff st).mp h.1 k hk
  omega

theorem State.UniqueIds.after_attach {st : State} (h : st.UniqueIds) (fn : String) (k : Nat)
    (l : String) (hk : k ∉ st.blocks.map (fun x => x.id)) (hlt : k < st.nextId) :
    (st.attach fn k l).UniqueIds := by
  refine ⟨(State.wellFormed_iff _).mpr ?_, ?_⟩
  · intro j hj
    rw [State.ids_attach] at hj
    rcases List.mem_append.mp hj with hj | hj
    · exact (State.wellFormed_iff st).mp h.1 j hj
    · simp only [List.mem_singleton] at hj
      subst hj
      exact hlt
  · rw [State.ids_attach]
    refine List.nodup_append.mpr ⟨h.2, List.nodup_singleton k, ?_⟩
    intro a ha hb
    simp only [List.mem_singleton] at hb
    subst hb
    exact hk ha

theorem State.UniqueIds.after_insert {st : State} (h : st.UniqueIds) (i : Instr) :
    (st.insert i).UniqueIds :=
  h.same (State.ids_insert st i) (by simp)

theorem State.UniqueIds.after_reserve {st : State} (h : st.UniqueIds) (k : Nat) :
    (st.reserve k).UniqueIds :=
  h.same rfl (by simp)

theorem State.UniqueIds.after_emit {st : State} (h : st.UniqueIds) (mk : Nat → Instr) :
    (st.emit mk).UniqueIds :=
  (h.after_insert _).after_reserve 1

theorem State.UniqueIds.after_subscript {st : State} (h : st.UniqueIds) (n : String) :
    (st.subscript n).UniqueIds :=
  h.same rfl (Nat.le_refl _)

theorem State.UniqueIds.after_assign {st : State} (h : st.UniqueIds) (n : String) (v : Option Nat) :
    (st.assign n v).UniqueIds :=
  h.same rfl (Nat.le_refl _)

theorem State.UniqueIds.after_erase {st : State} (h : st.UniqueIds) (n : String) :
    (st.erase n).UniqueIds :=
  h.same rfl (Nat.le_refl _)

theorem State.UniqueIds.after_print {st : State} (h : st.UniqueIds) (o : Output) :
    (st.print o).UniqueIds :=
  h.same rfl (Nat.le_refl _)

theorem State.UniqueIds.after_logError {st : State} (h : st.UniqueIds) (s : String) :
    (LogErrorV st s).UniqueIds :=
  h.after_print _

theorem State.UniqueIds.after_setInsertPoint {st : State} (h : st.UniqueIds) (c : BlockRef) :
    (st.SetInsertPoint c).UniqueIds :=
  h.same rfl (Nat.le_refl _)

theorem State.UniqueIds.after_entryAlloca {st : State} (h : st.UniqueIds) (fn v : String) :
    (CreateEntryBlockAlloca fn v st).UniqueIds :=
  h.same (by simp [CreateEntryBlockAlloca, map_id_insertAtEntry]) (by simp)

theorem State.UniqueIds.after_restoreDefs : ∀ (Def : List VarBindingAST) (tmp : List (Option Nat))
    (st : State), st.UniqueIds → (restoreDefs Def tmp st).UniqueIds
  | [], _, st, h => by simpa [Kaleidoscope.restoreDefs] using h
  | _ :: _, [], st, h => by simpa [Kaleidoscope.restoreDefs] using h
  | d :: ds, t :: ts, st, h => by
    simp only [Kaleidoscope.restoreDefs]
    exact State.UniqueIds.after_restoreDefs ds ts _ (h.after_assign _ _)

theorem State.UniqueIds.fresh {st : State} (h : st.UniqueIds) (k : Nat) (hk : st.nextId ≤ k) :
    k ∉ st.blocks.map (fun x => x.id) := fun hm => by
  have := (State.wellFormed_iff st).mp h.1 k hm
  omega

theorem IfExprAST.thenEntry_uniqueIds {s1 : State} (h : s1.UniqueIds) (cur : BlockRef)
    (CondV : Value) : (IfExprAST.thenEntry s1 cur CondV).UniqueIds :=
  (((h.after_reserve 3).after_attach cur.parent s1.nextId "trueexp" (h.fresh _ (Nat.le_refl _))
    (by simp)).after_insert _).after_setInsertPoint _

/-- The identities of `FalseBB` and `MergeBB` are not attached while `TrueExp` is
lowered. -/
theorem IfExprAST.then_notMem {s1 s3 : State} {b : Nat} (cur : BlockRef) (CondV : Value)
    (h1 : s1.UniqueIds) (k : StepsFrom b (IfExprAST.thenEntry s1 cur CondV) s3)
    (hb : s1.nextId + 3 ≤ b) :
    s1.nextId + 3 ≤ s3.nextId ∧ s1.nextId + 1 ∉ s3.blocks.map (fun x => x.id) ∧
      s1.nextId + 2 ∉ s3.blocks.map (fun x => x.id) := by
  have n3 := k.nextId_le
  obtain ⟨new, hid, hnew⟩ := k.ids
  simp only [IfExprAST.thenEntry_nextId, IfExprAST.thenEntry_ids] at n3 hid
  have hw1 := (State.wellFormed_iff s1).mp h1.1
  refine ⟨n3, ?_, ?_⟩
  · rw [hid]
    simp only [List.mem_append, List.mem_singleton, not_or]
    refine ⟨⟨?_, by omega⟩, ?_⟩
    · intro hk; have := hw1 _ hk; omega
    · intro hk; have := hnew _ hk; omega
  · rw [hid]
    simp only [List.mem_append, List.mem_singleton, not_or]
    refine ⟨⟨?_, by omega⟩, ?_⟩
    · intro hk; have := hw1 _ hk; omega
    · intro hk; have := hnew _ hk; omega

theorem IfExprAST.elseEntry_uniqueIds {s1 s3 : State} {b : Nat} (cur : BlockRef) (CondV : Value)
    (h1 : s1.UniqueIds) (h3 : s3.UniqueIds)
    (k : StepsFrom b (IfExprAST.thenEntry s1 cur CondV) s3) (hb : s1.nextId + 3 ≤ b) :
    (IfExprAST.elseEntry s1 cur s3).UniqueIds := by
  obtain ⟨n3, m1, -⟩ := IfExprAST.then_notMem cur CondV h1 k hb
  exact ((h3.after_insert _).after_attach cur.parent (s1.nextId + 1) "falseexp"
    (by rw [State.ids_insert]; exact m1) (by simp; omega)).after_setInsertPoint _

/-- The identity of `MergeBB` is not attached while `FalseExp` is lowered. -/
theorem IfExprAST.else_notMem {s1 s3 s6 : State} {b b' : Nat} (cur : BlockRef) (CondV : Value)
    (h1 : s1.UniqueIds) (k : StepsFrom b (IfExprAST.thenEntry s1 cur CondV) s3)
    (hb : s1.nextId + 3 ≤ b) (k' : StepsFrom b' (IfExprAST.elseEntry s1 cur s3) s6)
    (hb' : s1.nextId + 3 ≤ b') :
    s1.nextId + 3 ≤ s6.nextId ∧ s1.nextId + 2 ∉ s6.blocks.map (fun x => x.id) := by
  obtain ⟨n3, -, m2⟩ := IfExprAST.then_notMem cur CondV h1 k hb
  have n6 := k'.nextId_le
  obtain ⟨new, hid, hnew⟩ := k'.ids
  simp only [IfExprAST.elseEntry_nextId, IfExprAST.elseEntry_ids] at n6 hid
  refine ⟨by omega, ?_⟩
  rw [hid]
  simp only [List.mem_append, List.mem_singleton, not_or]
  refine ⟨⟨m2, by omega⟩, ?_⟩
  intro hk; have := hnew _ hk; omega

theorem ForExprAST.condEntry_uniqueIds {s1 : State} (h : s1.UniqueIds) (fn : String) :
    (ForExprAST.condEntry s1 fn).UniqueIds :=
  (h.after_reserve 2).after_attach fn s1.nextId "loop" (h.fresh _ (Nat.le_refl _)) (by simp)

/-- The identity of `AfterBB` is not attached while the parts of the loop are lowered. -/
theorem ForExprAST.after_notMem {s1 s3 s7 : State} {b b' : Nat} (fn : String) (EndV : Value)
    (h1 : s1.UniqueIds) (k : StepsFrom b (ForExprAST.condEntry s1 fn) s3)
    (hb : s1.nextId + 2 ≤ b) (k' : StepsFrom b' (ForExprAST.bodyEntry s1 fn s3 EndV) s7)
    (hb' : s1.nextId + 2 ≤ b') :
    s1.nextId + 2 ≤ s7.nextId ∧ s1.nextId + 1 ∉ s7.blocks.map (fun x => x.id) := by
  have n3 := k.nextId_le
  obtain ⟨new, hid, hnew⟩ := k.ids
  have n7 := k'.nextId_le
  obtain ⟨new', hid', hnew'⟩ := k'.ids
  simp only [ForExprAST.condEntry, ForExprAST.bodyEntry, State.nextId_attach,
    State.nextId_reserve, State.ids_attach, State.blocks_reserve, State.ids_insert,
    State.blocks_SetInsertPoint, State.nextId_SetInsertPoint, State.nextId_insert]
    at n3 hid n7 hid'
  have hw1 := (State.wellFormed_iff s1).mp h1.1
  refine ⟨by omega, ?_⟩
  rw [hid', hid]
  simp only [List.mem_append, List.mem_singleton, not_or]
  refine ⟨⟨⟨?_, by omega⟩, ?_⟩, ?_⟩
  · intro hk; have := hw1 _ hk; omega
  · intro hk; have := hnew _ hk; omega
  · intro hk; have := hnew' _ hk; omega

mutual
theorem ExprAST_codegen_uniqueIds : ∀ (e : ExprAST) (st : State) (r : Option Value)
    (st' : State), e.codegen st = some (r, st') → st.UniqueIds → st'.UniqueIds
  | .number Val, st, r, st', h, hu => by
    simp only [ExprAST.codegen] at h
    cases h
    exact hu
  | .var Name, st, r, st', h, hu => by
    simp only [ExprAST.codegen] at h
    split at h
    · cases h
      exact (hu.after_subscript Name).after_emit _
    · split at h
      · cases h
        exact (hu.after_subscript Name).after_emit _
      · cases h
        exact (hu.after_subscript Name).after_logError _
  | .logical Op LHS RHS, st, r, st', h, hu => by
    simp only [ExprAST.codegen] at h
    split at h
    · cases h
    · rename_i L s1 hL
      have u1 := ExprAST_codegen_uniqueIds LHS st L s1 hL hu
      split at h
      · split at h
        · cases h
        · cases h
          exact u1.after_emit _
      · split at h
        · cases h
        · rename_i R s2 hR
          have u2 := derefCodegen_uniqueIds RHS s1 R s2 hR u1
          split at h
          · split at h
            · cases h
              exact u2.after_emit _
            · split at h
              · cases h
                exact u2.after_emit _
              · cases h
                exact (u2.after_print _).after_logError _
          · cases h
            exact u2
  | .binary Op LHS RHS, st, r, st', h, hu => by
    simp only [ExprAST.codegen] at h
    split at h
    · cases h
    · rename_i L s1 hL
      have u1 := ExprAST_codegen_uniqueIds LHS st L s1 hL hu
      split at h
      · cases h
      · rename_i R s2 hR
        have u2 := ExprAST_codegen_uniqueIds RHS s1 R s2 hR u1
        split at h
        · split at h
          · split at h
            · cases h
              exact u2
            · cases h
              exact u2.after_emit _
          · cases h
            exact (u2.after_print _).after_logError _
        · cases h
          exact u2
  | .call Callee Args, st, r, st', h, hu => by
    simp only [ExprAST.codegen] at h
    split at h
    · cases h
      exact hu.after_logError _
    · split at h
      · cases h
        exact hu.after_logError _
      · split at h
        · cases h
        · rename_i s1 hA
          cases h
          exact codegenList_uniqueIds Args st none _ hA hu
        · rename_i ArgsV s1 hA
          cases h
          exact (codegenList_uniqueIds Args st (some ArgsV) _ hA hu).after_emit _
  | .ifExpr Cond TrueExp FalseExp, st, r, st', h, hu => by
    simp only [ExprAST.codegen] at h
    split at h
    · cases h
    · rename_i s1 hC
      cases h
      exact ExprAST_codegen_uniqueIds Cond st none _ hC hu
    · rename_i CondV s1 hC
      have u1 := ExprAST_codegen_uniqueIds Cond st _ _ hC hu
      split at h
      · cases h
      · rename_i cur hcur
        have u2 := IfExprAST.thenEntry_uniqueIds u1 cur CondV
        split at h
        · cases h
        · rename_i s3 hT
          cases h
          exact ExprAST_codegen_uniqueIds TrueExp _ none _ hT u2
        · rename_i TrueV s3 hT
          have u3 := ExprAST_codegen_uniqueIds TrueExp _ _ _ hT u2
          have k3 : StepsFrom (IfExprAST.thenEntry s1 cur CondV).nextId
              (IfExprAST.thenEntry s1 cur CondV) s3 := ExprAST_codegen_steps TrueExp _ _ _ hT
          have u5 := IfExprAST.elseEntry_uniqueIds cur CondV u1 u3 k3 (by simp)
          have n3 := (IfExprAST.then_notMem cur CondV u1 k3 (by simp)).1
          split at h
          · cases h
          · split at h
            · cases h
            · rename_i s6 hF
              cases h
              exact ExprAST_codegen_uniqueIds FalseExp _ none _ hF u5
            · rename_i FalseV s6 hF
              have u6 := ExprAST_codegen_uniqueIds FalseExp _ _ _ hF u5
              have k6 : StepsFrom (IfExprAST.elseEntry s1 cur s3).nextId
                  (IfExprAST.elseEntry s1 cur s3) s6 := ExprAST_codegen_steps FalseExp _ _ _ hF
              obtain ⟨n6, m6⟩ := IfExprAST.else_notMem cur CondV u1 k3 (by simp) k6
                (by simp; omega)
              split at h
              · cases h
              · cases h
                exact (((u6.after_insert _).after_attach cur.parent (s1.nextId + 2) "endcond"
                  (by rw [State.ids_insert]; exact m6) (by simp; omega)).after_setInsertPoint _).after_emit _
  | .forExpr StartExp Cond StepExp BlockExp, st, r, st', h, hu => by
    simp only [ExprAST.codegen] at h
    split at h
    · cases h
    · rename_i cur hcur
      split at h
      · cases h
      · rename_i s1 hI
        cases h
        exact ForInit_codegen_uniqueIds StartExp _ st _ _ hI hu
      · rename_i outer s1 hI
        have u1 := ForInit_codegen_uniqueIds StartExp _ st _ _ hI hu
        have u2 := ForExprAST.condEntry_uniqueIds u1 cur.parent
        split at h
        · cases h
        · rename_i s3 hC
          cases h
          exact ExprAST_codegen_uniqueIds Cond _ none _ hC u2
        · rename_i EndV s3 hC
          have u3 := ExprAST_codegen_uniqueIds Cond _ _ _ hC u2
          have kC : StepsFrom (ForExprAST.condEntry s1 cur.parent).nextId
              (ForExprAST.condEntry s1 cur.parent) s3 := ExprAST_codegen_steps Cond _ _ _ hC
          have n3 := kC.nextId_le
          have u4 : (ForExprAST.bodyEntry s1 cur.parent s3 EndV).UniqueIds :=
            (u3.after_insert _).after_setInsertPoint _
          split at h
          · cases h
          · rename_i s5 hB
            cases h
            exact ExprAST_codegen_uniqueIds BlockExp _ none _ hB u4
          · rename_i bv s5 hB
            have u5 := ExprAST_codegen_uniqueIds BlockExp _ _ _ hB u4
            have kB : StepsFrom (ForExprAST.bodyEntry s1 cur.parent s3 EndV).nextId
                (ForExprAST.bodyEntry s1 cur.parent s3 EndV) s5 :=
              ExprAST_codegen_steps BlockExp _ _ _ hB
            split at h
            · cases h
            · rename_i s6 hS
              cases h
              exact stepCodegen_uniqueIds StepExp _ none _ hS u5
            · rename_i sv s6 hS
              have u6 := stepCodegen_uniqueIds StepExp _ _ _ hS u5
              have kS := stepCodegen_steps StepExp _ _ _ hS
              split at h
              · cases h
              · rename_i s7 hC2
                cases h
                exact ExprAST_codegen_uniqueIds Cond _ none _ hC2 u6
              · rename_i EndV2 s7 hC2
                have u7 := ExprAST_codegen_uniqueIds Cond _ _ _ hC2 u6
                have kC2 := ExprAST_codegen_steps Cond _ _ _ hC2
                have k47 := (kB.trans kS kB.nextId_le).trans kC2
                  (Nat.le_trans kB.nextId_le kS.nextId_le)
                obtain ⟨n7, m7⟩ := ForExprAST.after_notMem cur.parent EndV u1 kC
                  (by simp [ForExprAST.condEntry]) k47
                  (by simp [ForExprAST.condEntry, ForExprAST.bodyEntry] at n3 ⊢; omega)
                have u8 : (ForExprAST.afterEntry s1 cur.parent s7 EndV2).UniqueIds :=
                  ((u7.after_insert _).after_attach cur.parent (s1.nextId + 1) "afterloop"
                    (by rw [State.ids_insert]; exact m7) (by simp; omega)).after_setInsertPoint _
                split at h
                · cases h
                · split at h
                  · cases h
                    exact u8.after_assign _ _
                  · cases h
                    exact u8.after_erase _
  | .block Def Val, st, r, st', h, hu => by
    simp only [ExprAST.codegen] at h
    split at h
    · cases h
    · rename_i s1 hD
      cases h
      exact codegenDefs_uniqueIds Def st none _ hD hu
    · rename_i tmp s1 hD
      have u1 := codegenDefs_uniqueIds Def st _ _ hD hu
      split at h
      · cases h
      · rename_i s2 hV
        cases h
        exact codegenList_uniqueIds Val _ none _ hV u1
      · rename_i vals s2 hV
        have u2 := codegenList_uniqueIds Val _ _ _ hV u1
        split at h
        · cases h
        · cases h
          exact State.UniqueIds.after_restoreDefs _ _ _ u2
  | .assignment a, st, r, st', h, hu => by
    simp only [ExprAST.codegen] at h
    exact AssignmentAST_codegen_uniqueIds a st r st' h hu
theorem derefCodegen_uniqueIds : ∀ (e : Option ExprAST) (st : State) (r : Option Value)
    (st' : State), derefCodegen e st = some (r, st') → st.UniqueIds → st'.UniqueIds
  | none, st, r, st', h, hu => by
    simp only [derefCodegen] at h
    cases h
  | some e, st, r, st', h, hu => by
    simp only [derefCodegen] at h
    exact ExprAST_codegen_uniqueIds e st r st' h hu
theorem ForInit_codegen_uniqueIds : ∀ (i : ForInit) (fn : String) (st : State)
    (r : Option (Option (String × Option Nat))) (st' : State),
    i.codegen fn st = some (r, st') → st.UniqueIds → st'.UniqueIds
  | .binding b, fn, st, r, st', h, hu => by
    simp only [ForInit.codegen] at h
    split at h
    · cases h
    · rename_i s1 hB
      cases h
      exact VarBindingAST_codegen_uniqueIds b st _ _ hB hu
    · rename_i Alloca s1 hB
      cases h
      exact (VarBindingAST_codegen_uniqueIds b st _ _ hB hu).after_assign _ _
  | .assign a, fn, st, r, st', h, hu => by
    simp only [ForInit.codegen] at h
    have u0 := hu.after_entryAlloca fn a.getName
    split at h
    · cases h
    · rename_i s1 hA
      cases h
      exact AssignmentAST_codegen_uniqueIds a _ _ _ hA u0
    · rename_i Var s1 hA
      cases h
      exact ((AssignmentAST_codegen_uniqueIds a _ _ _ hA u0).after_insert _).after_assign _ _
theorem stepCodegen_uniqueIds : ∀ (e : Option AssignmentAST) (st : State) (r : Option Value)
    (st' : State), stepCodegen e st = some (r, st') → st.UniqueIds → st'.UniqueIds
  | none, st, r, st', h, hu => by
    simp only [stepCodegen] at h
    cases h
    exact hu
  | some a, st, r, st', h, hu => by
    simp only [stepCodegen] at h
    exact AssignmentAST_codegen_uniqueIds a st r st' h hu
theorem VarBindingAST_codegen_uniqueIds : ∀ (d : VarBindingAST) (st : State) (r : Option Nat)
    (st' : State), d.codegen st = some (r, st') → st.UniqueIds → st'.UniqueIds
  | .mk Name Val, st, r, st', h, hu => by
    simp only [VarBindingAST.codegen] at h
    split at h
    · cases h
    · split at h
      · cases h
      · rename_i s1 hV
        cases h
        exact ExprAST_codegen_uniqueIds Val st _ _ hV hu
      · rename_i BoundVal s1 hV
        cases h
        exact ((ExprAST_codegen_uniqueIds Val st _ _ hV hu).after_entryAlloca _ _).after_insert _
theorem AssignmentAST_codegen_uniqueIds : ∀ (a : AssignmentAST) (st : State)
    (r : Option Value) (st' : State), a.codegen st = some (r, st') → st.UniqueIds →
    st'.UniqueIds
  | .mk VName VValue, st, r, st', h, hu => by
    simp only [AssignmentAST.codegen] at h
    have u0 := hu.after_subscript VName
    split at h
    · cases h
      exact u0.after_logError _
    · split at h
      · cases h
      · rename_i s2 hV
        cases h
        exact ExprAST_codegen_uniqueIds VValue _ _ _ hV u0
      · rename_i v s2 hV
        cases h
        exact (ExprAST_codegen_uniqueIds VValue _ _ _ hV u0).after_insert _
theorem codegenList_uniqueIds : ∀ (es : List ExprAST) (st : State)
    (r : Option (List Value)) (st' : State), codegenList es st = some (r, st') →
    st.UniqueIds → st'.UniqueIds
  | [], st, r, st', h, hu => by
    simp only [codegenList] at h
    cases h
    exact hu
  | e :: es, st, r, st', h, hu => by
    simp only [codegenList] at h
    split at h
    · cases h
    · rename_i s1 hE
      cases h
      exact ExprAST_codegen_uniqueIds e st _ _ hE hu
    · rename_i v s1 hE
      have u1 := ExprAST_codegen_uniqueIds e st _ _ hE hu
      split at h
      · cases h
      · rename_i s2 hR
        cases h
        exact codegenList_uniqueIds es _ _ _ hR u1
      · rename_i vs s2 hR
        cases h
        exact codegenList_uniqueIds es _ _ _ hR u1
theorem codegenDefs_uniqueIds : ∀ (ds : List VarBindingAST) (st : State)
    (r : Option (List (Option Nat))) (st' : State), codegenDefs ds st = some (r, st') →
    st.UniqueIds → st'.UniqueIds
  | [], st, r, st', h, hu => by
    simp only [codegenDefs] at h
    cases h
    exact hu
  | d :: ds, st, r, st', h, hu => by
    simp only [codegenDefs] at h
    split at h
    · cases h
    · rename_i s1 hE
      cases h
      exact VarBindingAST_codegen_uniqueIds d st _ _ hE hu
    · rename_i v s1 hE
      have u1 := (VarBindingAST_codegen_uniqueIds d st _ _ hE hu).after_assign d.getName (some v)
      split at h
      · cases h
      · rename_i s2 hR
        cases h
        exact codegenDefs_uniqueIds ds _ _ _ hR u1
      · rename_i vs s2 hR
        cases h
        exact codegenDefs_uniqueIds ds _ _ _ hR u1
end

theorem FunctionAST.enter_uniqueIds (f : FunctionAST) (st : State) (hu : st.UniqueIds) :
    (f.enter st).UniqueIds := by
  have hn : (f.Proto.codegen st).nextId = st.nextId := by
    unfold PrototypeAST.codegen
    by_cases he : f.Proto.emitcode <;> simp [he]
  have hb : (f.Proto.codegen st).blocks = st.blocks := by
    unfold PrototypeAST.codegen
    by_cases he : f.Proto.emitcode <;> simp [he, State.print]
  have u1 : (f.Proto.codegen st).UniqueIds := hu.same (by rw [hb]) (by rw [hn])
  have u2 := ((u1.after_reserve 1).after_attach f.Proto.Name (f.Proto.codegen st).nextId "entry"
    (u1.fresh _ (Nat.le_refl _)) (by simp)).after_setInsertPoint
    ⟨(f.Proto.codegen st).nextId, f.Proto.Name⟩
  exact u2.same (bindArgs_ids _ _ _ _) (by
    show _ ≤ (bindArgs f.Proto.Name f.Proto.Args 0 _).nextId
    rw [bindArgs_nextId]
    omega)

/-- Every state reached from one with unique block identities by lowering a top-level
node has unique block identities; the initial state has. -/
theorem RootAST_codegen_uniqueIds : ∀ (t : RootAST) (st : State) (r : Option Value)
    (st' : State), st.UniqueIds → t.codegen st = some (r, st') → st'.UniqueIds
  | .seq (some first) none, st, r, st', hu, h => by
    simp only [RootAST.codegen] at h
    split at h <;> cases h
  | .seq (some first) (some c), st, r, st', hu, h => by
    simp only [RootAST.codegen] at h
    split at h
    · cases h
    · rename_i r1 s1 h1
      have hu1 := RootAST_codegen_uniqueIds first st r1 s1 hu h1
      split at h
      · cases h
      · rename_i r2 s2 h2
        cases h
        exact RootAST_codegen_uniqueIds c s1 r2 _ hu1 h2
  | .seq none none, st, r, st', hu, h => by
    simp only [RootAST.codegen] at h
    cases h
    exact hu
  | .seq none (some c), st, r, st', hu, h => by
    simp only [RootAST.codegen] at h
    split at h
    · cases h
    · rename_i r2 s2 h2
      cases h
      exact RootAST_codegen_uniqueIds c st r2 _ hu h2
  | .expr e, st, r, st', hu, h => by
    simp only [RootAST.codegen] at h
    exact ExprAST_codegen_uniqueIds e st r st' h hu
  | .prototype p, st, r, st', hu, h => by
    simp only [RootAST.codegen] at h
    cases h
    unfold PrototypeAST.codegen
    by_cases he : p.emitcode
    · simp only [he, if_true]
      exact hu.same rfl (Nat.le_refl _)
    · simp only [he, Bool.false_eq_true, if_false]
      exact hu.same rfl (Nat.le_refl _)
  | .function f, st, r, st', hu, h => by
    simp only [RootAST.codegen] at h
    unfold FunctionAST.codegen at h
    split at h
    · cases h
      exact hu
    · split at h
      · cases h
      · rename_i RetVal s4 hb
        cases h
        exact ((ExprAST_codegen_uniqueIds _ _ _ _ hb (f.enter_uniqueIds st hu)).after_insert _).after_print _
      · rename_i s4 hb
        cases h
        have u4 := ExprAST_codegen_uniqueIds _ _ _ _ hb (f.enter_uniqueIds st hu)
        refine ⟨?_, ?_⟩
        · intro b hbm
          have : b ∈ s4.blocks := by
            simp only [State.eraseFromParent] at hbm
            exact (List.mem_filter.mp hbm).1
          exact u4.1 b this
        · simp only [State.eraseFromParent]
          exact (u4.2.sublist (List.Sublist.map _ (List.filter_sublist _)))
  | .globalVariable Name, st, r, st', hu, h => by
    simp only [RootAST.codegen, GlobalVariableAST.codegen] at h
    cases h
    exact hu.same rfl (Nat.le_refl _)

theorem State.init_uniqueIds : State.init.UniqueIds := by
  decide

/-! ## The block order of a function (C20) -/

theorem State.UniqueIds.order_nodup {st : State} (h : st.UniqueIds) (fn : String) :
    (st.order fn).Nodup :=
  h.2.sublist (List.Sublist.map _ (List.filter_sublist _))

/-- C20. In the block order of the function being lowered: for every `If` that lowers
successfully, with `Bt` and `Bf` the blocks in which the lowering of `TrueExp` and of
`FalseExp` ended, the false-block `FalseBB` comes right after `Bt` and the join block
`MergeBB` right after `Bf`; for every `for` that lowers successfully, with `B2` the block
in which the loop-body chain (`BlockExp`, step, second lowering of `Cond`) ended, the
after-loop block `AfterBB` comes right after `B2`. The sub-expressions are arbitrary,
so they may contain conditionals and loops; all blocks are attached at the end of the
function, and the neighbours stay neighbours whatever blocks are attached later. From a
state with unique block identities (as all states of a session are) the order lists
every block once. -/
theorem ExprAST_codegen_block_order :
    (∀ (Cond TrueExp FalseExp : ExprAST) (st st' : State) (v : Value),
      (ExprAST.ifExpr Cond TrueExp FalseExp).codegen st = some (some v, st') →
      ∃ CondV s1 cur TrueV s3 Bt FalseV s6 Bf,
        Cond.codegen st = some (some CondV, s1) ∧ s1.cursor = some cur ∧
        TrueExp.codegen (IfExprAST.thenEntry s1 cur CondV) = some (some TrueV, s3) ∧
        s3.cursor = some Bt ∧
        FalseExp.codegen (IfExprAST.elseEntry s1 cur s3) = some (some FalseV, s6) ∧
        s6.cursor = some Bf ∧
        (st.UniqueIds → (st'.order cur.parent).Nodup) ∧
        ∀ (st'' : State) (more : List BlockRef), st''.refs = st'.refs ++ more →
          immediatelyFollows (st''.order cur.parent) Bt.id (s1.nextId + 1) = true ∧
          immediatelyFollows (st''.order cur.parent) Bf.id (s1.nextId + 2) = true) ∧
    (∀ (StartExp : ForInit) (Cond : ExprAST) (StepExp : Option AssignmentAST)
        (BlockExp : ExprAST) (st st' : State) (v : Value),
      (ExprAST.forExpr StartExp Cond StepExp BlockExp).codegen st = some (some v, st') →
      ∃ cur outer s1 EndV s3 bv s5 sv s6 EndV2 s7 B2,
        st.cursor = some cur ∧
        StartExp.codegen cur.parent st = some (some outer, s1) ∧
        Cond.codegen (ForExprAST.condEntry s1 cur.parent) = some (some EndV, s3) ∧
        BlockExp.codegen (ForExprAST.bodyEntry s1 cur.parent s3 EndV) = some (some bv, s5) ∧
        stepCodegen StepExp s5 = some (some sv, s6) ∧
        Cond.codegen s6 = some (some EndV2, s7) ∧
        s7.cursor = some B2 ∧
        (st.UniqueIds → (st'.order cur.parent).Nodup) ∧
        ∀ (st'' : State) (more : List BlockRef), st''.refs = st'.refs ++ more →
          immediatelyFollows (st''.order cur.parent) B2.id (s1.nextId + 1) = true) := by
  constructor
  · intro Cond TrueExp FalseExp st st' v h
    obtain ⟨CondV, s1, cur, TrueV, s3, Bt, FalseV, s6, Bf, hC, hcur, hT, hBt, hF, hBf, hst⟩ :=
      IfExprAST_codegen_success_inv Cond TrueExp FalseExp st st' v h
    refine ⟨CondV, s1, cur, TrueV, s3, Bt, FalseV, s6, Bf, hC, hcur, hT, hBt, hF, hBf,
      fun hu => (ExprAST_codegen_uniqueIds _ _ _ _ h hu).order_nodup _, ?_⟩
    -- the arms end in the last attached block
    have l3 := (ExprAST_codegen_lands TrueExp _ _ _ hT).refs_getLast
      (by simp [IfExprAST.thenEntry])
    rw [hBt] at l3
    obtain ⟨P, hP⟩ := List.getLast?_eq_some_iff.mp l3
    have l6 := (ExprAST_codegen_lands FalseExp _ _ _ hF).refs_getLast
      (by simp [IfExprAST.elseEntry])
    rw [hBf] at l6
    obtain ⟨Q, hQ⟩ := List.getLast?_eq_some_iff.mp l6
    obtain ⟨nf, hnf, -, -⟩ := ExprAST_codegen_lands FalseExp _ _ _ hF
    -- the arms stay in the function
    obtain ⟨ct, hct, hpt, -⟩ := (ExprAST_codegen_steps TrueExp _ _ _ hT).cursor_some
      ⟨s1.nextId, cur.parent⟩ (by simp)
    rw [hBt] at hct; cases hct
    obtain ⟨cf, hcf, hpf, -⟩ := (ExprAST_codegen_steps FalseExp _ _ _ hF).cursor_some
      ⟨s1.nextId + 1, cur.parent⟩ (by simp)
    rw [hBf] at hcf; cases hcf
    have r' : st'.refs = s6.refs ++ [⟨s1.nextId + 2, cur.parent⟩] := by
      rw [hst]; simp
    intro st'' more hmore
    constructor
    · apply State.order_adjacent st'' cur.parent P
        (nf ++ [⟨s1.nextId + 2, cur.parent⟩] ++ more) Bt ⟨s1.nextId + 1, cur.parent⟩ _ hpt rfl
      rw [hmore, r', hnf]
      simp [IfExprAST.elseEntry, hP]
    · apply State.order_adjacent st'' cur.parent Q more Bf ⟨s1.nextId + 2, cur.parent⟩ _ hpf rfl
      rw [hmore, r', hQ]
      simp
  · intro StartExp Cond StepExp BlockExp st st' v h
    obtain ⟨cur, outer, s1, EndV, s3, bv, s5, sv, s6, EndV2, s7, name, hcur, hI, hC, hB, hS,
      hC2, -, hst⟩ := ForExprAST_codegen_success_inv StartExp Cond StepExp BlockExp st st' v h
    -- the loop-body chain
    have hc4 : (ForExprAST.bodyEntry s1 cur.parent s3 EndV).cursor =
        some ⟨s1.nextId, cur.parent⟩ := by
      simp [ForExprAST.bodyEntry]
    have kB := ExprAST_codegen_steps BlockExp _ _ _ hB
    have kS := stepCodegen_steps StepExp _ _ _ hS
    have kC2 := ExprAST_codegen_steps Cond _ _ _ hC2
    have k47 := (kB.trans kS kB.nextId_le).trans kC2 (Nat.le_trans kB.nextId_le kS.nextId_le)
    obtain ⟨B2, hB2, hp2, -⟩ := k47.cursor_some _ hc4
    refine ⟨cur, outer, s1, EndV, s3, bv, s5, sv, s6, EndV2, s7, B2, hcur, hI, hC, hB, hS, hC2,
      hB2, fun hu => (ExprAST_codegen_uniqueIds _ _ _ _ h hu).order_nodup _, ?_⟩
    obtain ⟨nc, hnc, hlc, -⟩ := ExprAST_codegen_lands Cond _ _ _ hC
    obtain ⟨n47, hn47, hl47, hcu47⟩ := ((ExprAST_codegen_lands BlockExp _ _ _ hB).append
      (stepCodegen_lands StepExp _ _ _ hS)).append (ExprAST_codegen_lands Cond _ _ _ hC2)
    have l7 : s7.refs.getLast? = some B2 := by
      rw [← hB2, hcu47, hn47, List.getLast?_append, hc4]
      cases hlast : n47.getLast? with
      | some x => simp
      | none =>
        have e47 : n47 = [] := List.getLast?_eq_none_iff.mp hlast
        rw [e47] at hl47
        have e0 : Cond.blockCount = 0 := by
          simp only [List.length_nil] at hl47
          omega
        rw [e0] at hlc
        have ec : nc = [] := List.length_eq_zero.mp hlc
        simp [ForExprAST.bodyEntry, hnc, ec, ForExprAST.condEntry]
    obtain ⟨P, hP⟩ := List.getLast?_eq_some_iff.mp l7
    have r' : st'.refs = s7.refs ++ [⟨s1.nextId + 1, cur.parent⟩] := by
      rcases hst with ⟨old, rfl⟩ | rfl <;> simp [ForExprAST.afterEntry]
    intro st'' more hmore
    apply State.order_adjacent st'' cur.parent P more B2 ⟨s1.nextId + 1, cur.parent⟩ _ hp2 rfl
    rw [hmore, r', hP]
    simp

theorem ExprAST_codegen_block_order_witness :
    inF.UniqueIds ∧
    nestedIf.codegen inF = some (some (Value.inst 11), afterNestedIf) ∧
    afterNestedIf.order "f" = [0, 3, 7, 8, 9, 4, 5] ∧
    forBranchingCond.codegen inF = some (some (Value.constFP 0), afterForBranchingCond) ∧
    afterForBranchingCond.order "f" = [0, 3, 6, 7, 8, 15, 16, 17, 4] ∧
    (∃ CondV s1 cur TrueV s3 Bt FalseV s6 Bf,
      (ExprAST.var "g").codegen inF = some (some CondV, s1) ∧ s1.cursor = some cur ∧
      (ExprAST.ifExpr (ExprAST.var "g") (ExprAST.number lit1) (ExprAST.number lit2)).codegen
        (IfExprAST.thenEntry s1 cur CondV) = some (some TrueV, s3) ∧
      s3.cursor = some Bt ∧
      (ExprAST.number lit3).codegen (IfExprAST.elseEntry s1 cur s3) = some (some FalseV, s6) ∧
      s6.cursor = some Bf ∧
      (inF.UniqueIds → (afterNestedIf.order cur.parent).Nodup) ∧
      ∀ (st'' : State) (more : List BlockRef), st''.refs = afterNestedIf.refs ++ more →
        immediatelyFollows (st''.order cur.parent) Bt.id (s1.nextId + 1) = true ∧
        immediatelyFollows (st''.order cur.parent) Bf.id (s1.nextId + 2) = true) ∧
    (∃ cur outer s1 EndV s3 bv s5 sv s6 EndV2 s7 B2,
      inF.cursor = some cur ∧
      (ForInit.binding (VarBindingAST.mk "i" (ExprAST.number lit0))).codegen cur.parent inF =
        some (some outer, s1) ∧
      (ExprAST.binary '<'
        (ExprAST.ifExpr (ExprAST.var "g") (ExprAST.var "i") (ExprAST.number lit1))
        (ExprAST.number lit3)).codegen (ForExprAST.condEntry s1 cur.parent) =
        some (some EndV, s3) ∧
      (ExprAST.assignment (AssignmentAST.mk "i"
        (ExprAST.binary '+' (ExprAST.var "i") (ExprAST.number lit1)))).codegen
        (ForExprAST.bodyEntry s1 cur.parent s3 EndV) = some (some bv, s5) ∧
      stepCodegen none s5 = some (some sv, s6) ∧
      (ExprAST.binary '<'
        (ExprAST.ifExpr (ExprAST.var "g") (ExprAST.var "i") (ExprAST.number lit1))
        (ExprAST.number lit3)).codegen s6 = some (some EndV2, s7) ∧
      s7.cursor = some B2 ∧
      (inF.UniqueIds → (afterForBranchingCond.order cur.parent).Nodup) ∧
      ∀ (st'' : State) (more : List BlockRef),
        st''.refs = afterForBranchingCond.refs ++ more →
        immediatelyFollows (st''.order cur.parent) B2.id (s1.nextId + 1) = true) :=
  ⟨by decide, by decide, by decide, by decide, by decide,
    ExprAST_codegen_block_order.1 (ExprAST.var "g")
      (ExprAST.ifExpr (ExprAST.var "g") (ExprAST.number lit1) (ExprAST.number lit2))
      (ExprAST.number lit3) inF afterNestedIf (Value.inst 11) (by decide),
    ExprAST_codegen_block_order.2
      (ForInit.binding (VarBindingAST.mk "i" (ExprAST.number lit0)))
      (ExprAST.binary '<'
        (ExprAST.ifExpr (ExprAST.var "g") (ExprAST.var "i") (ExprAST.number lit1))
        (ExprAST.number lit3)) none
      (ExprAST.assignment (AssignmentAST.mk "i"
        (ExprAST.binary '+' (ExprAST.var "i") (ExprAST.number lit1))))
      inF afterForBranchingCond (Value.constFP 0) (by decide)⟩

/-! ## The visible scope after a successful lowering (C22) -/

/-- C22. When an expression in which every block binds pairwise distinct names and the
init of every `for` is a fresh binding lowers successfully, every name, bound or not,
resolves after the lowering to what it resolved to before it. -/
theorem ExprAST_codegen_scope_unchanged (e : ExprAST) (st st' : State) (v : Value)
    (hw : e.wellScoped = true) (h : e.codegen st = some (some v, st')) :
    ∀ n, st'.lookup n = st.lookup n :=
  ExprAST_codegen_scope e st v st' hw h

theorem ExprAST_codegen_scope_unchanged_witness :
    forShadowBlock.wellScoped = true ∧
    forShadowBlock.codegen inF = some (some (Value.constFP 0), afterForShadowBlock) ∧
    afterForShadowBlock.lookup "a" = some 1 ∧ afterForShadowBlock.lookup "i" = none ∧
    ∀ n, afterForShadowBlock.lookup n = inF.lookup n :=
  ⟨by decide, by decide, by decide, by decide,
    ExprAST_codegen_scope_unchanged forShadowBlock inF afterForShadowBlock (Value.constFP 0)
      (by decide) (by decide)⟩

/-! ## The default step of a loop (C26) -/

/-- C26. When a `for` without step lowers successfully: the step is the constant `1.0`
and leaves the state the body left untouched, so the second lowering of `Cond` starts
in the very state in which the lowering of `BlockExp` ended, and the loop returns in
the state that second lowering left, with only the conditional branch on its value
written, `AfterBB` attached and entered and the scope restored. No instruction is
emitted between the body and the second lowering of `Cond`, and the constant is in
none: the state returned is built from the value of `Cond` alone. -/
theorem ForExprAST_codegen_default_step (StartExp : ForInit) (Cond BlockExp : ExprAST)
    (st st' : State) (v : Value)
    (h : (ExprAST.forExpr StartExp Cond none BlockExp).codegen st = some (some v, st')) :
    ∃ cur outer s1 EndV s3 bv s5 EndV2 s7 name,
      st.cursor = some cur ∧
      StartExp.codegen cur.parent st = some (some outer, s1) ∧
      Cond.codegen (ForExprAST.condEntry s1 cur.parent) = some (some EndV, s3) ∧
      BlockExp.codegen (ForExprAST.bodyEntry s1 cur.parent s3 EndV) = some (some bv, s5) ∧
      stepCodegen none s5 = some (some (Value.constFP lit1), s5) ∧
      Cond.codegen s5 = some (some EndV2, s7) ∧
      ForExprAST.afterEntry s1 cur.parent s7 EndV2 =
        ((s7.insert (Instr.condBr EndV2 s1.nextId (s1.nextId + 1))).attach cur.parent
          (s1.nextId + 1) "afterloop").SetInsertPoint ⟨s1.nextId + 1, cur.parent⟩ ∧
      ((∃ old, st' = (ForExprAST.afterEntry s1 cur.parent s7 EndV2).assign name (some old)) ∨
        st' = (ForExprAST.afterEntry s1 cur.parent s7 EndV2).erase name) := by
  obtain ⟨cur, outer, s1, EndV, s3, bv, s5, sv, s6, EndV2, s7, name, hcur, hI, hC, hB, hS,
    hC2, -, hst⟩ := ForExprAST_codegen_success_inv StartExp Cond none BlockExp st st' v h
  simp only [stepCodegen, Option.some.injEq, Prod.mk.injEq] at hS
  obtain ⟨-, rfl⟩ := hS
  exact ⟨cur, outer, s1, EndV, s3, bv, s5, EndV2, s7, name, hcur, hI, hC, hB, rfl, hC2, rfl,
    hst⟩

theorem ForExprAST_codegen_default_step_witness :
    forBinding.codegen inF = some (some (Value.constFP 0), afterForBinding) ∧
    blockInstrs afterForBinding.blocks 3 =
      some [Instr.load 7 (Value.inst 2),
        Instr.fadd 8 (Value.inst 7) (Value.constFP lit1),
        Instr.store (Value.inst 8) (Value.inst 2),
        Instr.load 9 (Value.inst 2),
        Instr.fcmpULT 10 (Value.inst 9) (Value.constFP lit3),
        Instr.condBr (Value.inst 10) 3 4] ∧
    ∃ cur outer s1 EndV s3 bv s5 EndV2 s7 name,
      inF.cursor = some cur ∧
      (ForInit.binding (VarBindingAST.mk "i" (ExprAST.number lit0))).codegen cur.parent inF =
        some (some outer, s1) ∧
      (ExprAST.binary '<' (ExprAST.var "i") (ExprAST.number lit3)).codegen
        (ForExprAST.condEntry s1 cur.parent) = some (some EndV, s3) ∧
      (ExprAST.assignment (AssignmentAST.mk "i"
        (ExprAST.binary '+' (ExprAST.var "i") (ExprAST.number lit1)))).codegen
        (ForExprAST.bodyEntry s1 cur.parent s3 EndV) = some (some bv, s5) ∧
      stepCodegen none s5 = some (some (Value.constFP lit1), s5) ∧
      (ExprAST.binary '<' (ExprAST.var "i") (ExprAST.number lit3)).codegen s5 =
        some (some EndV2, s7) ∧
      ForExprAST.afterEntry s1 cur.parent s7 EndV2 =
        ((s7.insert (Instr.condBr EndV2 s1.nextId (s1.nextId + 1))).attach cur.parent
          (s1.nextId + 1) "afterloop").SetInsertPoint ⟨s1.nextId + 1, cur.parent⟩ ∧
      ((∃ old, afterForBinding =
          (ForExprAST.afterEntry s1 cur.parent s7 EndV2).assign name (some old)) ∨
        afterForBinding = (ForExprAST.afterEntry s1 cur.parent s7 EndV2).erase name) :=
  ⟨by decide, by decide,
    ForExprAST_codegen_default_step
      (ForInit.binding (VarBindingAST.mk "i" (ExprAST.number lit0)))
      (ExprAST.binary '<' (ExprAST.var "i") (ExprAST.number lit3))
      (ExprAST.assignment (AssignmentAST.mk "i"
        (ExprAST.binary '+' (ExprAST.var "i") (ExprAST.number lit1))))
      inF afterForBinding (Value.constFP 0) (by decide)⟩

/-! ## A function that calls itself (C25) -/

@[simp] theorem State.functions_insert (st : State) (i : Instr) :
    (st.insert i).functions = st.functions :=
  (StepsFrom.insert 0 st i).functions_eq

@[simp] theorem State.globals_insert (st : State) (i : Instr) :
    (st.insert i).globals = st.globals :=
  (StepsFrom.insert 0 st i).globals_eq

@[simp] theorem IfExprAST.thenEntry_globals (s1 : State) (cur : BlockRef) (CondV : Value) :
    (IfExprAST.thenEntry s1 cur CondV).globals = s1.globals := by
  simp [IfExprAST.thenEntry, State.SetInsertPoint, State.attach, State.reserve]

@[simp] theorem IfExprAST.elseEntry_globals (s1 : State) (cur : BlockRef) (s3 : State) :
    (IfExprAST.elseEntry s1 cur s3).globals = s3.globals := by
  simp [IfExprAST.elseEntry, State.SetInsertPoint, State.attach]

@[simp] theorem ForExprAST.bodyEntry_globals (s1 : State) (fn : String) (s3 : State)
    (EndV : Value) : (ForExprAST.bodyEntry s1 fn s3 EndV).globals = s3.globals := by
  simp [ForExprAST.bodyEntry, State.SetInsertPoint]

@[simp] theorem IfExprAST.thenEntry_functions (s1 : State) (cur : BlockRef) (CondV : Value) :
    (IfExprAST.thenEntry s1 cur CondV).functions = s1.functions := by
  simp [IfExprAST.thenEntry, State.SetInsertPoint, State.attach, State.reserve]

@[simp] theorem IfExprAST.elseEntry_functions (s1 : State) (cur : BlockRef) (s3 : State) :
    (IfExprAST.elseEntry s1 cur s3).functions = s3.functions := by
  simp [IfExprAST.elseEntry, State.SetInsertPoint, State.attach]

@[simp] theorem ForExprAST.condEntry_functions (s1 : State) (fn : String) :
    (ForExprAST.condEntry s1 fn).functions = s1.functions := rfl

@[simp] theorem ForExprAST.bodyEntry_functions (s1 : State) (fn : String) (s3 : State)
    (EndV : Value) : (ForExprAST.bodyEntry s1 fn s3 EndV).functions = s3.functions := by
  simp [ForExprAST.bodyEntry, State.SetInsertPoint]

/-- The module's function table is the same wherever a sub-expression is lowered. -/
theorem LowersAt.functions_same {e e' : ExprAST} {st s' : State} (h : LowersAt e st e' s') :
    s'.functions = st.functions := by
  induction h with
  | here e st => rfl
  | logicalLeft _ ih => exact ih
  | logicalRight _ hL _ ih => exact ih.trans (ExprAST_codegen_steps _ _ _ _ hL).functions_eq
  | binaryLeft _ ih => exact ih
  | binaryRight hL _ ih => exact ih.trans (ExprAST_codegen_steps _ _ _ _ hL).functions_eq
  | callArg _ _ hA _ ih => exact ih.trans (codegenList_steps _ _ _ _ hA).functions_eq
  | ifCond _ ih => exact ih
  | ifThen hC _ _ ih =>
    exact ih.trans ((IfExprAST.thenEntry_functions _ _ _).trans
      (ExprAST_codegen_steps _ _ _ _ hC).functions_eq)
  | ifElse hC _ hT _ ih =>
    exact ih.trans ((IfExprAST.elseEntry_functions _ _ _).trans
      ((ExprAST_codegen_steps _ _ _ _ hT).functions_eq.trans
        ((IfExprAST.thenEntry_functions _ _ _).trans
          (ExprAST_codegen_steps _ _ _ _ hC).functions_eq)))
  | forInitBinding _ _ ih => exact ih
  | forInitAssign _ _ _ ih => exact ih
  | forCond _ hI _ ih =>
    exact ih.trans (ForInit_codegen_steps _ _ _ _ _ hI).functions_eq
  | forBody _ hI hC _ ih =>
    exact ih.trans ((ForExprAST.bodyEntry_functions _ _ _ _).trans
      ((ExprAST_codegen_steps _ _ _ _ hC).functions_eq.trans
        (ForInit_codegen_steps _ _ _ _ _ hI).functions_eq))
  | forStep _ hI hC hB _ _ ih =>
    exact ih.trans ((ExprAST_codegen_steps _ _ _ _ hB).functions_eq.trans
      ((ForExprAST.bodyEntry_functions _ _ _ _).trans
        ((ExprAST_codegen_steps _ _ _ _ hC).functions_eq.trans
          (ForInit_codegen_steps _ _ _ _ _ hI).functions_eq)))
  | forCondAgain _ hI hC hB hS _ ih =>
    exact ih.trans ((stepCodegen_steps _ _ _ _ hS).functions_eq.trans
      ((ExprAST_codegen_steps _ _ _ _ hB).functions_eq.trans
        ((ForExprAST.bodyEntry_functions _ _ _ _).trans
          ((ExprAST_codegen_steps _ _ _ _ hC).functions_eq.trans
            (ForInit_codegen_steps _ _ _ _ _ hI).functions_eq))))
  | blockDef hD _ _ ih => exact ih.trans (codegenDefs_steps _ _ _ _ hD).functions_eq
  | blockVal hD hV _ ih =>
    exact ih.trans ((codegenList_steps _ _ _ _ hV).functions_eq.trans
      (codegenDefs_steps _ _ _ _ hD).functions_eq)
  | assignment _ _ ih => exact ih

/-- The module's global variables are the same wherever a sub-expression is lowered. -/
theorem LowersAt.globals_same {e e' : ExprAST} {st s' : State} (h : LowersAt e st e' s') :
    s'.globals = st.globals := by
  induction h with
  | here e st => rfl
  | logicalLeft _ ih => exact ih
  | logicalRight _ hL _ ih => exact ih.trans (ExprAST_codegen_steps _ _ _ _ hL).globals_eq
  | binaryLeft _ ih => exact ih
  | binaryRight hL _ ih => exact ih.trans (ExprAST_codegen_steps _ _ _ _ hL).globals_eq
  | callArg _ _ hA _ ih => exact ih.trans (codegenList_steps _ _ _ _ hA).globals_eq
  | ifCond _ ih => exact ih
  | ifThen hC _ _ ih =>
    exact ih.trans ((IfExprAST.thenEntry_globals _ _ _).trans
      (ExprAST_codegen_steps _ _ _ _ hC).globals_eq)
  | ifElse hC _ hT _ ih =>
    exact ih.trans ((IfExprAST.elseEntry_globals _ _ _).trans
      ((ExprAST_codegen_steps _ _ _ _ hT).globals_eq.trans
        ((IfExprAST.thenEntry_globals _ _ _).trans
          (ExprAST_codegen_steps _ _ _ _ hC).globals_eq)))
  | forInitBinding _ _ ih => exact ih
  | forInitAssign _ _ _ ih => exact ih
  | forCond _ hI _ ih =>
    exact ih.trans (ForInit_codegen_steps _ _ _ _ _ hI).globals_eq
  | forBody _ hI hC _ ih =>
    exact ih.trans ((ForExprAST.bodyEntry_globals _ _ _ _).trans
      ((ExprAST_codegen_steps _ _ _ _ hC).globals_eq.trans
        (ForInit_codegen_steps _ _ _ _ _ hI).globals_eq))
  | forStep _ hI hC hB _ _ ih =>
    exact ih.trans ((ExprAST_codegen_steps _ _ _ _ hB).globals_eq.trans
      ((ForExprAST.bodyEntry_globals _ _ _ _).trans
        ((ExprAST_codegen_steps _ _ _ _ hC).globals_eq.trans
          (ForInit_codegen_steps _ _ _ _ _ hI).globals_eq)))
  | forCondAgain _ hI hC hB hS _ ih =>
    exact ih.trans ((stepCodegen_steps _ _ _ _ hS).globals_eq.trans
      ((ExprAST_codegen_steps _ _ _ _ hB).globals_eq.trans
        ((ForExprAST.bodyEntry_globals _ _ _ _).trans
          ((ExprAST_codegen_steps _ _ _ _ hC).globals_eq.trans
            (ForInit_codegen_steps _ _ _ _ _ hI).globals_eq))))
  | blockDef hD _ _ ih => exact ih.trans (codegenDefs_steps _ _ _ _ hD).globals_eq
  | blockVal hD hV _ ih =>
    exact ih.trans ((codegenList_steps _ _ _ _ hV).globals_eq.trans
      (codegenDefs_steps _ _ _ _ hD).globals_eq)
  | assignment _ _ ih => exact ih

/-- In the state in which the body of a new function is lowered, the function is in
the module under its name, with its parameters. -/
theorem FunctionAST.enter_getFunction (f : FunctionAST) (st : State)
    (hnew : st.getFunction f.Proto.Name = none) :
    (f.enter st).getFunction f.Proto.Name = some ⟨f.Proto.Name, f.Proto.Args⟩ := by
  unfold State.getFunction at hnew ⊢
  rw [(FunctionAST.enter_functions f st).1, List.find?_append, hnew]
  simp

/-- C25. Let `f` be a function whose name is not yet in the module: the module holds
neither a function nor a global variable of that name, so that `Function::Create`
registers `f` under its own name. Its body is lowered in the state `f.enter st`.
Wherever in that lowering a `Call` to `f` with as many arguments as `f` has parameters
is lowered, the name denotes `f` and nothing else (the callee resolves to `f` itself,
and no global variable carries the name), and the call goes past both checks into the
argument loop: it returns what the argument loop returns when an argument fails, and
the `call` instruction to `f` on the values of the arguments when they all succeed. -/
theorem CallExprAST_codegen_recursive (f : FunctionAST) (st s : State) (Args : List ExprAST)
    (hnew : st.getFunction f.Proto.Name = none) (hglob : f.Proto.Name ∉ st.globals)
    (hin : LowersAt f.Body (f.enter st) (ExprAST.call f.Proto.Name Args) s)
    (hlen : Args.length = f.Proto.Args.length) :
    f.codegen st =
      (match f.Body.codegen (f.enter st) with
       | none => none
       | some (some RetVal, s4) =>
         some (some (Value.function f.Proto.Name),
           (s4.insert (Instr.ret RetVal)).print (Output.dump (Value.function f.Proto.Name)))
       | some (none, s4) => some (none, s4.eraseFromParent f.Proto.Name)) ∧
    s.getFunction f.Proto.Name = some ⟨f.Proto.Name, f.Proto.Args⟩ ∧
    s.getNamedGlobal f.Proto.Name = none ∧
    (ExprAST.call f.Proto.Name Args).codegen s =
      (match codegenList Args s with
       | none => none
       | some (none, s1) => some (none, s1)
       | some (some ArgsV, s1) =>
         some (some (Value.inst s1.nextId),
           s1.emit (fun id => Instr.call id f.Proto.Name ArgsV))) ∧
    (∀ vs s1, LoweredInOrder Args s vs s1 →
      (ExprAST.call f.Proto.Name Args).codegen s =
        some (some (Value.inst s1.nextId),
          (s1.insert (Instr.call s1.nextId f.Proto.Name vs)).reserve 1)) := by
  have hgl : s.getNamedGlobal f.Proto.Name = none := by
    unfold State.getNamedGlobal
    rw [hin.globals_same, (FunctionAST.enter_functions f st).2, if_neg hglob]
  have hg : s.getFunction f.Proto.Name = some ⟨f.Proto.Name, f.Proto.Args⟩ := by
    have h1 := f.enter_getFunction st hnew
    unfold State.getFunction at h1 ⊢
    rw [hin.functions_same]
    exact h1
  have hc : (ExprAST.call f.Proto.Name Args).codegen s =
      (match codegenList Args s with
       | none => none
       | some (none, s1) => some (none, s1)
       | some (some ArgsV, s1) =>
         some (some (Value.inst s1.nextId),
           s1.emit (fun id => Instr.call id f.Proto.Name ArgsV))) := by
    simp only [ExprAST.codegen, hg, hlen, ne_eq, not_true_eq_false, ↓reduceIte]
  refine ⟨?_, hg, hgl, hc, ?_⟩
  · unfold FunctionAST.codegen
    rw [hnew]
  · intro vs s1 h
    rw [hc, codegenList_of_loweredInOrder h]
    rfl

theorem CallExprAST_codegen_recursive_witness :
    State.init.getFunction recFn.Proto.Name = none ∧ recFn.Proto.Name ∉ State.init.globals ∧
    LowersAt recFn.Body (recFn.enter State.init)
      (ExprAST.call recFn.Proto.Name
        [ExprAST.binary '-' (ExprAST.var "n") (ExprAST.number lit1)]) recFnAtCall ∧
    [ExprAST.binary '-' (ExprAST.var "n") (ExprAST.number lit1)].length =
      recFn.Proto.Args.length ∧
    (recFn.codegen State.init).map (fun r => (r.1, blockInstrs r.2.blocks 5)) =
      some (some (Value.function "r"),
        some [Instr.load 7 (Value.inst 1),
          Instr.fsub 8 (Value.inst 7) (Value.constFP lit1),
          Instr.call 9 "r" [Value.inst 8], Instr.br 6]) ∧
    recFn.codegen State.init =
      (match recFn.Body.codegen (recFn.enter State.init) with
       | none => none
       | some (some RetVal, s4) =>
         some (some (Value.function recFn.Proto.Name),
           (s4.insert (Instr.ret RetVal)).print
             (Output.dump (Value.function recFn.Proto.Name)))
       | some (none, s4) => some (none, s4.eraseFromParent recFn.Proto.Name)) ∧
    recFnAtCall.getFunction recFn.Proto.Name = some ⟨recFn.Proto.Name, recFn.Proto.Args⟩ ∧
    recFnAtCall.getNamedGlobal recFn.Proto.Name = none ∧
    (ExprAST.call recFn.Proto.Name
        [ExprAST.binary '-' (ExprAST.var "n") (ExprAST.number lit1)]).codegen recFnAtCall =
      (match codegenList [ExprAST.binary '-' (ExprAST.var "n") (ExprAST.number lit1)]
          recFnAtCall with
       | none => none
       | some (none, s1) => some (none, s1)
       | some (some ArgsV, s1) =>
         some (some (Value.inst s1.nextId),
           s1.emit (fun id => Instr.call id recFn.Proto.Name ArgsV))) ∧
    (∀ vs s1,
      LoweredInOrder [ExprAST.binary '-' (ExprAST.var "n") (ExprAST.number lit1)]
        recFnAtCall vs s1 →
      (ExprAST.call recFn.Proto.Name
          [ExprAST.binary '-' (ExprAST.var "n") (ExprAST.number lit1)]).codegen recFnAtCall =
        some (some (Value.inst s1.nextId),
          (s1.insert (Instr.call s1.nextId recFn.Proto.Name vs)).reserve 1)) :=
  ⟨by decide, by decide,
    @LowersAt.ifElse (ExprAST.binary '<' (ExprAST.var "n") (ExprAST.number lit1))
      (ExprAST.number lit1)
      (ExprAST.call "r" [ExprAST.binary '-' (ExprAST.var "n") (ExprAST.number lit1)])
      (recFn.enter State.init) recFnAfterCond
      (IfExprAST.thenEntry recFnAfterCond ⟨0, "r"⟩ (Value.inst 3)) (Value.inst 3)
      (Value.constFP lit1) ⟨0, "r"⟩ _ _ (by decide) (by decide) (by decide)
      (LowersAt.here _ _),
    by decide, by decide,
    CallExprAST_codegen_recursive recFn State.init recFnAtCall
      [ExprAST.binary '-' (ExprAST.var "n") (ExprAST.number lit1)] (by decide) (by decide)
      (@LowersAt.ifElse (ExprAST.binary '<' (ExprAST.var "n") (ExprAST.number lit1))
        (ExprAST.number lit1)
        (ExprAST.call "r" [ExprAST.binary '-' (ExprAST.var "n") (ExprAST.number lit1)])
        (recFn.enter State.init) recFnAfterCond
        (IfExprAST.thenEntry recFnAfterCond ⟨0, "r"⟩ (Value.inst 3)) (Value.inst 3)
        (Value.constFP lit1) ⟨0, "r"⟩ _ _ (by decide) (by decide) (by decide)
        (LowersAt.here _ _))
      (by decide)⟩

/-! ## The bindings of a block (C24) -/

@[simp] theorem BlockExprAST.installed_lookup (fn Name : String) (v : Value) (s1 : State)
    (m : String) :
    (BlockExprAST.installed fn Name v s1).lookup m =
      if Name = m then some s1.nextId else s1.lookup m := by
  simp [BlockExprAST.installed]

@[simp] theorem BlockExprAST.installed_nextId (fn Name : String) (v : Value) (s1 : State) :
    (BlockExprAST.installed fn Name v s1).nextId = s1.nextId + 1 := by
  simp [BlockExprAST.installed]

theorem VarBindingAST_codegen_success_inv (Name : String) (Val : ExprAST) (st s' : State)
    (slot : Nat) (h : (VarBindingAST.mk Name Val).codegen st = some (some slot, s')) :
    ∃ cur v s1, st.cursor = some cur ∧ Val.codegen st = some (some v, s1) ∧
      slot = s1.nextId ∧
      s'.assign Name (some slot) = BlockExprAST.installed cur.parent Name v s1 := by
  simp only [VarBindingAST.codegen] at h
  split at h
  · cases h
  · rename_i cur hcur
    split at h
    · cases h
    · cases h
    · rename_i v s1 hV
      cases h
      exact ⟨cur, v, s1, hcur, hV, rfl, rfl⟩

/-- The first loop of `BlockExprAST::codegen` succeeds exactly when the bindings are
lowered and installed one after the other. -/
theorem bindingsInstalled_of_codegenDefs : ∀ (ds : List VarBindingAST) (st s' : State)
    (tmp : List (Option Nat)), codegenDefs ds st = some (some tmp, s') →
    ∃ slots, BindingsInstalled ds st slots s'
  | [], st, s', tmp, h => by
    simp only [codegenDefs] at h
    cases h
    exact ⟨[], BindingsInstalled.nil st⟩
  | .mk Name Val :: ds, st, s', tmp, h => by
    simp only [codegenDefs] at h
    split at h
    · cases h
    · cases h
    · rename_i slot s1 hd
      obtain ⟨cur, v, sv, hcur, hV, hslot, hst⟩ :=
        VarBindingAST_codegen_success_inv Name Val st s1 slot hd
      split at h
      · cases h
      · cases h
      · rename_i tmp2 s2 hr
        cases h
        simp only [VarBindingAST.getName] at hr
        rw [hst] at hr
        obtain ⟨slots, hs⟩ := bindingsInstalled_of_codegenDefs ds _ _ _ hr
        subst hslot
        exact ⟨_, BindingsInstalled.cons hcur hV hs⟩

theorem codegenDefs_of_bindingsInstalled {ds : List VarBindingAST} {st s' : State}
    {slots : List Nat} (h : BindingsInstalled ds st slots s') :
    ∃ tmp, codegenDefs ds st = some (some tmp, s') := by
  induction h with
  | nil st => exact ⟨[], by simp [codegenDefs]⟩
  | @cons Name Val ds st s1 s2 cur v slots hcur hV _ ih =>
    obtain ⟨tmp, ht⟩ := ih
    refine ⟨((CreateEntryBlockAlloca cur.parent Name s1).insert
      (Instr.store v (Value.inst s1.nextId))).lookup Name :: tmp, ?_⟩
    simp only [codegenDefs, VarBindingAST.codegen, hcur, hV, VarBindingAST.getName]
    simp only [BlockExprAST.installed] at ht
    rw [ht]

theorem bindSlots_congr : ∀ (names : List String) (slots : List Nat)
    (f g : String → Option Nat), (∀ m, f m = g m) → ∀ n, bindSlots names slots f n =
      bindSlots names slots g n
  | [], _, f, g, h, n => by simp [bindSlots, h]
  | _ :: _, [], f, g, h, n => by simp [bindSlots, h]
  | a :: names, s :: slots, f, g, h, n => by
    simp only [bindSlots]
    apply bindSlots_congr
    intro m
    simp [h]

/-- Where the names resolve once the bindings are installed, when their values leave
the scope as they found it. -/
theorem BindingsInstalled.lookup_eq {ds : List VarBindingAST} {st s' : State}
    {slots : List Nat} (h : BindingsInstalled ds st slots s') :
    wellScopedDefs ds = true →
    ∀ n, s'.lookup n = bindSlots (defNames ds) slots st.lookup n := by
  induction h with
  | nil st => intro _ n; rfl
  | @cons Name Val ds st s1 s2 cur v slots hcur hV _ ih =>
    intro hw n
    simp only [wellScopedDefs, Bool.and_eq_true, VarBindingAST.wellScoped] at hw
    rw [ih hw.2 n]
    simp only [defNames, VarBindingAST.getName, bindSlots]
    apply bindSlots_congr
    intro m
    rw [BlockExprAST.installed_lookup, ExprAST_codegen_scope Val st v s1 hw.1 hV m]
    by_cases hm : Name = m
    · simp [hm]
    · have : ¬ m = Name := fun e => hm e.symm
      simp [hm, this]

/-- The slots of the bindings are new and created in the order of the bindings. -/
theorem BindingsInstalled.slots_fresh {ds : List VarBindingAST} {st s' : State}
    {slots : List Nat} (h : BindingsInstalled ds st slots s') :
    st.nextId ≤ s'.nextId ∧ (∀ p ∈ slots, st.nextId ≤ p ∧ p < s'.nextId) ∧
      slots.Pairwise (· < ·) := by
  induction h with
  | nil st => simp
  | @cons Name Val ds st s1 s2 cur v slots hcur hV _ ih =>
    have n1 := (ExprAST_codegen_steps Val st _ _ hV).nextId_le
    obtain ⟨n2, hs, hp⟩ := ih
    simp only [BlockExprAST.installed_nextId] at n2 hs
    refine ⟨by omega, ?_, ?_⟩
    · intro p hp'
      rcases List.mem_cons.mp hp' with rfl | hp'
      · omega
      · have := hs p hp'
        omega
    · refine List.pairwise_cons.mpr ⟨?_, hp⟩
      intro p hp'
      have := hs p hp'
      omega

/-- The value of each binding is lowered in the state in which the bindings before it
are installed. -/
theorem BindingsInstalled.split : ∀ (pre : List VarBindingAST) {Name : String} {e : ExprAST}
    {post : List VarBindingAST} {st s' : State} {slots : List Nat},
    BindingsInstalled (pre ++ VarBindingAST.mk Name e :: post) st slots s' →
    ∃ si ve se, BindingsInstalled pre st (slots.take pre.length) si ∧
      e.codegen si = some (some ve, se) ∧ slots.get? pre.length = some se.nextId
  | [], Name, e, post, st, s', slots, h => by
    cases h with
    | cons hcur hV hr => exact ⟨st, _, _, BindingsInstalled.nil st, hV, rfl⟩
  | .mk Name' Val' :: pre, Name, e, post, st, s', slots, h => by
    cases h with
    | cons hcur hV hr =>
      obtain ⟨si, ve, se, hi, he, hg⟩ := BindingsInstalled.split pre hr
      exact ⟨si, ve, se, BindingsInstalled.cons hcur hV hi, he, hg⟩

/-- Every prefix of well-scoped bindings is well scoped. -/
theorem wellScopedDefs_append (pre post : List VarBindingAST) :
    wellScopedDefs (pre ++ post) = (wellScopedDefs pre && wellScopedDefs post) := by
  induction pre with
  | nil => simp [wellScopedDefs]
  | cons d pre ih => simp [wellScopedDefs, ih, Bool.and_assoc]

/-- C24 (counterexample). In `var x = 1, x = 2, y = x in y` the first binding creates
slot 2, and when the value of the third binding is lowered `x` is bound to slot 3, the
slot of the second binding: the first binding is no longer bound to its slot. In
`var x = 3, y = (var x = 1, x = 2 in x), z = x in z` the first binding creates slot 2,
and the value of the second binding, a block that binds `x` twice, leaves `x` bound to
its own slot 3: the value of the third binding loads from slot 3. -/
theorem BlockExprAST_codegen_binding_rebound :
    (codegenDefs [VarBindingAST.mk "x" (ExprAST.number lit1)] inF).map
      (fun r => r.2.lookup "x") = some (some 2) ∧
    (codegenDefs dupDefs inF).map (fun r => r.2.lookup "x") = some (some 3) ∧
    (codegenDefs [VarBindingAST.mk "x" (ExprAST.number lit3)] inF).map
      (fun r => r.2.lookup "x") = some (some 2) ∧
    (codegenDefs leakDefs inF).map (fun r => r.2.lookup "x") = some (some 3) ∧
    ((ExprAST.block (leakDefs ++ [VarBindingAST.mk "z" (ExprAST.var "x")])
        [ExprAST.var "z"]).codegen inF).map
        (fun r => (r.1, (blockInstrs r.2.blocks 0).map (fun l => l.drop 10))) =
      some (some (Value.inst 9),
        some [Instr.load 5 (Value.inst 4), Instr.store (Value.inst 5) (Value.inst 6),
          Instr.load 7 (Value.inst 3), Instr.store (Value.inst 7) (Value.inst 8),
          Instr.load 9 (Value.inst 8)]) := by
  decide

theorem BlockExprAST_codegen_success_inv (Def : List VarBindingAST) (Val : List ExprAST)
    (st st' : State) (v : Value)
    (h : (ExprAST.block Def Val).codegen st = some (some v, st')) :
    ∃ tmp s1 vals s2, codegenDefs Def st = some (some tmp, s1) ∧
      codegenList Val s1 = some (some vals, s2) ∧ vals.getLast? = some v ∧
      st' = restoreDefs Def tmp s2 := by
  simp only [ExprAST.codegen] at h
  split at h
  · cases h
  · cases h
  · rename_i tmp s1 hD
    split at h
    · cases h
    · cases h
    · rename_i vals s2 hV
      split at h
      · cases h
      · rename_i blockvalue hb
        cases h
        exact ⟨tmp, s1, vals, s2, hD, hV, hb, rfl⟩

/-- C24 (amended). When a block whose binding values are well scoped lowers
successfully, its bindings are lowered and installed one after the other: the value of
each binding `Name = e` is lowered in the state `si` in which exactly the bindings
before it are installed; there a name resolves to the slot of the last binding before
`e` that binds it, and to what it resolved to before the block when none does, `Name`
included; the value is stored into a new slot, created after `e` was lowered. The slots
of the block are new and distinct. The body is lowered, expression after expression,
starting in the state in which all the bindings are installed, and the value of the
block is the value of the last expression of the body. -/
theorem BlockExprAST_codegen_bindings (Def : List VarBindingAST) (Val : List ExprAST)
    (st st' : State) (v : Value) (hw : wellScopedDefs Def = true)
    (h : (ExprAST.block Def Val).codegen st = some (some v, st')) :
    ∃ slots s1 vals s2,
      BindingsInstalled Def st slots s1 ∧
      (∀ p ∈ slots, st.nextId ≤ p ∧ p < s1.nextId) ∧ slots.Pairwise (· < ·) ∧
      (∀ pre Name e post, Def = pre ++ VarBindingAST.mk Name e :: post →
        ∃ si ve se, BindingsInstalled pre st (slots.take pre.length) si ∧
          e.codegen si = some (some ve, se) ∧ slots.get? pre.length = some se.nextId ∧
          ∀ n, si.lookup n = bindSlots (defNames pre) (slots.take pre.length) st.lookup n) ∧
      (∀ n, s1.lookup n = bindSlots (defNames Def) slots st.lookup n) ∧
      LoweredInOrder Val s1 vals s2 ∧ vals.getLast? = some v := by
  obtain ⟨tmp, s1, vals, s2, hD, hV, hlast, -⟩ :=
    BlockExprAST_codegen_success_inv Def Val st st' v h
  obtain ⟨slots, hs⟩ := bindingsInstalled_of_codegenDefs Def st s1 tmp hD
  obtain ⟨-, hf, hp⟩ := hs.slots_fresh
  refine ⟨slots, s1, vals, s2, hs, hf, hp, ?_, hs.lookup_eq hw,
    loweredInOrder_of_codegenList Val s1 s2 vals hV, hlast⟩
  intro pre Name e post hDef
  subst hDef
  obtain ⟨si, ve, se, hi, he, hg⟩ := BindingsInstalled.split pre hs
  rw [wellScopedDefs_append, Bool.and_eq_true] at hw
  exact ⟨si, ve, se, hi, he, hg, hi.lookup_eq hw.1⟩

theorem BlockExprAST_codegen_bindings_witness :
    wellScopedDefs
      [VarBindingAST.mk "a" (ExprAST.binary '+' (ExprAST.var "a") (ExprAST.number lit1))] =
      true ∧
    (ExprAST.block
      [VarBindingAST.mk "a" (ExprAST.binary '+' (ExprAST.var "a") (ExprAST.number lit1))]
      [ExprAST.var "a"]).codegen inF = some (some (Value.inst 5), afterShadowBlock) ∧
    blockInstrs afterShadowBlock.blocks 0 =
      some [Instr.alloca 4 "a", Instr.alloca 1 "a",
        Instr.store (Value.argument "f" 0) (Value.inst 1),
        Instr.load 2 (Value.inst 1), Instr.fadd 3 (Value.inst 2) (Value.constFP lit1),
        Instr.store (Value.inst 3) (Value.inst 4), Instr.load 5 (Value.inst 4)] ∧
    ∃ slots s1 vals s2,
      BindingsInstalled
        [VarBindingAST.mk "a" (ExprAST.binary '+' (ExprAST.var "a") (ExprAST.number lit1))]
        inF slots s1 ∧
      (∀ p ∈ slots, inF.nextId ≤ p ∧ p < s1.nextId) ∧ slots.Pairwise (· < ·) ∧
      (∀ pre Name e post,
        [VarBindingAST.mk "a" (ExprAST.binary '+' (ExprAST.var "a") (ExprAST.number lit1))] =
          pre ++ VarBindingAST.mk Name e :: post →
        ∃ si ve se, BindingsInstalled pre inF (slots.take pre.length) si ∧
          e.codegen si = some (some ve, se) ∧ slots.get? pre.length = some se.nextId ∧
          ∀ n, si.lookup n =
            bindSlots (defNames pre) (slots.take pre.length) inF.lookup n) ∧
      (∀ n, s1.lookup n =
        bindSlots (defNames
          [VarBindingAST.mk "a" (ExprAST.binary '+' (ExprAST.var "a") (ExprAST.number lit1))])
          slots inF.lookup n) ∧
      LoweredInOrder [ExprAST.var "a"] s1 vals s2 ∧ vals.getLast? = some (Value.inst 5) :=
  ⟨by decide, by decide, by decide,
    BlockExprAST_codegen_bindings
      [VarBindingAST.mk "a" (ExprAST.binary '+' (ExprAST.var "a") (ExprAST.number lit1))]
      [ExprAST.var "a"] inF afterShadowBlock (Value.inst 5) (by decide) (by decide)⟩

/-! ## Slots are allocated at the beginning of the entry block -/

theorem entryBlock_appendAt (fn : String) (c : Nat) (i : Instr) (bs : List BasicBlock) :
    entryBlock fn (appendAt c i bs) =
      (entryBlock fn bs).map
        (fun b => if b.id = c then { b with instrs := b.instrs ++ [i] } else b) := by
  induction bs with
  | nil => rfl
  | cons b bs ih =>
    unfold appendAt entryBlock at ih ⊢
    simp only [List.map_cons, List.find?_cons]
    by_cases hb : b.id = c
    · by_cases hp : b.parent = fn
      · simp [hb, hp]
      · simp only [hb, if_true, hp, decide_False]
        exact ih
    · by_cases hp : b.parent = fn
      · simp [hb, hp]
      · simp only [hb, if_false, hp, decide_False]
        exact ih

theorem entryBlock_insertAtEntry (fn : String) (i : Instr) (bs : List BasicBlock) :
    entryBlock fn (insertAtEntry fn i bs) =
      (entryBlock fn bs).map (fun b => { b with instrs := i :: b.instrs }) := by
  induction bs with
  | nil => rfl
  | cons b bs ih =>
    unfold entryBlock at ih ⊢
    simp only [insertAtEntry]
    by_cases hp : b.parent = fn
    · simp [hp]
    · simp only [hp, if_false, List.find?_cons, decide_False]
      exact ih

theorem entryBlock_append_of_some (fn : String) (bs bs' : List BasicBlock) (b : BasicBlock)
    (h : entryBlock fn bs = some b) : entryBlock fn (bs ++ bs') = some b := by
  unfold entryBlock at h ⊢
  rw [List.find?_append, h]
  rfl

theorem State.CursorIn.of_steps {fn : String} {b : Nat} {st st' : State}
    (h : st.CursorIn fn) (k : StepsFrom b st st') : st'.CursorIn fn := by
  intro c' hc'
  cases hcur : st.cursor with
  | none => rw [k.cursor_none hcur] at hc'; cases hc'
  | some c =>
    obtain ⟨c1, hc1, hp, -⟩ := k.cursor_some c hcur
    rw [hc'] at hc1
    cases hc1
    rw [hp]
    exact h c hcur

theorem AllocsIn.none (fn : String) (st : State) : AllocsIn fn 0 st st :=
  ⟨Nat.le_refl _, fun b0 h => ⟨[], [], by simpa using h, rfl, by simp, by simp,
    by simp [allocaIds], by simp [allocaIds]⟩⟩

theorem AllocsIn.of_blocks_eq {fn : String} {st st' : State} (hb : st'.blocks = st.blocks)
    (hn : st.nextId ≤ st'.nextId) : AllocsIn fn 0 st st' :=
  ⟨hn, fun b0 h => ⟨[], [], by rw [hb]; simpa using h, rfl, by simp, by simp,
    by simp [allocaIds], by simp [allocaIds]⟩⟩

theorem allocaIds_append (l l' : List Instr) : allocaIds (l ++ l') = allocaIds l ++ allocaIds l' := by
  simp [allocaIds]

theorem AllocsIn.comp {fn : String} {n m : Nat} {st s1 s2 : State} (h1 : AllocsIn fn n st s1)
    (h2 : AllocsIn fn m s1 s2) : AllocsIn fn (n + m) st s2 := by
  obtain ⟨n1, f1⟩ := h1
  obtain ⟨n2, f2⟩ := h2
  refine ⟨Nat.le_trans n1 n2, ?_⟩
  intro b0 hb0
  obtain ⟨new1, added1, e1, l1, a1, d1, p1, r1⟩ := f1 b0 hb0
  obtain ⟨new2, added2, e2, l2, a2, d2, p2, r2⟩ := f2 _ e1
  refine ⟨new2 ++ new1, added1 ++ added2, ?_, ?_, ?_, ?_, ?_, ?_⟩
  · rw [e2]
    simp
  · simp [l1, l2]; omega
  · intro i hi
    rcases List.mem_append.mp hi with hi | hi
    · exact a2 i hi
    · exact a1 i hi
  · intro i hi
    rcases List.mem_append.mp hi with hi | hi
    · exact d1 i hi
    · exact d2 i hi
  · rw [allocaIds_append]
    refine List.pairwise_append.mpr ⟨p2, p1, ?_⟩
    intro a ha b hb
    have := r2 a ha
    have := r1 b hb
    show a > b
    omega
  · intro k hk
    rw [allocaIds_append] at hk
    rcases List.mem_append.mp hk with hk | hk
    · have := r2 k hk; omega
    · have := r1 k hk; omega

theorem AllocsIn.recount {fn : String} {n m : Nat} {st st' : State} (h : AllocsIn fn n st st')
    (e : n = m) : AllocsIn fn m st st' := e ▸ h

/-- A step that creates no slot, after a lowering. -/
theorem AllocsIn.then {fn : String} {n : Nat} {st s st' : State} (h : AllocsIn fn n st s)
    (h0 : AllocsIn fn 0 s st') : AllocsIn fn n st st' :=
  (h.comp h0).recount (by omega)

theorem AllocsIn.on_insert (fn : String) (st : State) (i : Instr) (hi : i.isAlloca = false) :
    AllocsIn fn 0 st (st.insert i) := by
  cases hcur : st.cursor with
  | none =>
    have : st.insert i = st := by simp [State.insert, hcur]
    rw [this]
    exact AllocsIn.none fn st
  | some c =>
    refine ⟨by simp, ?_⟩
    intro b0 hb0
    rw [State.blocks_insert_of_cursor _ _ _ hcur, entryBlock_appendAt, hb0]
    by_cases hc : b0.id = c.id
    · refine ⟨[], [i], by simp [hc], rfl, by simp, by simpa using hi, by simp [allocaIds],
        by simp [allocaIds]⟩
    · refine ⟨[], [], by simp [hc], rfl, by simp, by simp, by simp [allocaIds],
        by simp [allocaIds]⟩

theorem AllocsIn.on_emit (fn : String) (st : State) (mk : Nat → Instr)
    (hi : (mk st.nextId).isAlloca = false) : AllocsIn fn 0 st (st.emit mk) :=
  (AllocsIn.on_insert fn st _ hi).then (AllocsIn.of_blocks_eq rfl (by simp))

theorem AllocsIn.on_entryAlloca (fn name : String) (st : State) :
    AllocsIn fn 1 st (CreateEntryBlockAlloca fn name st) := by
  refine ⟨by simp, ?_⟩
  intro b0 hb0
  refine ⟨[Instr.alloca st.nextId name], [], ?_, rfl, by simp [Instr.isAlloca], by simp,
    by simp [allocaIds, Instr.slot?], by simp [allocaIds, Instr.slot?]⟩
  show entryBlock fn (insertAtEntry fn _ st.blocks) = _
  rw [entryBlock_insertAtEntry, hb0]
  simp

theorem AllocsIn.on_attach (fn fn' : String) (st : State) (id : Nat) (l : String) :
    AllocsIn fn 0 st (st.attach fn' id l) := by
  refine ⟨Nat.le_refl _, ?_⟩
  intro b0 hb0
  refine ⟨[], [], ?_, rfl, by simp, by simp, by simp [allocaIds], by simp [allocaIds]⟩
  show entryBlock fn (st.blocks ++ _) = _
  rw [entryBlock_append_of_some _ _ _ _ hb0]
  simp

theorem State.CursorIn.of_cursor_eq {fn : String} {st st' : State} (h : st.CursorIn fn)
    (hc : st'.cursor = st.cursor) : st'.CursorIn fn :=
  fun c hcc => h c (by rw [← hc]; exact hcc)

theorem State.CursorIn.entered (st : State) (k : Nat) (fn : String) :
    (st.SetInsertPoint ⟨k, fn⟩).CursorIn fn := by
  intro c hc
  simp only [State.cursor_SetInsertPoint, Option.some.injEq] at hc
  subst hc
  rfl

theorem IfExprAST.thenEntry_allocs (fn : String) (s1 : State) (cur : BlockRef)
    (CondV : Value) : AllocsIn fn 0 s1 (IfExprAST.thenEntry s1 cur CondV) :=
  (((AllocsIn.of_blocks_eq rfl (by simp) : AllocsIn fn 0 s1 (s1.reserve 3)).then
    (AllocsIn.on_attach fn cur.parent _ s1.nextId "trueexp")).then
    (AllocsIn.on_insert fn _ (Instr.condBr CondV s1.nextId (s1.nextId + 1)) rfl)).then (AllocsIn.of_blocks_eq rfl (Nat.le_refl _))

theorem IfExprAST.elseEntry_allocs (fn : String) (s1 : State) (cur : BlockRef) (s3 : State) :
    AllocsIn fn 0 s3 (IfExprAST.elseEntry s1 cur s3) :=
  ((AllocsIn.on_insert fn s3 (Instr.br (s1.nextId + 2)) rfl).then
    (AllocsIn.on_attach fn cur.parent _ (s1.nextId + 1) "falseexp")).then
    (AllocsIn.of_blocks_eq rfl (Nat.le_refl _))

theorem ForExprAST.condEntry_allocs (fn : String) (s1 : State) (function : String) :
    AllocsIn fn 0 s1 (ForExprAST.condEntry s1 function) :=
  (AllocsIn.of_blocks_eq rfl (by simp) : AllocsIn fn 0 s1 (s1.reserve 2)).then
    (AllocsIn.on_attach fn function _ s1.nextId "loop")

theorem ForExprAST.bodyEntry_allocs (fn : String) (s1 : State) (function : String)
    (s3 : State) (EndV : Value) :
    AllocsIn fn 0 s3 (ForExprAST.bodyEntry s1 function s3 EndV) :=
  (AllocsIn.on_insert fn s3 (Instr.condBr EndV s1.nextId (s1.nextId + 1)) rfl).then
    (AllocsIn.of_blocks_eq rfl (Nat.le_refl _))

theorem ForExprAST.afterEntry_allocs (fn : String) (s1 : State) (function : String)
    (s7 : State) (EndV2 : Value) :
    AllocsIn fn 0 s7 (ForExprAST.afterEntry s1 function s7 EndV2) :=
  ((AllocsIn.on_insert fn s7 (Instr.condBr EndV2 s1.nextId (s1.nextId + 1)) rfl).then
    (AllocsIn.on_attach fn function _ (s1.nextId + 1) "afterloop")).then
    (AllocsIn.of_blocks_eq rfl (Nat.le_refl _))

theorem restoreDefs_blocks : ∀ (Def : List VarBindingAST) (tmp : List (Option Nat))
    (st : State), (restoreDefs Def tmp st).blocks = st.blocks ∧
      (restoreDefs Def tmp st).nextId = st.nextId
  | [], _, st => by simp [restoreDefs]
  | _ :: _, [], st => by simp [restoreDefs]
  | d :: ds, t :: ts, st => by
    simp only [restoreDefs]
    have := restoreDefs_blocks ds ts (st.assign d.getName t)
    simpa [State.assign] using this

mutual
theorem ExprAST_codegen_allocs : ∀ (e : ExprAST) (st : State) (v : Value) (st' : State),
    e.codegen st = some (some v, st') → ∀ fn, st.CursorIn fn →
    AllocsIn fn e.slotCount st st'
  | .number Val, st, v, st', h, fn, hc => by
    simp only [ExprAST.codegen] at h
    simp only [ExprAST.slotCount]
    cases h
    exact AllocsIn.none fn st
  | .var Name, st, v, st', h, fn, hc => by
    simp only [ExprAST.codegen] at h
    simp only [ExprAST.slotCount]
    have a0 : AllocsIn fn 0 st (st.subscript Name) :=
      AllocsIn.of_blocks_eq rfl (Nat.le_refl _)
    split at h
    · cases h; exact a0.then (AllocsIn.on_emit fn _ _ rfl)
    · split at h
      · cases h; exact a0.then (AllocsIn.on_emit fn _ _ rfl)
      · cases h
  | .logical Op LHS RHS, st, v, st', h, fn, hc => by
    simp only [ExprAST.codegen] at h
    simp only [ExprAST.slotCount]
    split at h
    · cases h
    · rename_i L s1 hL
      split at h
      · rename_i hop
        split at h
        · cases h
        · rename_i Lv
          cases h
          have i1 := ExprAST_codegen_allocs LHS st Lv s1 hL fn hc
          simp only [hop, if_true]
          exact i1.then (AllocsIn.on_emit fn _ _ rfl)
      · rename_i hop
        split at h
        · cases h
        · rename_i R s2 hR
          split at h
          · rename_i Lv Rv
            have i1 := ExprAST_codegen_allocs LHS st Lv s1 hL fn hc
            have i2 := derefCodegen_allocs RHS s1 Rv s2 hR fn
              (hc.of_steps (ExprAST_codegen_steps LHS st _ _ hL))
            simp only [hop, if_false]
            split at h
            · cases h; exact (i1.comp i2).then (AllocsIn.on_emit fn _ _ rfl)
            · split at h
              · cases h; exact (i1.comp i2).then (AllocsIn.on_emit fn _ _ rfl)
              · cases h
          · cases h
  | .binary Op LHS RHS, st, v, st', h, fn, hc => by
    simp only [ExprAST.codegen] at h
    simp only [ExprAST.slotCount]
    split at h
    · cases h
    · rename_i L s1 hL
      split at h
      · cases h
      · rename_i R s2 hR
        split at h
        · rename_i Lv Rv
          have i1 := ExprAST_codegen_allocs LHS st Lv s1 hL fn hc
          have i2 := ExprAST_codegen_allocs RHS s1 Rv s2 hR fn
            (hc.of_steps (ExprAST_codegen_steps LHS st _ _ hL))
          split at h
          · rename_i i hi
            split at h
            · cases h
              exact i1.comp i2
            · cases h
              refine (i1.comp i2).then (AllocsIn.on_emit fn _ _ ?_)
              simp only [binaryInstr] at hi
              repeat' split at hi
              all_goals first | (cases hi; rfl) | cases hi
          · cases h
        · cases h
  | .call Callee Args, st, v, st', h, fn, hc => by
    simp only [ExprAST.codegen] at h
    simp only [ExprAST.slotCount]
    split at h
    · cases h
    · split at h
      · cases h
      · split at h
        · cases h
        · cases h
        · rename_i ArgsV s1 hA
          cases h
          exact (codegenList_allocs Args st ArgsV s1 hA fn hc).then
            (AllocsIn.on_emit fn _ _ rfl)
  | .ifExpr Cond TrueExp FalseExp, st, v, st', h, fn, hc => by
    simp only [ExprAST.codegen] at h
    simp only [ExprAST.slotCount]
    split at h
    · cases h
    · cases h
    · rename_i CondV s1 hC
      have i1 := ExprAST_codegen_allocs Cond st CondV s1 hC fn hc
      have hc1 := hc.of_steps (ExprAST_codegen_steps Cond st _ _ hC)
      split at h
      · cases h
      · rename_i cur hcur
        have hp : cur.parent = fn := hc1 cur hcur
        subst hp
        have a2 := IfExprAST.thenEntry_allocs cur.parent s1 cur CondV
        split at h
        · cases h
        · cases h
        · rename_i TrueV s3 hT
          have i3 := ExprAST_codegen_allocs TrueExp _ TrueV s3 hT cur.parent
            (State.CursorIn.entered _ _ _)
          have a5 := IfExprAST.elseEntry_allocs cur.parent s1 cur s3
          split at h
          · cases h
          · split at h
            · cases h
            · cases h
            · rename_i FalseV s6 hF
              have i6 := ExprAST_codegen_allocs FalseExp _ FalseV s6 hF cur.parent
                (State.CursorIn.entered _ _ _)
              split at h
              · cases h
              · cases h
                have a8 : AllocsIn cur.parent 0 s6
                    (((s6.insert (Instr.br (s1.nextId + 2))).attach cur.parent (s1.nextId + 2)
                      "endcond").SetInsertPoint ⟨s1.nextId + 2, cur.parent⟩) :=
                  ((AllocsIn.on_insert _ s6 (Instr.br (s1.nextId + 2)) rfl).then
                    (AllocsIn.on_attach _ cur.parent _ (s1.nextId + 2) "endcond")).then
                    (AllocsIn.of_blocks_eq rfl (Nat.le_refl _))
                exact (((((i1.then a2).comp i3).then a5).comp i6).then a8).then
                  (AllocsIn.on_emit _ _ _ rfl)
  | .forExpr StartExp Cond StepExp BlockExp, st, v, st', h, fn, hc => by
    simp only [ExprAST.codegen] at h
    simp only [ExprAST.slotCount]
    split at h
    · cases h
    · rename_i cur hcur
      have hp : cur.parent = fn := hc cur hcur
      subst hp
      split at h
      · cases h
      · cases h
      · rename_i outer s1 hI
        have i1 := ForInit_codegen_allocs StartExp cur.parent st outer s1 hI hc
        have hc1 := hc.of_steps (ForInit_codegen_steps StartExp _ st _ _ hI)
        have a2 := ForExprAST.condEntry_allocs cur.parent s1 cur.parent
        have hc2 : (ForExprAST.condEntry s1 cur.parent).CursorIn cur.parent :=
          hc1.of_cursor_eq rfl
        split at h
        · cases h
        · cases h
        · rename_i EndV s3 hC
          have i3 := ExprAST_codegen_allocs Cond _ EndV s3 hC cur.parent hc2
          have a4 := ForExprAST.bodyEntry_allocs cur.parent s1 cur.parent s3 EndV
          split at h
          · cases h
          · cases h
          · rename_i bv s5 hB
            have i5 := ExprAST_codegen_allocs BlockExp _ bv s5 hB cur.parent
              (State.CursorIn.entered _ _ _)
            have hc5 : s5.CursorIn cur.parent :=
              (State.CursorIn.entered _ _ _).of_steps (ExprAST_codegen_steps BlockExp _ _ _ hB)
            split at h
            · cases h
            · cases h
            · rename_i sv s6 hS
              have i6 := stepCodegen_allocs StepExp s5 sv s6 hS cur.parent hc5
              have hc6 := hc5.of_steps (stepCodegen_steps StepExp _ _ _ hS)
              split at h
              · cases h
              · cases h
              · rename_i EndV2 s7 hC2
                have i7 := ExprAST_codegen_allocs Cond s6 EndV2 s7 hC2 cur.parent hc6
                have a8 := ForExprAST.afterEntry_allocs cur.parent s1 cur.parent s7 EndV2
                have g := ((((((i1.then a2).comp i3).then a4).comp i5).comp i6).comp i7).then a8
                split at h
                · cases h
                · split at h
                  · cases h
                    exact (g.then (AllocsIn.of_blocks_eq rfl (Nat.le_refl _))).recount
                      (by omega)
                  · cases h
                    exact (g.then (AllocsIn.of_blocks_eq rfl (Nat.le_refl _))).recount
                      (by omega)
  | .block Def Val, st, v, st', h, fn, hc => by
    simp only [ExprAST.codegen] at h
    simp only [ExprAST.slotCount]
    split at h
    · cases h
    · cases h
    · rename_i tmp s1 hD
      have i1 := codegenDefs_allocs Def st tmp s1 hD fn hc
      have hc1 := hc.of_steps (codegenDefs_steps Def st _ _ hD)
      split at h
      · cases h
      · cases h
      · rename_i vals s2 hV
        have i2 := codegenList_allocs Val s1 vals s2 hV fn hc1
        split at h
        · cases h
        · cases h
          exact (i1.comp i2).then (AllocsIn.of_blocks_eq (restoreDefs_blocks _ _ _).1
            (Nat.le_of_eq (restoreDefs_blocks _ _ _).2.symm))
  | .assignment a, st, v, st', h, fn, hc => by
    simp only [ExprAST.codegen] at h
    simp only [ExprAST.slotCount]
    exact AssignmentAST_codegen_allocs a st v st' h fn hc
theorem derefCodegen_allocs : ∀ (e : Option ExprAST) (st : State) (v : Value) (st' : State),
    derefCodegen e st = some (some v, st') → ∀ fn, st.CursorIn fn →
    AllocsIn fn (slotCountOpt e) st st'
  | none, st, v, st', h, fn, hc => by
    simp only [derefCodegen] at h
    cases h
  | some e, st, v, st', h, fn, hc => by
    simp only [derefCodegen] at h
    simp only [slotCountOpt]
    exact ExprAST_codegen_allocs e st v st' h fn hc
theorem ForInit_codegen_allocs : ∀ (i : ForInit) (fn : String) (st : State)
    (outer : Option (String × Option Nat)) (st' : State),
    i.codegen fn st = some (some outer, st') → st.CursorIn fn →
    AllocsIn fn i.slotCount st st'
  | .binding b, fn, st, outer, st', h, hc => by
    simp only [ForInit.codegen] at h
    simp only [ForInit.slotCount]
    split at h
    · cases h
    · cases h
    · rename_i Alloca s1 hB
      cases h
      exact (VarBindingAST_codegen_allocs b st Alloca s1 hB fn hc).then
        (AllocsIn.of_blocks_eq rfl (Nat.le_refl _))
  | .assign a, fn, st, outer, st', h, hc => by
    simp only [ForInit.codegen] at h
    simp only [ForInit.slotCount]
    split at h
    · cases h
    · cases h
    · rename_i Var s1 hA
      cases h
      have a0 := AllocsIn.on_entryAlloca fn a.getName st
      have i1 := AssignmentAST_codegen_allocs a _ Var s1 hA fn (hc.of_cursor_eq (by simp))
      exact (((a0.comp i1).then (AllocsIn.on_insert fn _ _ (by rfl))).then
        (AllocsIn.of_blocks_eq rfl (Nat.le_refl _))).recount (by omega)
theorem stepCodegen_allocs : ∀ (e : Option AssignmentAST) (st : State) (v : Value)
    (st' : State), stepCodegen e st = some (some v, st') → ∀ fn, st.CursorIn fn →
    AllocsIn fn (slotCountStep e) st st'
  | none, st, v, st', h, fn, hc => by
    simp only [stepCodegen] at h
    simp only [slotCountStep]
    cases h
    exact AllocsIn.none fn st
  | some a, st, v, st', h, fn, hc => by
    simp only [stepCodegen] at h
    simp only [slotCountStep]
    exact AssignmentAST_codegen_allocs a st v st' h fn hc
theorem VarBindingAST_codegen_allocs : ∀ (d : VarBindingAST) (st : State) (slot : Nat)
    (st' : State), d.codegen st = some (some slot, st') → ∀ fn, st.CursorIn fn →
    AllocsIn fn d.slotCount st st'
  | .mk Name Val, st, slot, st', h, fn, hc => by
    simp only [VarBindingAST.codegen] at h
    simp only [VarBindingAST.slotCount]
    split at h
    · cases h
    · rename_i cur hcur
      have hp : cur.parent = fn := hc cur hcur
      subst hp
      split at h
      · cases h
      · cases h
      · rename_i BoundVal s1 hV
        cases h
        exact ((ExprAST_codegen_allocs Val st BoundVal s1 hV cur.parent hc).comp
          (AllocsIn.on_entryAlloca cur.parent Name s1)).then
          (AllocsIn.on_insert cur.parent _ (Instr.store BoundVal (Value.inst s1.nextId)) rfl)
theorem AssignmentAST_codegen_allocs : ∀ (a : AssignmentAST) (st : State) (v : Value)
    (st' : State), a.codegen st = some (some v, st') → ∀ fn, st.CursorIn fn →
    AllocsIn fn a.slotCount st st'
  | .mk VName VValue, st, v, st', h, fn, hc => by
    simp only [AssignmentAST.codegen] at h
    simp only [AssignmentAST.slotCount]
    split at h
    · cases h
    · split at h
      · cases h
      · cases h
      · rename_i w s2 hV
        have a0 : AllocsIn fn 0 st (st.subscript VName) :=
          AllocsIn.of_blocks_eq rfl (Nat.le_refl _)
        have i1 := ExprAST_codegen_allocs VValue _ w s2 hV fn (hc.of_cursor_eq rfl)
        cases h
        exact ((a0.comp i1).then (AllocsIn.on_insert fn _ _ (by rfl))).recount (by omega)
theorem codegenList_allocs : ∀ (es : List ExprAST) (st : State) (vs : List Value)
    (st' : State), codegenList es st = some (some vs, st') → ∀ fn, st.CursorIn fn →
    AllocsIn fn (slotCountList es) st st'
  | [], st, vs, st', h, fn, hc => by
    simp only [codegenList] at h
    simp only [slotCountList]
    cases h
    exact AllocsIn.none fn st
  | e :: es, st, vs, st', h, fn, hc => by
    simp only [codegenList] at h
    simp only [slotCountList]
    split at h
    · cases h
    · cases h
    · rename_i w s1 hE
      split at h
      · cases h
      · cases h
      · rename_i ws s2 hR
        cases h
        exact (ExprAST_codegen_allocs e st w s1 hE fn hc).comp
          (codegenList_allocs es s1 ws _ hR fn
            (hc.of_steps (ExprAST_codegen_steps e st _ _ hE)))
theorem codegenDefs_allocs : ∀ (ds : List VarBindingAST) (st : State)
    (tmp : List (Option Nat)) (st' : State),
    codegenDefs ds st = some (some tmp, st') → ∀ fn, st.CursorIn fn →
    AllocsIn fn (slotCountDefs ds) st st'
  | [], st, tmp, st', h, fn, hc => by
    simp only [codegenDefs] at h
    simp only [slotCountDefs]
    cases h
    exact AllocsIn.none fn st
  | d :: ds, st, tmp, st', h, fn, hc => by
    simp only [codegenDefs] at h
    simp only [slotCountDefs]
    split at h
    · cases h
    · cases h
    · rename_i boundval s1 hE
      split at h
      · cases h
      · cases h
      · rename_i tmp2 s2 hR
        cases h
        have i1 := VarBindingAST_codegen_allocs d st boundval s1 hE fn hc
        have hc1 := hc.of_steps (VarBindingAST_codegen_steps d st _ _ hE)
        have a2 : AllocsIn fn 0 s1 (s1.assign d.getName (some boundval)) :=
          AllocsIn.of_blocks_eq rfl (Nat.le_refl _)
        exact (i1.then a2).comp (codegenDefs_allocs ds _ tmp2 _ hR fn
          (hc1.of_cursor_eq rfl))
end

theorem bindArgs_allocs (fn : String) : ∀ (args : List String) (idx : Nat) (st : State),
    AllocsIn fn args.length st (bindArgs fn args idx st) ∧
      (bindArgs fn args idx st).cursor = st.cursor
  | [], _, st => ⟨AllocsIn.none fn st, rfl⟩
  | a :: rest, idx, st => by
    have ih := bindArgs_allocs fn rest (idx + 1)
      (((CreateEntryBlockAlloca fn a st).insert
        (Instr.store (Value.argument fn idx) (Value.inst st.nextId))).assign a (some st.nextId))
    have a1 : AllocsIn fn 1 st
        (((CreateEntryBlockAlloca fn a st).insert
          (Instr.store (Value.argument fn idx) (Value.inst st.nextId))).assign a
            (some st.nextId)) :=
      ((AllocsIn.on_entryAlloca fn a st).then (AllocsIn.on_insert fn _ _ (by rfl))).then
        (AllocsIn.of_blocks_eq rfl (Nat.le_refl _))
    refine ⟨?_, ?_⟩
    · simp only [bindArgs, List.length_cons]
      exact (a1.comp ih.1).recount (by omega)
    · simp only [bindArgs]
      rw [ih.2]
      simp [CreateEntryBlockAlloca]

theorem PrototypeAST.codegen_blocks (p : PrototypeAST) (st : State) :
    (p.codegen st).blocks = st.blocks ∧ (p.codegen st).nextId = st.nextId := by
  simp only [PrototypeAST.codegen]
  split <;> exact ⟨rfl, rfl⟩

/-- C21. When the lowering of a function definition succeeds from a state in which
no block belongs to a function of that name, the entry block of the function is the
block created by `FunctionAST::codegen` and its instructions are a run of allocations
followed by instructions none of which is an allocation. The run holds one allocation
for each slot created by `CreateEntryBlockAlloca` during the lowering: one for each
parameter and `slotCount` for the body (one each time a binding or the assignment that
initialises a loop is lowered; the condition of a loop is lowered twice). The
identities of the allocations are new and strictly decreasing: as identities are taken
in increasing order, the allocations stand in the reverse of the order in which they
were created. -/
theorem FunctionAST_codegen_entry_allocas (f : FunctionAST) (st st' : State) (v : Value)
    (hnone : ∀ b ∈ st.blocks, b.parent ≠ f.Proto.Name)
    (h : f.codegen st = some (some v, st')) :
    ∃ allocas rest,
      entryBlock f.Proto.Name st'.blocks =
        some ⟨st.nextId, f.Proto.Name, "entry", allocas ++ rest⟩ ∧
      allocas.length = f.Proto.Args.length + f.Body.slotCount ∧
      (∀ i ∈ allocas, i.isAlloca = true) ∧
      (∀ i ∈ rest, i.isAlloca = false) ∧
      (allocaIds allocas).Pairwise (· > ·) ∧
      ∀ k ∈ allocaIds allocas, st.nextId < k ∧ k < st'.nextId := by
  simp only [FunctionAST.codegen] at h
  split at h
  · cases h
  · split at h
    · cases h
    · rename_i RetVal s4 hB
      cases h
      have hb := bindArgs_allocs f.Proto.Name f.Proto.Args 0
        ((((f.Proto.codegen st).reserve 1).attach f.Proto.Name (f.Proto.codegen st).nextId
          "entry").SetInsertPoint ⟨(f.Proto.codegen st).nextId, f.Proto.Name⟩)
      have hc : (f.enter st).CursorIn f.Proto.Name :=
        (State.CursorIn.entered _ _ _).of_cursor_eq hb.2
      have hbody := ExprAST_codegen_allocs f.Body _ RetVal s4 hB f.Proto.Name hc
      have tot := ((hb.1.comp hbody).then
        (AllocsIn.on_insert f.Proto.Name s4 (Instr.ret RetVal) rfl)).then
        (AllocsIn.of_blocks_eq
          (rfl : ((s4.insert (Instr.ret RetVal)).print
            (Output.dump (Value.function f.Proto.Name))).blocks = _) (Nat.le_refl _))
      have he : entryBlock f.Proto.Name
          ((((f.Proto.codegen st).reserve 1).attach f.Proto.Name (f.Proto.codegen st).nextId
            "entry").SetInsertPoint ⟨(f.Proto.codegen st).nextId, f.Proto.Name⟩).blocks =
          some ⟨st.nextId, f.Proto.Name, "entry", []⟩ := by
        have hn : List.find? (fun b : BasicBlock => decide (b.parent = f.Proto.Name))
            st.blocks = none := by
          rw [List.find?_eq_none]
          intro b hbm
          simpa using hnone b hbm
        simp [entryBlock, State.attach, State.SetInsertPoint, State.reserve,
          (PrototypeAST.codegen_blocks f.Proto st).1, (PrototypeAST.codegen_blocks f.Proto st).2,
          List.find?_append, hn]
      obtain ⟨new, added, h1, h2, h3, h4, h5, h6⟩ := tot.2 _ he
      refine ⟨new, added, by simpa using h1, h2, h3, h4, h5, ?_⟩
      intro k hk
      have := h6 k hk
      simp only [State.attach, State.SetInsertPoint, State.reserve,
        (PrototypeAST.codegen_blocks f.Proto st).2] at this
      exact ⟨by omega, this.2⟩
    · cases h

theorem FunctionAST_codegen_entry_allocas_witness :
    (∀ b ∈ State.init.blocks, b.parent ≠ loopFn.Proto.Name) ∧
    loopFn.codegen State.init = some (some (Value.function "h"), afterLoopFn) ∧
    (blockInstrs afterLoopFn.blocks 0).map (List.take 5) =
      some [Instr.alloca 10 "a", Instr.alloca 3 "i", Instr.alloca 2 "b", Instr.alloca 1 "a",
        Instr.store (Value.argument "h" 0) (Value.inst 1)] ∧
    ∃ allocas rest,
      entryBlock loopFn.Proto.Name afterLoopFn.blocks =
        some ⟨State.init.nextId, loopFn.Proto.Name, "entry", allocas ++ rest⟩ ∧
      allocas.length = loopFn.Proto.Args.length + loopFn.Body.slotCount ∧
      (∀ i ∈ allocas, i.isAlloca = true) ∧
      (∀ i ∈ rest, i.isAlloca = false) ∧
      (allocaIds allocas).Pairwise (· > ·) ∧
      ∀ k ∈ allocaIds allocas, State.init.nextId < k ∧ k < afterLoopFn.nextId :=
  ⟨by decide, by decide, by decide,
    FunctionAST_codegen_entry_allocas loopFn State.init afterLoopFn (Value.function "h")
      (by decide) (by decide)⟩

/-! ## Every block of a function ends with its only terminator -/

theorem Unterminated.snoc {l : List Instr} (h : Unterminated l) {i : Instr}
    (hi : i.isTerminator = false) : Unterminated (l ++ [i]) := by
  intro j hj
  rcases List.mem_append.mp hj with hj | hj
  · exact h j hj
  · rw [List.mem_singleton.mp hj]; exact hi

theorem Unterminated.close {l : List Instr} (h : Unterminated l) {t : Instr}
    (ht : t.isTerminator = true) : Terminated (l ++ [t]) :=
  ⟨l, t, rfl, ht, h⟩

theorem Unterminated.push {l : List Instr} (h : Unterminated l) {i : Instr}
    (hi : i.isTerminator = false) : Unterminated (i :: l) := by
  intro j hj
  rcases List.mem_cons.mp hj with hj | hj
  · rw [hj]; exact hi
  · exact h j hj

theorem Terminated.shift {l : List Instr} (h : Terminated l) {i : Instr}
    (hi : i.isTerminator = false) : Terminated (i :: l) := by
  obtain ⟨body, t, e, ht, hb⟩ := h
  refine ⟨i :: body, t, by rw [e]; rfl, ht, ?_⟩
  exact Unterminated.push hb hi

theorem mem_appendAt {c : Nat} {i : Instr} {bs : List BasicBlock} {x : BasicBlock}
    (h : x ∈ appendAt c i bs) :
    ∃ b ∈ bs, x = if b.id = c then { b with instrs := b.instrs ++ [i] } else b := by
  unfold appendAt at h
  obtain ⟨b, hb, e⟩ := List.mem_map.mp h
  exact ⟨b, hb, e.symm⟩

theorem mem_insertAtEntry {fn : String} {i : Instr} : ∀ {bs : List BasicBlock} {x : BasicBlock},
    x ∈ insertAtEntry fn i bs →
    ∃ b ∈ bs, x.id = b.id ∧ x.parent = b.parent ∧
      (x.instrs = b.instrs ∨ x.instrs = i :: b.instrs)
  | [], x, h => by simp [insertAtEntry] at h
  | b :: bs, x, h => by
    by_cases hb : b.parent = fn
    · simp only [insertAtEntry, hb, if_true, List.mem_cons] at h
      rcases h with h | h
      · exact ⟨b, List.mem_cons_self _ _, by rw [h], by rw [h]; exact hb.symm,
          Or.inr (by rw [h])⟩
      · exact ⟨x, List.mem_cons_of_mem _ h, rfl, rfl, Or.inl rfl⟩
    · simp only [insertAtEntry, hb, if_false, List.mem_cons] at h
      rcases h with h | h
      · exact ⟨b, List.mem_cons_self _ _, by rw [h], by rw [h], Or.inl (by rw [h])⟩
      · obtain ⟨b', hb', r⟩ := mem_insertAtEntry h
        exact ⟨b', List.mem_cons_of_mem _ hb', r⟩

theorem State.Shaped.keep {fn : String} {P D : List Nat} {st st' : State}
    (h : st.Shaped fn P D) (hb : st'.blocks = st.blocks) (hc : st'.cursor = st.cursor) :
    st'.Shaped fn P D := by
  obtain ⟨c, h1, h2⟩ := h
  refine ⟨c, by rw [hc]; exact h1, ?_⟩
  rw [hb]
  exact h2

theorem State.Shaped.write {fn : String} {P D : List Nat} {st : State}
    (h : st.Shaped fn P D) (i : Instr) (hi : i.isTerminator = false) :
    (st.insert i).Shaped fn P D := by
  obtain ⟨c, hc, hp, hcm, hcP, hcD, hP, hD, hB⟩ := h
  refine ⟨c, by simpa using hc, hp, by rw [State.ids_insert]; exact hcm, hcP, hcD,
    by rw [State.ids_insert]; exact hP, by rw [State.ids_insert]; exact hD, ?_⟩
  intro x hx hpar hnD
  rw [State.blocks_insert_of_cursor st i c hc] at hx
  obtain ⟨b, hb, rfl⟩ := mem_appendAt hx
  by_cases e : b.id = c.id
  · rw [if_pos e] at hpar hnD ⊢
    have := hB b hb hpar hnD
    exact ⟨fun _ => (this.1 (Or.inl e)).snoc hi, fun hn => absurd (Or.inl e) hn⟩
  · rw [if_neg e] at hpar hnD ⊢
    exact hB b hb hpar hnD

theorem State.Shaped.produce {fn : String} {P D : List Nat} {st : State}
    (h : st.Shaped fn P D) (mk : Nat → Instr) (hmk : (mk st.nextId).isTerminator = false) :
    (st.emit mk).Shaped fn P D :=
  (h.write _ hmk).keep rfl (by simp [State.emit])

theorem State.Shaped.slot {fn : String} {P D : List Nat} {st : State}
    (h : st.Shaped fn P D) (fn' name : String) :
    (CreateEntryBlockAlloca fn' name st).Shaped fn P D := by
  obtain ⟨c, hc, hp, hcm, hcP, hcD, hP, hD, hB⟩ := h
  have hid : (CreateEntryBlockAlloca fn' name st).blocks.map (fun x => x.id) =
      st.blocks.map (fun x => x.id) := map_id_insertAtEntry _ _ _
  refine ⟨c, hc, hp, by rw [hid]; exact hcm, hcP, hcD, by rw [hid]; exact hP,
    by rw [hid]; exact hD, ?_⟩
  intro x hx hpar hnD
  obtain ⟨b, hb, e1, e2, e3⟩ := mem_insertAtEntry
    (show x ∈ insertAtEntry fn' (Instr.alloca st.nextId name) st.blocks from hx)
  rw [e1] at hnD ⊢
  rw [e2] at hpar
  have := hB b hb hpar hnD
  rcases e3 with e3 | e3
  · rw [e3]; exact this
  · rw [e3]
    exact ⟨fun q => (this.1 q).push rfl, fun q => (this.2 q).shift rfl⟩

theorem State.Shaped.close_enter {fn : String} {P D : List Nat} {st : State}
    (h : st.Shaped fn P D) (t : Instr) (ht : t.isTerminator = true) (k : Nat)
    (hk : k ∉ st.blocks.map (fun x => x.id)) (l : String) :
    (((st.insert t).attach fn k l).SetInsertPoint ⟨k, fn⟩).Shaped fn P D := by
  obtain ⟨c, hc, hp, hcm, hcP, hcD, hP, hD, hB⟩ := h
  have hid : (((st.insert t).attach fn k l).SetInsertPoint ⟨k, fn⟩).blocks.map
      (fun x => x.id) = st.blocks.map (fun x => x.id) ++ [k] := by
    rw [State.blocks_SetInsertPoint, State.ids_attach, State.ids_insert]
  refine ⟨⟨k, fn⟩, rfl, rfl, by rw [hid]; simp, fun q => hk (hP k q).1, fun q => hk (hD k q),
    fun p hp => ⟨by rw [hid]; exact List.mem_append_left _ (hP p hp).1, (hP p hp).2⟩,
    fun d hd => by rw [hid]; exact List.mem_append_left _ (hD d hd), ?_⟩
  intro x hx hpar hnD
  have hx' : x ∈ appendAt c.id t st.blocks ++
      [{ id := k, parent := fn, label := l, instrs := [] }] := by
    rw [← State.blocks_insert_of_cursor st t c hc]; exact hx
  rcases List.mem_append.mp hx' with hx' | hx'
  · obtain ⟨b, hb, rfl⟩ := mem_appendAt hx'
    have hbk : b.id ≠ k := fun q => hk (q ▸ List.mem_map_of_mem (fun x => x.id) hb)
    have hck : c.id ≠ k := fun q => hk (q ▸ hcm)
    by_cases e : b.id = c.id
    · rw [if_pos e] at hpar hnD ⊢
      have := hB b hb hpar hnD
      refine ⟨fun q => ?_, fun _ => (this.1 (Or.inl e)).close ht⟩
      rcases q with q | q
      · exact absurd (e.symm.trans q) hck
      · exact absurd (e ▸ q) hcP
    · rw [if_neg e] at hpar hnD ⊢
      have := hB b hb hpar hnD
      refine ⟨fun q => ?_, fun q => this.2 (fun r => ?_)⟩
      · rcases q with q | q
        · exact absurd q hbk
        · exact this.1 (Or.inr q)
      · rcases r with r | r
        · exact e r
        · exact q (Or.inr r)
  · rw [List.mem_singleton.mp hx']
    exact ⟨fun _ => fun i hi => by simp at hi, fun q => absurd (Or.inl rfl) q⟩

theorem State.Shaped.pend {fn : String} {P D : List Nat} {st : State}
    (h : st.Shaped fn P D) (k : Nat) (hk : k ∉ st.blocks.map (fun x => x.id)) (l : String) :
    (st.attach fn k l).Shaped fn (k :: P) D := by
  obtain ⟨c, hc, hp, hcm, hcP, hcD, hP, hD, hB⟩ := h
  have hid := State.ids_attach st fn k l
  have hck : c.id ≠ k := fun q => hk (q ▸ hcm)
  refine ⟨c, hc, hp, by rw [hid]; exact List.mem_append_left _ hcm, ?_, hcD, ?_,
    fun d hd => by rw [hid]; exact List.mem_append_left _ (hD d hd), ?_⟩
  · intro q
    rcases List.mem_cons.mp q with q | q
    · exact hck q
    · exact hcP q
  · intro p hp
    rcases List.mem_cons.mp hp with q | q
    · rw [q]; exact ⟨by rw [hid]; simp, fun r => hk (hD k r)⟩
    · exact ⟨by rw [hid]; exact List.mem_append_left _ (hP p q).1, (hP p q).2⟩
  · intro x hx hpar hnD
    have hx' : x ∈ st.blocks ++ [{ id := k, parent := fn, label := l, instrs := [] }] := hx
    rcases List.mem_append.mp hx' with hx' | hx'
    · have hbk : x.id ≠ k := fun q => hk (q ▸ List.mem_map_of_mem (fun x => x.id) hx')
      have := hB x hx' hpar hnD
      refine ⟨fun q => ?_, fun q => this.2 (fun r => ?_)⟩
      · rcases q with q | q
        · exact this.1 (Or.inl q)
        · rcases List.mem_cons.mp q with q | q
          · exact absurd q hbk
          · exact this.1 (Or.inr q)
      · rcases r with r | r
        · exact q (Or.inl r)
        · exact q (Or.inr (List.mem_cons_of_mem _ r))
    · rw [List.mem_singleton.mp hx']
      exact ⟨fun _ => fun i hi => by simp at hi,
        fun q => absurd (Or.inr (List.mem_cons_self _ _)) q⟩

theorem State.Shaped.enter_pending {fn : String} {P D : List Nat} {st : State} {k : Nat}
    (h : st.Shaped fn (k :: P) D) (hkP : k ∉ P) (t : Instr) (ht : t.isTerminator = true) :
    ((st.insert t).SetInsertPoint ⟨k, fn⟩).Shaped fn P D := by
  obtain ⟨c, hc, hp, hcm, hcP, hcD, hP, hD, hB⟩ := h
  have hid : ((st.insert t).SetInsertPoint ⟨k, fn⟩).blocks.map (fun x => x.id) =
      st.blocks.map (fun x => x.id) := by
    rw [State.blocks_SetInsertPoint, State.ids_insert]
  have hck : c.id ≠ k := fun q => hcP (q ▸ List.mem_cons_self _ _)
  have hcP' : c.id ∉ P := fun q => hcP (List.mem_cons_of_mem _ q)
  refine ⟨⟨k, fn⟩, rfl, rfl, by rw [hid]; exact (hP k (List.mem_cons_self _ _)).1, hkP,
    (hP k (List.mem_cons_self _ _)).2,
    fun p hp => by rw [hid]; exact hP p (List.mem_cons_of_mem _ hp),
    fun d hd => by rw [hid]; exact hD d hd, ?_⟩
  intro x hx hpar hnD
  have hx' : x ∈ appendAt c.id t st.blocks := by
    rw [← State.blocks_insert_of_cursor st t c hc]; exact hx
  obtain ⟨b, hb, rfl⟩ := mem_appendAt hx'
  by_cases e : b.id = c.id
  · rw [if_pos e] at hpar hnD ⊢
    have := hB b hb hpar hnD
    refine ⟨fun q => ?_, fun _ => (this.1 (Or.inl e)).close ht⟩
    rcases q with q | q
    · exact absurd (e.symm.trans q) hck
    · exact absurd (e ▸ q) hcP'
  · rw [if_neg e] at hpar hnD ⊢
    have := hB b hb hpar hnD
    refine ⟨fun q => ?_, fun q => this.2 (fun r => ?_)⟩
    · rcases q with q | q
      · exact this.1 (Or.inr (q ▸ List.mem_cons_self _ _))
      · exact this.1 (Or.inr (List.mem_cons_of_mem _ q))
    · rcases r with r | r
      · exact e r
      · rcases List.mem_cons.mp r with r | r
        · exact q (Or.inl r)
        · exact q (Or.inr r)

theorem State.Shaped.close_all {fn : String} {D : List Nat} {st : State}
    (h : st.Shaped fn [] D) (t : Instr) (ht : t.isTerminator = true) :
    ∀ b ∈ (st.insert t).blocks, b.parent = fn → b.id ∉ D → Terminated b.instrs := by
  obtain ⟨c, hc, hp, hcm, hcP, hcD, hP, hD, hB⟩ := h
  intro x hx hpar hnD
  rw [State.blocks_insert_of_cursor st t c hc] at hx
  obtain ⟨b, hb, rfl⟩ := mem_appendAt hx
  by_cases e : b.id = c.id
  · rw [if_pos e] at hpar hnD ⊢
    exact ((hB b hb hpar hnD).1 (Or.inl e)).close ht
  · rw [if_neg e] at hpar hnD ⊢
    exact (hB b hb hpar hnD).2 (fun r => by
      rcases r with r | r
      · exact e r
      · simp at r)

theorem State.attach_insert (st : State) (c : BlockRef) (hc : st.cursor = some c) (fn : String)
    (k : Nat) (hk : c.id ≠ k) (l : String) (i : Instr) :
    (st.attach fn k l).insert i = (st.insert i).attach fn k l := by
  have hk' : ¬ k = c.id := fun q => hk q.symm
  simp [State.insert, State.attach, hc, appendAt, hk']

theorem State.Shaped.thenEntry {fn : String} {P D : List Nat} {s1 : State}
    (h : s1.Shaped fn P D) (hk : s1.nextId ∉ s1.blocks.map (fun x => x.id)) (cur : BlockRef)
    (hcur : s1.cursor = some cur) (CondV : Value) :
    (IfExprAST.thenEntry s1 cur CondV).Shaped fn P D := by
  have hpar : cur.parent = fn := by
    obtain ⟨c, hc, hp, -⟩ := h
    rw [hcur] at hc
    cases hc
    exact hp
  have hck : cur.id ≠ s1.nextId := by
    obtain ⟨c, hc, -, hcm, -⟩ := h
    rw [hcur] at hc
    cases hc
    exact fun q => hk (q ▸ hcm)
  have h3 : (s1.reserve 3).Shaped fn P D := h.keep rfl rfl
  have e : IfExprAST.thenEntry s1 cur CondV =
      ((((s1.reserve 3).insert (Instr.condBr CondV s1.nextId (s1.nextId + 1))).attach fn
        s1.nextId "trueexp").SetInsertPoint ⟨s1.nextId, fn⟩) := by
    unfold IfExprAST.thenEntry
    rw [hpar, State.attach_insert (s1.reserve 3) cur hcur fn s1.nextId hck]
  rw [e]
  exact h3.close_enter _ (by rfl) _ hk _

theorem restoreDefs_cursor_eq : ∀ (Def : List VarBindingAST) (tmp : List (Option Nat))
    (st : State), (restoreDefs Def tmp st).cursor = st.cursor
  | [], _, st => by simp [restoreDefs]
  | _ :: _, [], st => by simp [restoreDefs]
  | d :: ds, t :: ts, st => by
    simp only [restoreDefs]
    rw [restoreDefs_cursor_eq ds ts (st.assign d.getName t)]
    simp

theorem State.Shaped.cursor_parent {fn : String} {P D : List Nat} {st : State}
    (h : st.Shaped fn P D) {cur : BlockRef} (hcur : st.cursor = some cur) :
    cur.parent = fn := by
  obtain ⟨c, hc, hp, -⟩ := h
  rw [hcur] at hc
  cases hc
  exact hp

theorem State.Shaped.pending_attached {fn : String} {P D : List Nat} {st : State}
    (h : st.Shaped fn P D) {k : Nat} (hk : k ∉ st.blocks.map (fun x => x.id)) : k ∉ P := by
  obtain ⟨c, -, -, -, -, -, hP, -⟩ := h
  exact fun q => hk (hP k q).1

mutual
theorem ExprAST_codegen_shaped : ∀ (e : ExprAST) (st : State) (v : Value) (st' : State),
    e.codegen st = some (some v, st') → st.UniqueIds → ∀ fn P D, st.Shaped fn P D →
    st'.Shaped fn P D
  | .number Val, st, v, st', h, hu, fn, P, D, hs => by
    simp only [ExprAST.codegen] at h
    cases h
    exact hs
  | .var Name, st, v, st', h, hu, fn, P, D, hs => by
    simp only [ExprAST.codegen] at h
    have a0 : (st.subscript Name).Shaped fn P D := hs.keep rfl rfl
    split at h
    · cases h; exact a0.produce _ rfl
    · split at h
      · cases h; exact a0.produce _ rfl
      · cases h
  | .logical Op LHS RHS, st, v, st', h, hu, fn, P, D, hs => by
    simp only [ExprAST.codegen] at h
    split at h
    · cases h
    · rename_i L s1 hL
      split at h
      · split at h
        · cases h
        · rename_i Lv
          cases h
          exact (ExprAST_codegen_shaped LHS st Lv s1 hL hu fn P D hs).produce _ rfl
      · split at h
        · cases h
        · rename_i R s2 hR
          split at h
          · rename_i Lv Rv
            have i1 := ExprAST_codegen_shaped LHS st Lv s1 hL hu fn P D hs
            have u1 := ExprAST_codegen_uniqueIds LHS st _ _ hL hu
            have i2 := derefCodegen_shaped RHS s1 Rv s2 hR u1 fn P D i1
            split at h
            · cases h; exact i2.produce _ rfl
            · split at h
              · cases h; exact i2.produce _ rfl
              · cases h
          · cases h
  | .binary Op LHS RHS, st, v, st', h, hu, fn, P, D, hs => by
    simp only [ExprAST.codegen] at h
    split at h
    · cases h
    · rename_i L s1 hL
      split at h
      · cases h
      · rename_i R s2 hR
        split at h
        · rename_i Lv Rv
          have i1 := ExprAST_codegen_shaped LHS st Lv s1 hL hu fn P D hs
          have u1 := ExprAST_codegen_uniqueIds LHS st _ _ hL hu
          have i2 := ExprAST_codegen_shaped RHS s1 Rv s2 hR u1 fn P D i1
          split at h
          · rename_i i hi
            split at h
            · cases h
              exact i2
            · cases h
              refine i2.produce _ ?_
              simp only [binaryInstr] at hi
              repeat' split at hi
              all_goals first | (cases hi; rfl) | cases hi
          · cases h
        · cases h
  | .call Callee Args, st, v, st', h, hu, fn, P, D, hs => by
    simp only [ExprAST.codegen] at h
    split at h
    · cases h
    · split at h
      · cases h
      · split at h
        · cases h
        · cases h
        · rename_i ArgsV s1 hA
          cases h
          exact (codegenList_shaped Args st ArgsV s1 hA hu fn P D hs).produce _ rfl
  | .ifExpr Cond TrueExp FalseExp, st, v, st', h, hu, fn, P, D, hs => by
    simp only [ExprAST.codegen] at h
    split at h
    · cases h
    · cases h
    · rename_i CondV s1 hC
      have i1 := ExprAST_codegen_shaped Cond st CondV s1 hC hu fn P D hs
      have u1 := ExprAST_codegen_uniqueIds Cond st _ _ hC hu
      split at h
      · cases h
      · rename_i cur hcur
        have hp := i1.cursor_parent hcur
        subst hp
        have u2 := IfExprAST.thenEntry_uniqueIds u1 cur CondV
        have a2 := i1.thenEntry (u1.fresh _ (Nat.le_refl _)) cur hcur CondV
        split at h
        · cases h
        · cases h
        · rename_i TrueV s3 hT
          have i3 := ExprAST_codegen_shaped TrueExp _ TrueV s3 hT u2 cur.parent P D a2
          have u3 := ExprAST_codegen_uniqueIds TrueExp _ _ _ hT u2
          have k3 : StepsFrom (IfExprAST.thenEntry s1 cur CondV).nextId
              (IfExprAST.thenEntry s1 cur CondV) s3 := ExprAST_codegen_steps TrueExp _ _ _ hT
          have u5 := IfExprAST.elseEntry_uniqueIds cur CondV u1 u3 k3 (by simp)
          obtain ⟨n3, m1, -⟩ := IfExprAST.then_notMem cur CondV u1 k3 (by simp)
          have a5 : (IfExprAST.elseEntry s1 cur s3).Shaped cur.parent P D :=
            i3.close_enter (Instr.br (s1.nextId + 2)) rfl (s1.nextId + 1) m1 "falseexp"
          split at h
          · cases h
          · split at h
            · cases h
            · cases h
            · rename_i FalseV s6 hF
              have i6 := ExprAST_codegen_shaped FalseExp _ FalseV s6 hF u5 cur.parent P D a5
              have k6 : StepsFrom (IfExprAST.elseEntry s1 cur s3).nextId
                  (IfExprAST.elseEntry s1 cur s3) s6 := ExprAST_codegen_steps FalseExp _ _ _ hF
              obtain ⟨n6, m6⟩ := IfExprAST.else_notMem cur CondV u1 k3 (by simp) k6
                (by simp; omega)
              split at h
              · cases h
              · cases h
                exact (i6.close_enter (Instr.br (s1.nextId + 2)) rfl (s1.nextId + 2) m6
                  "endcond").produce _ rfl
  | .forExpr StartExp Cond StepExp BlockExp, st, v, st', h, hu, fn, P, D, hs => by
    simp only [ExprAST.codegen] at h
    split at h
    · cases h
    · rename_i cur hcur
      have hp := hs.cursor_parent hcur
      subst hp
      split at h
      · cases h
      · cases h
      · rename_i outer s1 hI
        have i1 := ForInit_codegen_shaped StartExp cur.parent st outer s1 hI hu P D hs
        have u1 := ForInit_codegen_uniqueIds StartExp _ st _ _ hI hu
        have u2 := ForExprAST.condEntry_uniqueIds u1 cur.parent
        have hk1 : s1.nextId ∉ s1.blocks.map (fun x => x.id) := u1.fresh _ (Nat.le_refl _)
        have hkP : s1.nextId ∉ P := i1.pending_attached hk1
        have a2 : (ForExprAST.condEntry s1 cur.parent).Shaped cur.parent (s1.nextId :: P) D :=
          (i1.keep rfl rfl : (s1.reserve 2).Shaped cur.parent P D).pend s1.nextId hk1 "loop"
        split at h
        · cases h
        · cases h
        · rename_i EndV s3 hC
          have i3 := ExprAST_codegen_shaped Cond _ EndV s3 hC u2 cur.parent _ D a2
          have u3 := ExprAST_codegen_uniqueIds Cond _ _ _ hC u2
          have kC : StepsFrom (ForExprAST.condEntry s1 cur.parent).nextId
              (ForExprAST.condEntry s1 cur.parent) s3 := ExprAST_codegen_steps Cond _ _ _ hC
          have n3 := kC.nextId_le
          have u4 : (ForExprAST.bodyEntry s1 cur.parent s3 EndV).UniqueIds :=
            (u3.after_insert _).after_setInsertPoint _
          have a4 : (ForExprAST.bodyEntry s1 cur.parent s3 EndV).Shaped cur.parent P D :=
            i3.enter_pending hkP (Instr.condBr EndV s1.nextId (s1.nextId + 1)) rfl
          split at h
          · cases h
          · cases h
          · rename_i bv s5 hB
            have i5 := ExprAST_codegen_shaped BlockExp _ bv s5 hB u4 cur.parent P D a4
            have u5 := ExprAST_codegen_uniqueIds BlockExp _ _ _ hB u4
            have kB : StepsFrom (ForExprAST.bodyEntry s1 cur.parent s3 EndV).nextId
                (ForExprAST.bodyEntry s1 cur.parent s3 EndV) s5 :=
              ExprAST_codegen_steps BlockExp _ _ _ hB
            split at h
            · cases h
            · cases h
            · rename_i sv s6 hS
              have i6 := stepCodegen_shaped StepExp s5 sv s6 hS u5 cur.parent P D i5
              have u6 := stepCodegen_uniqueIds StepExp _ _ _ hS u5
              have kS := stepCodegen_steps StepExp _ _ _ hS
              split at h
              · cases h
              · cases h
              · rename_i EndV2 s7 hC2
                have i7 := ExprAST_codegen_shaped Cond s6 EndV2 s7 hC2 u6 cur.parent P D i6
                have kC2 := ExprAST_codegen_steps Cond _ _ _ hC2
                have k47 := (kB.trans kS kB.nextId_le).trans kC2
                  (Nat.le_trans kB.nextId_le kS.nextId_le)
                obtain ⟨n7, m7⟩ := ForExprAST.after_notMem cur.parent EndV u1 kC
                  (by simp [ForExprAST.condEntry]) k47
                  (by simp [ForExprAST.condEntry, ForExprAST.bodyEntry] at n3 ⊢; omega)
                have a8 : (ForExprAST.afterEntry s1 cur.parent s7 EndV2).Shaped cur.parent P D :=
                  i7.close_enter (Instr.condBr EndV2 s1.nextId (s1.nextId + 1)) rfl
                    (s1.nextId + 1) m7 "afterloop"
                split at h
                · cases h
                · split at h
                  · cases h
                    exact a8.keep rfl rfl
                  · cases h
                    exact a8.keep rfl rfl
  | .block Def Val, st, v, st', h, hu, fn, P, D, hs => by
    simp only [ExprAST.codegen] at h
    split at h
    · cases h
    · cases h
    · rename_i tmp s1 hD
      have i1 := codegenDefs_shaped Def st tmp s1 hD hu fn P D hs
      have u1 := codegenDefs_uniqueIds Def st _ _ hD hu
      split at h
      · cases h
      · cases h
      · rename_i vals s2 hV
        have i2 := codegenList_shaped Val s1 vals s2 hV u1 fn P D i1
        split at h
        · cases h
        · cases h
          exact i2.keep (restoreDefs_blocks _ _ _).1 (restoreDefs_cursor_eq _ _ _)
  | .assignment a, st, v, st', h, hu, fn, P, D, hs => by
    simp only [ExprAST.codegen] at h
    exact AssignmentAST_codegen_shaped a st v st' h hu fn P D hs
theorem derefCodegen_shaped : ∀ (e : Option ExprAST) (st : State) (v : Value) (st' : State),
    derefCodegen e st = some (some v, st') → st.UniqueIds → ∀ fn P D, st.Shaped fn P D →
    st'.Shaped fn P D
  | none, st, v, st', h, hu, fn, P, D, hs => by
    simp only [derefCodegen] at h
    cases h
  | some e, st, v, st', h, hu, fn, P, D, hs => by
    simp only [derefCodegen] at h
    exact ExprAST_codegen_shaped e st v st' h hu fn P D hs
theorem ForInit_codegen_shaped : ∀ (i : ForInit) (fn : String) (st : State)
    (outer : Option (String × Option Nat)) (st' : State),
    i.codegen fn st = some (some outer, st') → st.UniqueIds → ∀ P D, st.Shaped fn P D →
    st'.Shaped fn P D
  | .binding b, fn, st, outer, st', h, hu, P, D, hs => by
    simp only [ForInit.codegen] at h
    split at h
    · cases h
    · cases h
    · rename_i Alloca s1 hB
      cases h
      exact (VarBindingAST_codegen_shaped b st Alloca s1 hB hu fn P D hs).keep rfl rfl
  | .assign a, fn, st, outer, st', h, hu, P, D, hs => by
    simp only [ForInit.codegen] at h
    split at h
    · cases h
    · cases h
    · rename_i Var s1 hA
      cases h
      have i1 := AssignmentAST_codegen_shaped a _ Var s1 hA (hu.after_entryAlloca _ _) fn P D
        (hs.slot fn a.getName)
      exact (i1.write _ (by rfl)).keep rfl rfl
theorem stepCodegen_shaped : ∀ (e : Option AssignmentAST) (st : State) (v : Value)
    (st' : State), stepCodegen e st = some (some v, st') → st.UniqueIds →
    ∀ fn P D, st.Shaped fn P D → st'.Shaped fn P D
  | none, st, v, st', h, hu, fn, P, D, hs => by
    simp only [stepCodegen] at h
    cases h
    exact hs
  | some a, st, v, st', h, hu, fn, P, D, hs => by
    simp only [stepCodegen] at h
    exact AssignmentAST_codegen_shaped a st v st' h hu fn P D hs
theorem VarBindingAST_codegen_shaped : ∀ (d : VarBindingAST) (st : State) (slot : Nat)
    (st' : State), d.codegen st = some (some slot, st') → st.UniqueIds →
    ∀ fn P D, st.Shaped fn P D → st'.Shaped fn P D
  | .mk Name Val, st, slot, st', h, hu, fn, P, D, hs => by
    simp only [VarBindingAST.codegen] at h
    split at h
    · cases h
    · rename_i cur hcur
      split at h
      · cases h
      · cases h
      · rename_i BoundVal s1 hV
        cases h
        exact ((ExprAST_codegen_shaped Val st BoundVal s1 hV hu fn P D hs).slot cur.parent
          Name).write _ (by rfl)
theorem AssignmentAST_codegen_shaped : ∀ (a : AssignmentAST) (st : State) (v : Value)
    (st' : State), a.codegen st = some (some v, st') → st.UniqueIds →
    ∀ fn P D, st.Shaped fn P D → st'.Shaped fn P D
  | .mk VName VValue, st, v, st', h, hu, fn, P, D, hs => by
    simp only [AssignmentAST.codegen] at h
    split at h
    · cases h
    · split at h
      · cases h
      · cases h
      · rename_i w s2 hV
        have i1 := ExprAST_codegen_shaped VValue _ w s2 hV (hu.after_subscript VName) fn P D
          (hs.keep rfl rfl)
        cases h
        exact i1.write _ (by rfl)
theorem codegenList_shaped : ∀ (es : List ExprAST) (st : State) (vs : List Value)
    (st' : State), codegenList es st = some (some vs, st') → st.UniqueIds →
    ∀ fn P D, st.Shaped fn P D → st'.Shaped fn P D
  | [], st, vs, st', h, hu, fn, P, D, hs => by
    simp only [codegenList] at h
    cases h
    exact hs
  | e :: es, st, vs, st', h, hu, fn, P, D, hs => by
    simp only [codegenList] at h
    split at h
    · cases h
    · cases h
    · rename_i w s1 hE
      split at h
      · cases h
      · cases h
      · rename_i ws s2 hR
        cases h
        exact codegenList_shaped es s1 ws _ hR (ExprAST_codegen_uniqueIds e st _ _ hE hu)
          fn P D (ExprAST_codegen_shaped e st w s1 hE hu fn P D hs)
theorem codegenDefs_shaped : ∀ (ds : List VarBindingAST) (st : State)
    (tmp : List (Option Nat)) (st' : State),
    codegenDefs ds st = some (some tmp, st') → st.UniqueIds →
    ∀ fn P D, st.Shaped fn P D → st'.Shaped fn P D
  | [], st, tmp, st', h, hu, fn, P, D, hs => by
    simp only [codegenDefs] at h
    cases h
    exact hs
  | d :: ds, st, tmp, st', h, hu, fn, P, D, hs => by
    simp only [codegenDefs] at h
    split at h
    · cases h
    · cases h
    · rename_i boundval s1 hE
      split at h
      · cases h
      · cases h
      · rename_i tmp2 s2 hR
        cases h
        have i1 := VarBindingAST_codegen_shaped d st boundval s1 hE hu fn P D hs
        have u1 := VarBindingAST_codegen_uniqueIds d st _ _ hE hu
        exact codegenDefs_shaped ds _ tmp2 _ hR (u1.after_assign _ _) fn P D
          (i1.keep rfl rfl)
end

theorem bindArgs_shaped {fn : String} {P D : List Nat} (fn' : String) :
    ∀ (args : List String) (idx : Nat) (st : State), st.Shaped fn P D →
    (bindArgs fn' args idx st).Shaped fn P D
  | [], _, st, h => h
  | a :: rest, idx, st, h => by
    simp only [bindArgs]
    exact bindArgs_shaped fn' rest (idx + 1) _
      (((h.slot fn' a).write _ (by rfl)).keep rfl rfl)

theorem FunctionAST.enter_shaped (f : FunctionAST) (st : State)
    (hnone : ∀ b ∈ st.blocks, b.parent ≠ f.Proto.Name) :
    (f.enter st).Shaped f.Proto.Name [] [] := by
  refine bindArgs_shaped f.Proto.Name f.Proto.Args 0 _ ?_
  refine ⟨⟨(f.Proto.codegen st).nextId, f.Proto.Name⟩, rfl, rfl, ?_, by simp, by simp,
    by simp, by simp, ?_⟩
  · simp [State.attach, State.SetInsertPoint]
  · intro x hx hpar _
    have hx' : x ∈ st.blocks ++
        [BasicBlock.mk (f.Proto.codegen st).nextId f.Proto.Name "entry" []] := by
      have := (PrototypeAST.codegen_blocks f.Proto st).1
      simpa [State.attach, State.SetInsertPoint, State.reserve, this] using hx
    rcases List.mem_append.mp hx' with hx' | hx'
    · exact absurd hpar (hnone x hx')
    · rw [List.mem_singleton.mp hx']
      exact ⟨fun _ => fun i hi => by simp at hi, fun q => absurd (Or.inl rfl) q⟩

/-- C23. When the lowering of a function definition succeeds from a state whose
blocks have distinct identities and none of which belongs to a function of that name,
every block attached to the function holds exactly one terminator (a conditional
branch, a branch or a return), and it is the last instruction of the block. This
rests on what every expression lowering does, which is the second part: a successful
lowering started with the cursor in an attached block that holds no terminator ends
with the cursor in a block of the same function that holds no terminator, every block
of the function it attached other than that one holds exactly one terminator, its
last instruction, and so does the block it started in when the cursor has left it. -/
theorem FunctionAST_codegen_terminated (f : FunctionAST) (st st' : State) (v : Value)
    (hu : st.UniqueIds) (hnone : ∀ b ∈ st.blocks, b.parent ≠ f.Proto.Name)
    (h : f.codegen st = some (some v, st')) :
    (∀ b ∈ st'.blocks, b.parent = f.Proto.Name → Terminated b.instrs) ∧
    ∀ (e : ExprAST) (s s' : State) (w : Value) (c : BlockRef),
      s.UniqueIds → s.cursor = some c → c.id ∈ s.blocks.map (fun x => x.id) →
      (∀ b ∈ s.blocks, b.parent = c.parent → b.id = c.id → Unterminated b.instrs) →
      e.codegen s = some (some w, s') →
      ∃ c', s'.cursor = some c' ∧ c'.parent = c.parent ∧
        (∀ b ∈ s'.blocks, b.parent = c.parent → b.id = c'.id → Unterminated b.instrs) ∧
        (∀ b ∈ s'.blocks, b.parent = c.parent → b.id ∉ s.blocks.map (fun x => x.id) →
          b.id ≠ c'.id → Terminated b.instrs) ∧
        (c'.id ≠ c.id → ∀ b ∈ s'.blocks, b.parent = c.parent → b.id = c.id →
          Terminated b.instrs) := by
  constructor
  · simp only [FunctionAST.codegen] at h
    split at h
    · cases h
    · split at h
      · cases h
      · rename_i RetVal s4 hB
        cases h
        have i4 := ExprAST_codegen_shaped f.Body _ RetVal s4 hB
          (FunctionAST.enter_uniqueIds f st hu) f.Proto.Name [] [] (f.enter_shaped st hnone)
        intro b hb hpar
        exact i4.close_all (Instr.ret RetVal) rfl b hb hpar (by simp)
      · cases h
  · intro e s s' w c su hc hcm hopen he
    have hs : s.Shaped c.parent []
        ((s.blocks.map (fun x => x.id)).filter (fun k => decide (k ≠ c.id))) := by
      refine ⟨c, hc, rfl, hcm, by simp, by simp, by simp, ?_, ?_⟩
      · intro d hd
        exact (List.mem_filter.mp hd).1
      · intro b hb hpar hnD
        have hbc : b.id = c.id := by
          by_contra q
          exact hnD (List.mem_filter.mpr ⟨List.mem_map_of_mem (fun x => x.id) hb, by simpa using q⟩)
        exact ⟨fun _ => hopen b hb hpar hbc, fun q => absurd (Or.inl hbc) q⟩
    obtain ⟨c', hc', hp', -, -, hcD, -, -, hB⟩ :=
      ExprAST_codegen_shaped e s w s' he su c.parent [] _ hs
    refine ⟨c', hc', hp', ?_, ?_, ?_⟩
    · intro b hb hpar hbc
      exact (hB b hb hpar (hbc ▸ hcD)).1 (Or.inl hbc)
    · intro b hb hpar hnew hne
      refine (hB b hb hpar (fun q => hnew (List.mem_filter.mp q).1)).2 (fun r => ?_)
      rcases r with r | r
      · exact hne r
      · simp at r
    · intro hne b hb hpar hbc
      refine (hB b hb hpar (fun q => ?_)).2 (fun r => ?_)
      · have := (List.mem_filter.mp q).2
        simp at this
        exact this hbc
      · rcases r with r | r
        · exact hne (r ▸ hbc.symm ▸ rfl)
        · simp at r

theorem FunctionAST_codegen_terminated_witness :
    State.init.UniqueIds ∧ (∀ b ∈ State.init.blocks, b.parent ≠ recFn.Proto.Name) ∧
    recFn.codegen State.init = some (some (Value.function "r"), afterRecFn) ∧
    afterRecFn.blocks.map (fun b : BasicBlock => (b.id, b.parent, b.instrs.getLast?)) =
      [(0, "r", some (Instr.condBr (Value.inst 3) 4 5)), (4, "r", some (Instr.br 6)),
       (5, "r", some (Instr.br 6)), (6, "r", some (Instr.ret (Value.inst 10)))] ∧
    ((∀ b ∈ afterRecFn.blocks, b.parent = recFn.Proto.Name → Terminated b.instrs) ∧
    ∀ (e : ExprAST) (s s' : State) (w : Value) (c : BlockRef),
      s.UniqueIds → s.cursor = some c → c.id ∈ s.blocks.map (fun x => x.id) →
      (∀ b ∈ s.blocks, b.parent = c.parent → b.id = c.id → Unterminated b.instrs) →
      e.codegen s = some (some w, s') →
      ∃ c', s'.cursor = some c' ∧ c'.parent = c.parent ∧
        (∀ b ∈ s'.blocks, b.parent = c.parent → b.id = c'.id → Unterminated b.instrs) ∧
        (∀ b ∈ s'.blocks, b.parent = c.parent → b.id ∉ s.blocks.map (fun x => x.id) →
          b.id ≠ c'.id → Terminated b.instrs) ∧
        (c'.id ≠ c.id → ∀ b ∈ s'.blocks, b.parent = c.parent → b.id = c.id →
          Terminated b.instrs)) :=
  ⟨by decide, by decide, by decide, by decide,
    FunctionAST_codegen_terminated recFn State.init afterRecFn (Value.function "r")
      (by decide) (by decide) (by decide)⟩

end Kaleidoscope
